import Mathlib

/-!
# curset: install ledger and reconciler

A shallow embedding of `curset/internal/manifest/manifest.go`,
`curset/internal/github/client.go` and `curset/internal/installer/installer.go`,
followed by theorems about the embedded functions. The uninstall path, which
`curset/cmd/uninstall.go` calls and installer.go does not define, follows section 4.4
of the specification.

Go slices are lists, Go `string` is `String`, `[]byte` payloads are `String`.
Methods on `*Manifest` that mutate the receiver return the new manifest.
-/

set_option autoImplicit false

namespace Curset

/-! ## manifest.go -/

/-- Entry represents a single installed item tracked by curset.
The Go field `Type` is spelled `Typ`, `Type` being reserved. -/
structure Entry where
  Typ : String
  Name : String
  IsDir : Bool
  Files : List String
deriving DecidableEq, Repr

/-- Manifest tracks all items installed by curset. The struct of manifest.go
declares `Collections` and `Entries`; `Installer.Install` assigns a field
`Collection`, which is carried here so that the assignment can be written down. -/
structure Manifest where
  Collections : List String
  Entries : List Entry
  Collection : String
deriving DecidableEq, Repr

/-- The manifest `Load` returns when no file exists: `&Manifest{}`. -/
def Manifest.empty : Manifest := ⟨[], [], ""⟩

/-- The loop condition shared by the entry methods: `e.Typ == objType && e.Name == name`. -/
def Entry.hasKey (e : Entry) (objType name : String) : Bool :=
  e.Typ == objType && e.Name == name

/-- IsManaged checks if a given type/name entry is tracked by curset. -/
def Manifest.IsManaged (m : Manifest) (objType name : String) : Bool :=
  m.Entries.any fun e => e.hasKey objType name

/-- HasCollection checks if a collection is already installed. -/
def Manifest.HasCollection (m : Manifest) (name : String) : Bool :=
  m.Collections.any fun c => c == name

/-- AddCollection adds a collection name to the installed list if not already present. -/
def Manifest.AddCollection (m : Manifest) (name : String) : Manifest :=
  if !m.HasCollection name then { m with Collections := m.Collections ++ [name] } else m

/-- The loop of RemoveCollection: drop the first element equal to `name`. -/
def removeFirstName (name : String) : List String → List String
  | [] => []
  | c :: cs => if c == name then cs else c :: removeFirstName name cs

/-- RemoveCollection removes a collection name from the installed list. -/
def Manifest.RemoveCollection (m : Manifest) (name : String) : Manifest :=
  { m with Collections := removeFirstName name m.Collections }

/-- The loop of AddOrUpdate: overwrite the first row with the key of `entry`,
append when the loop finds none. -/
def addOrUpdateRows (entry : Entry) : List Entry → List Entry
  | [] => [entry]
  | e :: es =>
    if e.hasKey entry.Typ entry.Name then entry :: es else e :: addOrUpdateRows entry es

/-- AddOrUpdate adds a new entry or updates an existing one in the manifest. -/
def Manifest.AddOrUpdate (m : Manifest) (entry : Entry) : Manifest :=
  { m with Entries := addOrUpdateRows entry m.Entries }

/-- The loop of RemoveEntry: drop the first row with the key. -/
def removeFirstRow (objType name : String) : List Entry → List Entry
  | [] => []
  | e :: es => if e.hasKey objType name then es else e :: removeFirstRow objType name es

/-- RemoveEntry removes an entry from the manifest by type and name. -/
def Manifest.RemoveEntry (m : Manifest) (objType name : String) : Manifest :=
  { m with Entries := removeFirstRow objType name m.Entries }

/-- GetEntry returns an entry by type and name, or nil if not found. -/
def Manifest.GetEntry (m : Manifest) (objType name : String) : Option Entry :=
  m.Entries.find? fun e => e.hasKey objType name

/-- The (type, name) pair of a row. -/
def Entry.key (e : Entry) : String × String := (e.Typ, e.Name)

/-- At most one row per (type, name) pair. -/
def Manifest.UniqueKeys (m : Manifest) : Prop :=
  (m.Entries.map Entry.key).Nodup

/-! ## Library functions used by the installer: strings, path/filepath

Paths handed to the `os` functions are kept as the list of their elements,
relative to the working directory; `Path.toString` is the Go string.
Go strings are byte strings; `.` and `/` are single bytes, so working on
characters gives the same cuts. -/

/-- The reading loop of a split at `/`: `acc` holds the current piece, reversed. -/
def splitSlashAux : List Char → List Char → List String
  | [], acc => [String.mk acc.reverse]
  | c :: cs, acc =>
    if c = '/' then String.mk acc.reverse :: splitSlashAux cs [] else splitSlashAux cs (c :: acc)

/-- The pieces of `s` between `/` separators, empty pieces included. -/
def splitSlash (s : String) : List String := splitSlashAux s.data []

/-- One step of `filepath.Clean` on a stack of elements, last element first:
empty and `.` elements are dropped, `..` removes the element before it, or is
kept when there is none to remove and the path is not rooted. -/
def cleanStep (rooted : Bool) (stack : List String) (e : String) : List String :=
  if e = "" ∨ e = "." then stack
  else if e = ".." then
    match stack with
    | [] => if rooted then [] else [".."]
    | top :: rest => if top = ".." then ".." :: top :: rest else rest
  else e :: stack

/-- A cleaned relative path, as its elements; `[]` is the working directory. -/
abbrev Path := List String

/-- The Go string of a cleaned relative path. -/
def Path.toString (p : Path) : String :=
  if p = [] then "." else "/".intercalate p

/-- Relative `filepath.Join(base, elem...)` for a cleaned `base`: the elements
of `base/elem[0]/elem[1]/...` after `filepath.Clean`. -/
def Path.join (base : Path) (elem : List String) : Path :=
  ((elem.flatMap splitSlash).foldl (cleanStep false) base.reverse).reverse

/-- Directory part of a cleaned relative path: `filepath.Dir`. -/
def filepath.Dir (p : Path) : Path := p.dropLast

/-- Whether the first non-empty element starts with a separator. -/
def filepath.rooted : List String → Bool
  | [] => false
  | e :: es => if e = "" then filepath.rooted es else e.data.head? = some '/'

/-- Join joins any number of path elements into a single path and cleans it;
empty elements are ignored and the result is empty when all are. -/
def filepath.Join (elem : List String) : String :=
  if elem.all (fun e => e == "") then ""
  else
    let rooted := filepath.rooted elem
    let parts := ((elem.flatMap splitSlash).foldl (cleanStep rooted) []).reverse
    if rooted then "/" ++ "/".intercalate parts else Path.toString parts

/-- The scan of `filepath.Ext` from the end of the name: `acc` is the text
after the current position. -/
def extAux : List Char → List Char → List Char
  | [], _ => []
  | c :: cs, acc =>
    if c = '/' then [] else if c = '.' then '.' :: acc else extAux cs (c :: acc)

/-- Ext returns the file name extension: the suffix beginning at the final dot
in the final element of path; it is empty if there is no dot. -/
def filepath.Ext (path : String) : String := String.mk (extAux path.data.reverse [])

/-- TrimPrefix returns s without the provided leading string, or s itself. -/
def strings.TrimPrefix (s pre : String) : String :=
  if pre.data.isPrefixOf s.data then String.mk (s.data.drop pre.data.length) else s

/-- TrimSuffix returns s without the provided trailing string, or s itself. -/
def strings.TrimSuffix (s suffix : String) : String :=
  if suffix.data.isSuffixOf s.data then
    String.mk (s.data.take (s.data.length - suffix.data.length))
  else s

/-! ## The local filesystem

Lexical paths below the working directory; no symbolic links, no permissions. -/

/-- What a path holds. -/
inductive Node where
  | dir
  | file (data : String)
deriving DecidableEq, Repr

/-- The local filesystem: what each path holds, if anything. -/
abbrev FS := Path → Option Node

/-- Why an `os` call failed: the errno. -/
inductive FsError where
  | notDir
  | noEnt
  | isDir
  | exist
deriving DecidableEq, Repr

/-- The errno text of an `os` error. -/
def FsError.message : FsError → String
  | .notDir => "not a directory"
  | .noEnt => "no such file or directory"
  | .isDir => "is a directory"
  | .exist => "file exists"

/-- The `*fs.PathError` an `os` call returns: the operation, the path it was called on and the
errno. -/
structure PathError where
  Op : String
  Path : String
  Err : FsError
deriving DecidableEq, Repr

/-- The text of a path error: `Op + " " + Path + ": " + Err.Error()`. -/
def PathError.message (e : PathError) : String :=
  e.Op ++ " " ++ e.Path ++ ": " ++ e.Err.message

/-- The filesystem with `p` holding `n`. -/
def FS.set (fs : FS) (p : Path) (n : Node) : FS :=
  fun q => if q = p then some n else fs q

/-- Every path that holds something lies in a directory, and the working
directory exists. -/
def FS.WellFormed (fs : FS) : Prop :=
  fs [] = some Node.dir ∧ ∀ (p : Path) (x : String), fs (p ++ [x]) ≠ none → fs p = some Node.dir

/-- Whether `os.Stat(p)` returns a nil error. -/
def Stat (fs : FS) (p : Path) : Bool := (fs p).isSome

/-- Result of `os.Mkdir(p)`: the parent must be a directory and `p` must not exist. -/
def Mkdir (fs : FS) (p : Path) : Except PathError FS :=
  match fs p with
  | some _ => .error ⟨"mkdir", p.toString, .exist⟩
  | none =>
    match p.reverse with
    | [] => .error ⟨"mkdir", p.toString, .noEnt⟩
    | _ :: rparent =>
      match fs rparent.reverse with
      | some .dir => .ok (fs.set p .dir)
      | some (.file _) => .error ⟨"mkdir", p.toString, .notDir⟩
      | none => .error ⟨"mkdir", p.toString, .noEnt⟩

/-- The recursion of `os.MkdirAll` on the path read from its last element:
done if the path is a directory, the error `mkdir <path>: not a directory` if it
is a file, else the parent first, whose error is returned as it is, and then
`Mkdir`. -/
def MkdirAllRev (fs : FS) : List String → Except PathError FS
  | [] =>
    match fs [] with
    | some .dir => .ok fs
    | some (.file _) => .error ⟨"mkdir", Path.toString [], .notDir⟩
    | none => .error ⟨"mkdir", Path.toString [], .noEnt⟩
  | x :: rparent =>
    match fs (x :: rparent).reverse with
    | some .dir => .ok fs
    | some (.file _) => .error ⟨"mkdir", Path.toString (x :: rparent).reverse, .notDir⟩
    | none =>
      match MkdirAllRev fs rparent with
      | .error e => .error e
      | .ok fs1 => Mkdir fs1 (x :: rparent).reverse

/-- MkdirAll creates a directory named path, along with any necessary parents. -/
def MkdirAll (fs : FS) (p : Path) : Except PathError FS := MkdirAllRev fs p.reverse

/-- WriteFile writes data to the named file, creating it if necessary: the
parent must be a directory and the path must not be one; the error is that of
opening the file. -/
def WriteFile (fs : FS) (p : Path) (data : String) : Except PathError FS :=
  match p.reverse with
  | [] => .error ⟨"open", p.toString, .isDir⟩
  | _ :: rparent =>
    match fs rparent.reverse with
    | some .dir =>
      match fs p with
      | some .dir => .error ⟨"open", p.toString, .isDir⟩
      | _ => .ok (fs.set p (.file data))
    | some (.file _) => .error ⟨"open", p.toString, .notDir⟩
    | none => .error ⟨"open", p.toString, .noEnt⟩

/-! ## client.go -/

/-- ContentEntry represents a single entry from the GitHub Contents API.
The Go field `Type` is spelled `Typ`. -/
structure ContentEntry where
  Name : String
  Path : String
  Typ : String
  DownloadURL : String
deriving DecidableEq, Repr

/-- ContentsResult holds the result of a GitHub Contents API call. -/
structure ContentsResult where
  Entries : List ContentEntry
  IsDir : Bool
deriving DecidableEq, Repr

/-- What reading and unmarshalling the body of a Contents API response gives:
the read fails, the body is a JSON array of entries, a single JSON object, or
neither. -/
inductive ContentsBody where
  | unreadable
  | array (entries : List ContentEntry)
  | object (single : ContentEntry)
  | malformed
deriving DecidableEq, Repr

/-- Outcome of `httpClient.Get` on the Contents API. -/
inductive ContentsResponse where
  | failed
  | response (status : Nat) (body : ContentsBody)
deriving DecidableEq, Repr

/-- Outcome of `httpClient.Get` on the raw file host; `body` is `none` when
`io.ReadAll` fails. -/
inductive RawResponse where
  | failed
  | response (status : Nat) (body : Option String)
deriving DecidableEq, Repr

/-- The remote repository during one run: the answer to a GET of
`contentsAPI/path` and of `rawBaseURL/filePath`. -/
structure Remote where
  contents : String → ContentsResponse
  raw : String → RawResponse

/-- The errors the program builds, one constructor per `fmt.Errorf` site;
`indexOutOfRange` is the run-time panic of `result.Entries[0]` on an empty slice. -/
inductive Error where
  | listTransport (path : String)
  | pathNotFound (path : String)
  | rateLimit
  | listStatus (path : String) (status : Nat)
  | readBody
  | parseContents
  | downloadTransport (filePath : String)
  | downloadStatus (filePath : String) (status : Nat)
  | downloadRead
  | createDir (dir : String) (cause : PathError)
  | writeFailed (localPath : String) (cause : PathError)
  | listParent (objType : String) (cause : Error)
  | entryNotFound (objType entry : String)
  | installFailed (objType entry : String) (cause : Error)
  | writeManifest (cause : PathError)
  | saveManifest (cause : Error)
  | indexOutOfRange
deriving DecidableEq, Repr

/-- The text of `err.Error()`. The causes of the filesystem errors are the path errors of
the `os` calls, `<op> <path>: <errno text>`; transport and read causes, which Go takes from
the network stack, are left out. -/
def Error.message : Error → String
  | .listTransport path => "failed to list contents at " ++ path
  | .pathNotFound path => "path not found: " ++ path
  | .rateLimit => "GitHub API rate limit exceeded. Try again later or use a GitHub token"
  | .listStatus path status => "failed to list contents at " ++ path ++ ": HTTP " ++ toString status
  | .readBody => "failed to read response body"
  | .parseContents => "failed to parse contents response"
  | .downloadTransport filePath => "failed to download " ++ filePath
  | .downloadStatus filePath status =>
    "failed to download " ++ filePath ++ ": HTTP " ++ toString status
  | .downloadRead => "unexpected EOF"
  | .createDir dir cause => "failed to create directory " ++ dir ++ ": " ++ cause.message
  | .writeFailed localPath cause => "failed to write " ++ localPath ++ ": " ++ cause.message
  | .listParent objType cause => "failed to list " ++ objType ++ ": " ++ cause.message
  | .entryNotFound objType entry =>
    "entry " ++ objType ++ "/" ++ entry ++ " not found in remote repository"
  | .installFailed objType entry cause =>
    "failed to install " ++ objType ++ "/" ++ entry ++ ": " ++ cause.message
  | .writeManifest cause => "failed to write manifest: " ++ cause.message
  | .saveManifest cause => "failed to save manifest: " ++ cause.message
  | .indexOutOfRange => "runtime error: index out of range [0] with length 0"

/-! ## Program state and observable effects -/

/-- The lines the installer prints, one constructor per `Printf` site; `keptShared` is the
report of the uninstall path for an entry that another installed collection references. -/
inductive Report where
  | installing (name : String)
  | skipped (path : String)
  | updating (path : String)
  | installedDir (path : String) (files : Nat)
  | updatedDir (path : String) (files : Nat)
  | fileAction (action : String) (path : String)
  | done
  | keptShared (path : String)
deriving DecidableEq, Repr

/-- The printed text of a report. -/
def Report.line : Report → String
  | .installing name => "Installing collection: " ++ name ++ "\n\n"
  | .skipped path => "  skipped: " ++ path ++ " (already exists, not managed by curset)\n"
  | .updating path => "  updating: " ++ path ++ "\n"
  | .installedDir path files =>
    "  installed: " ++ path ++ " (" ++ toString files ++ " files)\n"
  | .updatedDir path files => "  updated: " ++ path ++ " (" ++ toString files ++ " files)\n"
  | .fileAction action path => "  " ++ action ++ ": " ++ path ++ "\n"
  | .done => "\nDone.\n"
  | .keptShared path => "  kept (shared): " ++ path ++ "\n"

/-- What a run does that can be seen from outside, in order: requests sent to
the Contents API and to the raw file host, files written by the installer,
lines printed, calls of `Manifest.Save`. -/
inductive Event where
  | httpContents (path : String)
  | httpRaw (filePath : String)
  | wrote (path : Path) (data : String)
  | printed (r : Report)
  | saveCalled (m : Manifest)
deriving DecidableEq, Repr

/-- The state an `Installer` works on: the client's cache of `ListContents`
results, the manifest in memory, the local filesystem, and the events so far
(oldest first). -/
structure State where
  cache : List (String × ContentsResult)
  manifest : Manifest
  fs : FS
  log : List Event

/-- Append an event to the log. -/
def State.emit (s : State) (e : Event) : State := { s with log := s.log ++ [e] }

/-- The effect of `fmt.Printf`. -/
def State.print (s : State) (r : Report) : State := s.emit (.printed r)

/-- What ListContents makes of the answer to its request: the error for a
failed request or a status other than 200, else the decoded body, a directory
listing when the body is an array and a single file when it is an object. -/
def fetchContents (R : Remote) (path : String) : Except Error ContentsResult :=
  match R.contents path with
  | .failed => .error (.listTransport path)
  | .response status body =>
    if status = 404 then .error (.pathNotFound path)
    else if status = 403 then .error .rateLimit
    else if status ≠ 200 then .error (.listStatus path status)
    else
      match body with
      | .unreadable => .error .readBody
      | .array entries => .ok ⟨entries, true⟩
      | .object single => .ok ⟨[single], false⟩
      | .malformed => .error .parseContents

/-- ListContents lists the contents of a path under data/.cursor/ using the
GitHub Contents API. Results are cached to avoid redundant API calls. -/
def ListContents (R : Remote) (path : String) (s : State) :
    Except Error ContentsResult × State :=
  match s.cache.lookup path with
  | some cached => (.ok cached, s)
  | none =>
    let s1 := s.emit (.httpContents path)
    match fetchContents R path with
    | .error err => (.error err, s1)
    | .ok result => (.ok result, { s1 with cache := (path, result) :: s1.cache })

/-- What DownloadFile makes of the answer to its request. -/
def fetchRaw (R : Remote) (filePath : String) : Except Error String :=
  match R.raw filePath with
  | .failed => .error (.downloadTransport filePath)
  | .response status body =>
    if status ≠ 200 then .error (.downloadStatus filePath status)
    else
      match body with
      | none => .error .downloadRead
      | some data => .ok data

/-- DownloadFile downloads a raw file from the repository. -/
def DownloadFile (R : Remote) (filePath : String) (s : State) : Except Error String × State :=
  (fetchRaw R filePath, s.emit (.httpRaw filePath))

/-- The manifest file `.cursor/.curset.json`. -/
def manifestPath : Path := [".cursor", ".curset.json"]

/-- Save writes the manifest to .cursor/.curset.json; `marshal` stands for
`json.MarshalIndent`, which cannot fail on this struct. -/
def Manifest.Save (marshal : Manifest → String) (m : Manifest) (fs : FS) : Option Error × FS :=
  let dir := filepath.Dir manifestPath
  match MkdirAll fs dir with
  | .error e => (some (.createDir dir.toString e), fs)
  | .ok fs1 =>
    let data := marshal m
    match WriteFile fs1 manifestPath data with
    | .error e => (some (.writeManifest e), fs1)
    | .ok fs2 => (none, fs2)

/-! ## installer.go -/

/-- The file loop of installDirectory; the result is `installedFiles`. -/
def installDirectoryLoop (R : Remote) (objType entry : String) (localDir : Path) :
    List ContentEntry → List String → State → Except Error (List String) × State
  | [], installedFiles, s => (.ok installedFiles, s)
  | c :: rest, installedFiles, s =>
    if c.Typ != "file" then installDirectoryLoop R objType entry localDir rest installedFiles s
    else
      let remotePath := objType ++ "/" ++ entry ++ "/" ++ c.Name
      match DownloadFile R remotePath s with
      | (.error err, s1) => (.error err, s1)
      | (.ok data, s1) =>
        let localPath := localDir.join [c.Name]
        match WriteFile s1.fs localPath data with
        | .error e => (.error (.writeFailed localPath.toString e), s1)
        | .ok fs2 =>
          installDirectoryLoop R objType entry localDir rest
            (installedFiles ++ [filepath.Join [objType, entry, c.Name]])
            ({ s1 with fs := fs2 }.emit (.wrote localPath data))

/-- installDirectory installs all files from a remote directory. -/
def installDirectory (R : Remote) (objType entry : String) (contents : List ContentEntry)
    (s : State) : Option Error × State :=
  let localDir := Path.join [] [".cursor", objType, entry]
  let managed := s.manifest.IsManaged objType entry
  if Stat s.fs localDir && !managed then
    (none, s.print (.skipped localDir.toString))
  else
    let s0 := if managed then s.print (.updating localDir.toString) else s
    match MkdirAll s0.fs localDir with
    | .error e => (some (.createDir localDir.toString e), s0)
    | .ok fs1 =>
      match installDirectoryLoop R objType entry localDir contents [] { s0 with fs := fs1 } with
      | (.error err, s2) => (some err, s2)
      | (.ok installedFiles, s2) =>
        let s3 :=
          if !managed then s2.print (.installedDir localDir.toString installedFiles.length)
          else s2.print (.updatedDir localDir.toString installedFiles.length)
        (none, { s3 with manifest := s3.manifest.AddOrUpdate ⟨objType, entry, true, installedFiles⟩ })

/-- installSingleFile installs a single file that was found directly by path. -/
def installSingleFile (R : Remote) (objType : String) (entry : ContentEntry)
    (entryName : String) (s : State) : Option Error × State :=
  let localDir := Path.join [] [".cursor", objType]
  match MkdirAll s.fs localDir with
  | .error e => (some (.createDir localDir.toString e), s)
  | .ok fs1 =>
    let s0 : State := { s with fs := fs1 }
    let localPath := localDir.join [entry.Name]
    let managed := s0.manifest.IsManaged objType entryName
    if Stat s0.fs localPath && !managed then
      (none, s0.print (.skipped localPath.toString))
    else
      let relativePath := strings.TrimPrefix entry.Path "data/.cursor/"
      match DownloadFile R relativePath s0 with
      | (.error err, s1) => (some err, s1)
      | (.ok data, s1) =>
        match WriteFile s1.fs localPath data with
        | .error e => (some (.writeFailed localPath.toString e), s1)
        | .ok fs2 =>
          let action := if managed then "updated" else "installed"
          let s2 := ({ s1 with fs := fs2 }.emit (.wrote localPath data)).print
            (.fileAction action localPath.toString)
          (none, { s2 with manifest :=
            s2.manifest.AddOrUpdate ⟨objType, entryName, false, [filepath.Join [objType, entry.Name]]⟩ })

/-- The matching loop of installFileByName; the result is `(found, installedFiles)`. -/
def installFileByNameLoop (R : Remote) (objType entry : String) (localDir : Path)
    (managed : Bool) :
    List ContentEntry → Bool → List String → State → Except Error (Bool × List String) × State
  | [], found, installedFiles, s => (.ok (found, installedFiles), s)
  | c :: rest, found, installedFiles, s =>
    if c.Typ != "file" then
      installFileByNameLoop R objType entry localDir managed rest found installedFiles s
    else
      let nameWithoutExt := strings.TrimSuffix c.Name (filepath.Ext c.Name)
      if nameWithoutExt == entry then
        let localPath := localDir.join [c.Name]
        if Stat s.fs localPath && !managed then
          installFileByNameLoop R objType entry localDir managed rest true installedFiles
            (s.print (.skipped localPath.toString))
        else
          let relativePath := strings.TrimPrefix c.Path "data/.cursor/"
          match DownloadFile R relativePath s with
          | (.error err, s1) => (.error err, s1)
          | (.ok data, s1) =>
            match WriteFile s1.fs localPath data with
            | .error e => (.error (.writeFailed localPath.toString e), s1)
            | .ok fs2 =>
              let action := if managed then "updated" else "installed"
              installFileByNameLoop R objType entry localDir managed rest true
                (installedFiles ++ [filepath.Join [objType, c.Name]])
                (({ s1 with fs := fs2 }.emit (.wrote localPath data)).print
                  (.fileAction action localPath.toString))
      else
        installFileByNameLoop R objType entry localDir managed rest found installedFiles s

/-- installFileByName searches the parent directory for files matching the
entry name (without extension) and installs them. -/
def installFileByName (R : Remote) (objType entry : String) (s : State) : Option Error × State :=
  match ListContents R objType s with
  | (.error err, s1) => (some (.listParent objType err), s1)
  | (.ok result, s1) =>
    let localDir := Path.join [] [".cursor", objType]
    match MkdirAll s1.fs localDir with
    | .error e => (some (.createDir localDir.toString e), s1)
    | .ok fs1 =>
      let managed := s1.manifest.IsManaged objType entry
      match installFileByNameLoop R objType entry localDir managed result.Entries false []
          { s1 with fs := fs1 } with
      | (.error err, s2) => (some err, s2)
      | (.ok (found, installedFiles), s2) =>
        if !found then (some (.entryNotFound objType entry), s2)
        else
          (none, { s2 with manifest :=
            s2.manifest.AddOrUpdate ⟨objType, entry, false, installedFiles⟩ })

/-- installEntry installs a single entry (which may be a directory or a file). -/
def installEntry (R : Remote) (objType entry : String) (s : State) : Option Error × State :=
  let remotePath := objType ++ "/" ++ entry
  match ListContents R remotePath s with
  | (.error _, s1) => installFileByName R objType entry s1
  | (.ok result, s1) =>
    if result.IsDir then installDirectory R objType entry result.Entries s1
    else
      match result.Entries with
      | [] => (some .indexOutOfRange, s1)
      | first :: _ => installSingleFile R objType first entry s1

/-- Collection represents a single named collection: object types with their
entry names, in the order the `range` over the Go map yields them. -/
abbrev Collection := List (String × List String)

/-- The inner loop of Install over the entries of one object type. -/
def installEntries (R : Remote) (objType : String) : List String → State → Option Error × State
  | [], s => (none, s)
  | entry :: rest, s =>
    match installEntry R objType entry s with
    | (some err, s1) => (some (.installFailed objType entry err), s1)
    | (none, s1) => installEntries R objType rest s1

/-- The outer loop of Install over the object types. -/
def installObjTypes (R : Remote) : Collection → State → Option Error × State
  | [], s => (none, s)
  | (objType, entries) :: rest, s =>
    match installEntries R objType entries s with
    | (some err, s1) => (some err, s1)
    | (none, s1) => installObjTypes R rest s1

/-- Install installs a named collection into the current directory's .cursor/ folder. -/
def Install (R : Remote) (marshal : Manifest → String) (col : Collection) (name : String)
    (s : State) : Option Error × State :=
  let s0 := s.print (.installing name)
  let s1 : State := { s0 with manifest := { s0.manifest with Collection := name } }
  match installObjTypes R col s1 with
  | (some err, s2) => (some err, s2)
  | (none, s2) =>
    let s3 := s2.emit (.saveCalled s2.manifest)
    match s3.manifest.Save marshal s3.fs with
    | (some err, fs4) => (some (.saveManifest err), { s3 with fs := fs4 })
    | (none, fs4) => (none, { s3 with fs := fs4 }.print .done)

/-- A call of one of the mutating ledger methods. -/
inductive LedgerOp where
  | addOrUpdate (entry : Entry)
  | removeEntry (objType name : String)
  | addCollection (name : String)
  | removeCollection (name : String)
deriving DecidableEq, Repr

/-- The ledger after one call. -/
def LedgerOp.apply : LedgerOp → Manifest → Manifest
  | .addOrUpdate entry, m => m.AddOrUpdate entry
  | .removeEntry objType name, m => m.RemoveEntry objType name
  | .addCollection name, m => m.AddCollection name
  | .removeCollection name, m => m.RemoveCollection name

/-- The ledger after a sequence of calls, first call first. -/
def applyOps (ops : List LedgerOp) (m : Manifest) : Manifest :=
  ops.foldl (fun acc op => op.apply acc) m

/-- The content of the file at a path, if a file is there. -/
def FS.fileAt (fs : FS) (p : Path) : Option String :=
  match fs p with
  | some (.file data) => some data
  | _ => none

/-- Whether an event is a write to `p`. -/
def Event.writesTo (p : Path) : Event → Bool
  | .wrote q _ => q == p
  | _ => false

/-- Whether an event is a call of Save. -/
def Event.isSave : Event → Bool
  | .saveCalled _ => true
  | _ => false

/-- Directories of the first filesystem are directories of the second, and files are files. -/
def FS.KeepsKinds (fs fs' : FS) : Prop :=
  ∀ p, (fs p = some Node.dir → fs' p = some Node.dir) ∧
    ∀ data, fs p = some (Node.file data) → ∃ data', fs' p = some (Node.file data')

/-- The data an event writes to `p`, if it is a write to `p`. -/
def Event.written (p : Path) : Event → Option String
  | .wrote q data => if q = p then some data else none
  | _ => none

/-- The data of the last write to `p` among the events, if there is one. -/
def lastWrite (p : Path) : List Event → Option String
  | [] => none
  | ev :: rest =>
    match lastWrite p rest with
    | some data => some data
    | none => ev.written p

/-- `s'` is reached from `s` by emitting the events `new`: no call of Save among them, the
installed-collections list is the same, directories stay directories and files stay files,
a path that none of the events writes to holds what it held, or a directory if it held
nothing, and a path that some event writes to holds the file of the last write to it. -/
def Effects (s s' : State) (new : List Event) : Prop :=
  s'.log = s.log ++ new ∧ (∀ ev ∈ new, ev.isSave = false) ∧
    s'.manifest.Collections = s.manifest.Collections ∧
    FS.KeepsKinds s.fs s'.fs ∧
    (∀ p, (∀ ev ∈ new, ev.writesTo p = false) →
      s'.fs p = s.fs p ∨ (s.fs p = none ∧ s'.fs p = some Node.dir)) ∧
    ∀ p data, lastWrite p new = some data → s'.fs p = some (Node.file data)

/-- Some list of events leads from `s` to `s'`. -/
def Runs (s s' : State) : Prop := ∃ new, Effects s s' new

/-- The second filesystem is the first with directories added where nothing was. -/
def FS.GrowsDirs (fs fs' : FS) : Prop :=
  ∀ q, fs' q = fs q ∨ (fs q = none ∧ fs' q = some Node.dir)

/-- The (objType, entry) pairs of a collection in the order the loops of Install visit them. -/
def Collection.pairs (col : Collection) : List (String × String) :=
  col.flatMap fun p => p.2.map fun entry => (p.1, entry)

/-- The calls of installEntry that Install makes for a list of (objType, entry) pairs: one
after the other, stopping at the first error, which is wrapped as Install wraps it. -/
def installPairs (R : Remote) : List (String × String) → State → Option Error × State
  | [], s => (none, s)
  | (objType, entry) :: rest, s =>
    match installEntry R objType entry s with
    | (some err, s1) => (some (.installFailed objType entry err), s1)
    | (none, s1) => installPairs R rest s1

/-- The state in which Install enters its loops: the banner is printed and the field
`Collection` is assigned. -/
def installBegin (name : String) (s : State) : State :=
  { s.print (.installing name) with
    manifest := { (s.print (.installing name)).manifest with Collection := name } }

/-- A project directory with nothing in it. -/
def emptyDir : FS := fun p => if p = [] then some .dir else none

/-- A fresh run in an empty project directory: empty cache, the manifest `Load` returns when no
file exists, nothing logged. -/
def freshState : State := ⟨[], Manifest.empty, emptyDir, []⟩

/-- A concrete encoder to put in the place of `json.MarshalIndent` where a run is evaluated:
the fields of the ledger file in order, without indentation or escapes. -/
def marshalCompact (m : Manifest) : String :=
  "\x7b\"collections\": [" ++ ", ".intercalate (m.Collections.map fun c => "\"" ++ c ++ "\"") ++
    "], \"entries\": [" ++
    ", ".intercalate (m.Entries.map fun e =>
      "\x7b\"type\": \"" ++ e.Typ ++ "\", \"name\": \"" ++ e.Name ++ "\", \"is_dir\": " ++
        toString e.IsDir ++ ", \"files\": [" ++
        ", ".intercalate (e.Files.map fun f => "\"" ++ f ++ "\"") ++ "]\x7d") ++
    "]\x7d"

/-- A remote with the directory `rules/common` holding one file, and the file
`commands/foo.md`, which the path `commands/foo` does not resolve to. -/
def remoteSample : Remote where
  contents := fun path =>
    if path = "rules/common" then
      .response 200 (.array [⟨"style.mdc", "data/.cursor/rules/common/style.mdc", "file", ""⟩])
    else if path = "commands" then
      .response 200 (.array [⟨"foo.md", "data/.cursor/commands/foo.md", "file", ""⟩])
    else .response 404 .malformed
  raw := fun filePath =>
    if filePath = "rules/common/style.mdc" then .response 200 (some "style")
    else if filePath = "commands/foo.md" then .response 200 (some "theirs")
    else .response 404 none

/-- A project directory in which the user has written `.cursor/commands/foo.md`. -/
def userFooDir : FS := fun p =>
  if p = [] ∨ p = [".cursor"] ∨ p = [".cursor", "commands"] then some .dir
  else if p = [".cursor", "commands", "foo.md"] then some (.file "mine")
  else none

/-- A fresh run in the directory with the user's `foo.md`. -/
def userFooState : State := ⟨[], Manifest.empty, userFooDir, []⟩

/-- The test of the fallback loop on a listing entry: a file whose name without its
extension is the entry name. -/
def isMatch (entry : String) (c : ContentEntry) : Bool :=
  c.Typ == "file" && strings.TrimSuffix c.Name (filepath.Ext c.Name) == entry

/-- A project directory in which `.cursor/commands` is a regular file; there is no ledger
file. -/
def commandsIsFile : FS := fun p =>
  if p = [] ∨ p = [".cursor"] then some .dir
  else if p = [".cursor", "commands"] then some (.file "")
  else none

/-- A run in the directory where `.cursor/commands` is a regular file, with the manifest
`Load` returns when no ledger file exists. -/
def commandsIsFileState : State := ⟨[], Manifest.empty, commandsIsFile, []⟩

/-- A ledger that manages the directory entry `rules/common`. -/
def commonLedger : Manifest :=
  ⟨[], [⟨"rules", "common", true, ["rules/common/style.mdc"]⟩], ""⟩

/-- A project directory with the ledger file, in which a regular file has taken the place of
the directory `.cursor/rules/common`. -/
def commonIsFile : FS := fun p =>
  if p = [] ∨ p = [".cursor"] ∨ p = [".cursor", "rules"] then some .dir
  else if p = [".cursor", "rules", "common"] then some (.file "")
  else if p = [".cursor", ".curset.json"] then some (.file (marshalCompact commonLedger))
  else none

/-- A run in that directory with the ledger of its ledger file. -/
def commonIsFileState : State := ⟨[], commonLedger, commonIsFile, []⟩

/-- A single path element that names a file: not empty, no separator, not `.` or `..`. -/
def isFileName (name : String) : Bool :=
  !name.data.contains '/' && name != "" && name != "." && name != ".."

/-- The situations in which the local path of an entry exists before installEntry runs: the
probe resolves to a directory and `.cursor/objType/entry` exists; the probe resolves to a
single file and `.cursor/objType/<remote file name>` exists; the probe does not resolve, the
listing of objType has matching files and `.cursor/objType/<name>` exists for each of them. -/
inductive SkipCase (R : Remote) (objType entry : String) (s : State) : Prop where
  | directory (entries : List ContentEntry)
      (hprobe : (ListContents R (objType ++ "/" ++ entry) s).1 = .ok ⟨entries, true⟩)
      (hexists : Stat s.fs (Path.join [] [".cursor", objType, entry]) = true)
  | singleFile (first : ContentEntry) (rest : List ContentEntry)
      (hprobe : (ListContents R (objType ++ "/" ++ entry) s).1 = .ok ⟨first :: rest, false⟩)
      (hname : isFileName first.Name = true)
      (hexists : Stat s.fs ((Path.join [] [".cursor", objType]).join [first.Name]) = true)
  | fallback (err : Error) (r : ContentsResult)
      (hprobe : (ListContents R (objType ++ "/" ++ entry) s).1 = .error err)
      (hparent :
        (ListContents R objType (ListContents R (objType ++ "/" ++ entry) s).2).1 = .ok r)
      (hsome : ∃ c ∈ r.Entries, isMatch entry c = true)
      (hexists : ∀ c ∈ r.Entries, isMatch entry c = true →
        isFileName c.Name = true ∧
          Stat s.fs ((Path.join [] [".cursor", objType]).join [c.Name]) = true)

/-- An event that is a request to the Contents API or the report of a skip. -/
def Event.isListingOrSkip : Event → Bool
  | .httpContents _ => true
  | .printed (.skipped _) => true
  | _ => false

/-- The listing entries of type "file". -/
def fileEntries (contents : List ContentEntry) : List ContentEntry :=
  contents.filter fun c => c.Typ == "file"

/-- The body DownloadFile returns for a path, the empty string when it fails. -/
def rawData (R : Remote) (filePath : String) : String :=
  match fetchRaw R filePath with
  | .ok data => data
  | .error _ => ""

/-- The filesystem after writing the given files in order. -/
def writeAll (fs : FS) (writes : List (Path × String)) : FS :=
  writes.foldl (fun acc w => acc.set w.1 (.file w.2)) fs

/-- The remote path installDirectory downloads a listing entry from. -/
def dirRemotePath (objType entry : String) (c : ContentEntry) : String :=
  objType ++ "/" ++ entry ++ "/" ++ c.Name

/-- The files installDirectory writes for a listing, in order: each entry of type "file",
under its name in the local directory, with the downloaded content. -/
def dirWrites (R : Remote) (objType entry : String) (localDir : Path)
    (contents : List ContentEntry) : List (Path × String) :=
  (fileEntries contents).map fun c =>
    (localDir ++ [c.Name], rawData R (dirRemotePath objType entry c))

/-- The events of the file loop of installDirectory when nothing fails: for each entry of
type "file", the download request and then the write. -/
def dirEvents (R : Remote) (objType entry : String) (localDir : Path)
    (contents : List ContentEntry) : List Event :=
  (fileEntries contents).flatMap fun c =>
    [.httpRaw (dirRemotePath objType entry c),
      .wrote (localDir ++ [c.Name]) (rawData R (dirRemotePath objType entry c))]

/-- The ledger paths installDirectory records for a listing. -/
def dirFiles (objType entry : String) (contents : List ContentEntry) : List String :=
  (fileEntries contents).map fun c => filepath.Join [objType, entry, c.Name]

/-- The listing entry of `rules/common/style.mdc` on the sample remote. -/
def styleEntry : ContentEntry := ⟨"style.mdc", "data/.cursor/rules/common/style.mdc", "file", ""⟩

/-- The listing entry of `commands/foo.md` on the sample remote. -/
def fooEntry : ContentEntry := ⟨"foo.md", "data/.cursor/commands/foo.md", "file", ""⟩

/-- The listing entries the fallback loop matches for an entry name. -/
def matching (entry : String) (contents : List ContentEntry) : List ContentEntry :=
  contents.filter (isMatch entry)

/-- The remote path the single-file and fallback cases download a listing entry from. -/
def strippedPath (c : ContentEntry) : String := strings.TrimPrefix c.Path "data/.cursor/"

/-- The files the fallback loop writes when it skips nothing: each match, under its name in
the local directory, with the downloaded content. -/
def fallbackWrites (R : Remote) (entry : String) (localDir : Path)
    (contents : List ContentEntry) : List (Path × String) :=
  (matching entry contents).map fun c => (localDir ++ [c.Name], rawData R (strippedPath c))

/-- The events of the fallback loop when it skips nothing and nothing fails: for each match
the download request, the write and the report. -/
def fallbackEvents (R : Remote) (entry : String) (localDir : Path) (managed : Bool)
    (contents : List ContentEntry) : List Event :=
  (matching entry contents).flatMap fun c =>
    [.httpRaw (strippedPath c), .wrote (localDir ++ [c.Name]) (rawData R (strippedPath c)),
      .printed (.fileAction (if managed then "updated" else "installed")
        (localDir ++ [c.Name]).toString)]

/-- The ledger paths the fallback loop records when it skips nothing. -/
def fallbackFiles (objType entry : String) (contents : List ContentEntry) : List String :=
  (matching entry contents).map fun c => filepath.Join [objType, c.Name]

/-- Every cached result is what the remote answers for its path. -/
def CacheAgrees (R : Remote) (cache : List (String × ContentsResult)) : Prop :=
  ∀ path r, cache.lookup path = some r → fetchContents R path = .ok r

/-- Whether an event is the report of a skip. -/
def Event.isSkip : Event → Bool
  | .printed (.skipped _) => true
  | _ => false

/-- Whether an event is a write. -/
def Event.isWrite : Event → Bool
  | .wrote _ _ => true
  | _ => false

/-- Whether an event is a printed line. -/
def Event.isReport : Event → Bool
  | .printed _ => true
  | _ => false

/-- The reports of an update: "updating", "updated" with a file count, "updated" for a file. -/
def Report.isUpdate : Report → Bool
  | .updating _ => true
  | .updatedDir _ _ => true
  | .fileAction action _ => action == "updated"
  | _ => false

/-- Whether an event is the report of an update. -/
def Event.isUpdateReport : Event → Bool
  | .printed r => r.isUpdate
  | _ => false

/-- The events a run from `s` to `s'` added to the log. -/
def newEvents (s s' : State) : List Event := s'.log.drop s.log.length

/-- The second run of an install, from `t` to `t'` with result `res`, against a first run
that emitted `new1`: no error, the ledger is left as it was, and the events of the second run
contain the same writes in the same order, no skip report, only update reports as reports, and
at least one of those. -/
def Replays (new1 : List Event) (t t' : State) (res : Option Error) : Prop :=
  res = none ∧ t'.manifest = t.manifest ∧
    ∃ new2, t'.log = t.log ++ new2 ∧
      new2.filter Event.isWrite = new1.filter Event.isWrite ∧
      (∀ ev ∈ new2, ev.isSkip = false ∧ (ev.isReport = true → ev.isUpdateReport = true)) ∧
      ∃ ev ∈ new2, ev.isUpdateReport = true

/-- A new run on the ledger and filesystem left by installing `rules/common` from the sample
remote on a fresh project. -/
def secondRunState : State :=
  ⟨[], (installEntry remoteSample "rules" "common" freshState).2.manifest,
    (installEntry remoteSample "rules" "common" freshState).2.fs, []⟩

/-- A project directory in which `style.mdc` under `.cursor/rules/common` and `foo.md` under
`.cursor/commands` are directories. -/
def namesAreDirs : FS := fun p =>
  if p = [] ∨ p = [".cursor"] ∨ p = [".cursor", "rules"] ∨ p = [".cursor", "rules", "common"] ∨
      p = [".cursor", "rules", "common", "style.mdc"] ∨ p = [".cursor", "commands"] ∨
      p = [".cursor", "commands", "foo.md"] then some .dir
  else none

/-- A run in that directory with a ledger that manages `rules/common` and `commands/foo`,
with no files recorded for either. -/
def namesAreDirsState : State :=
  ⟨[], ⟨[], [⟨"rules", "common", true, []⟩, ⟨"commands", "foo", false, []⟩], ""⟩,
    namesAreDirs, []⟩

/-- A ledger with two rows for the pair (rules, a), as `Load` reads it from a ledger file
that lists the pair twice. -/
def twoRowsLedger : Manifest :=
  ⟨[], [⟨"rules", "a", false, ["rules/a.md"]⟩, ⟨"rules", "a", true, ["rules/a/x.md"]⟩], ""⟩

/-- A ledger with two rows and two installed collections. -/
def sampleLedger : Manifest :=
  ⟨["base", "extra"],
    [⟨"rules", "common", true, ["rules/common/style.mdc"]⟩,
      ⟨"commands", "foo", false, ["commands/foo.md"]⟩], ""⟩

/-- A remote that answers every Contents API request with 403, the rate-limit answer. -/
def remoteThrottled : Remote where
  contents := fun _ => .response 403 .malformed
  raw := fun _ => .response 404 none

/-- The sample remote with the request for the exact path `commands/foo` failing in
transport; the listing of `commands` and the download of `commands/foo.md` answer as
before. -/
def remoteProbeFails : Remote where
  contents := fun path => if path = "commands/foo" then .failed else remoteSample.contents path
  raw := remoteSample.raw

/-! ## The uninstall path

`cmd/uninstall.go` calls `inst.Uninstall(col, name, cf.Collections)`; installer.go has no
such method, so the definitions of this section follow section 4.4 of the specification. -/

/-- The filesystem with nothing at `p`. -/
def FS.unset (fs : FS) (p : Path) : FS :=
  fun q => if q = p then none else fs q

/-- The second filesystem is the first with some paths emptied. -/
def FS.Shrinks (fs fs' : FS) : Prop :=
  ∀ q, fs' q = fs q ∨ fs' q = none

/-- The full map of all known collections, `cf.Collections` in cmd/uninstall.go, as the list
of its bindings; a name is looked up with `List.lookup`. -/
abbrev CollectionMap := List (String × Collection)

/-- The local path of a file recorded in a ledger row: recorded paths are relative to the
local root `.cursor`. -/
def recordedPath (f : String) : Path := Path.join [] [".cursor", f]

/-- Modelled from the spec: the deletion of one recorded file, a step of the missing
`Installer.Uninstall`: "delete every file path recorded in its LedgerEntry from local disk
(missing files are tolerated, not an error)". A file at the path is deleted; a path that holds
nothing or a directory is left as it is. -/
def removeFile (fs : FS) (p : Path) : FS :=
  match fs p with
  | some (.file _) => fs.unset p
  | _ => fs

/-- Modelled from the spec: the directory clean-up of the missing `Installer.Uninstall`,
"remove the directory if it becomes empty". A function from paths to nodes has no listing, so
`names dir` gives the names to look for in `dir`, standing for the listing the operating
system returns; the directory is removed when none of them holds anything. -/
def removeDirIfEmpty (names : Path → List String) (fs : FS) (dir : Path) : FS :=
  if fs dir = some Node.dir ∧ (names dir).all (fun x => (fs (dir ++ [x])).isNone) = true then
    fs.unset dir
  else fs

/-- Modelled from the spec: the sharing test of the missing `Installer.Uninstall`, whether
"any OTHER installed collection (tracked in the Ledger's installed-collections list,
cross-referenced against the still-available full collection map) also references the same
(objectType, entryName)". -/
def isShared (m : Manifest) (all : CollectionMap) (name objType entry : String) : Bool :=
  m.Collections.any fun other =>
    other != name &&
      match all.lookup other with
      | some c => c.pairs.contains (objType, entry)
      | none => false

/-- Modelled from the spec: what the missing `Installer.Uninstall` does for one
(objectType, entryName) of the target collection. A pair that is not managed is passed over.
"If no other installed collection references it, delete every file path recorded in its
LedgerEntry from local disk (missing files are tolerated, not an error) and remove the
directory if it becomes empty; then remove the LedgerEntry. If another installed collection
still references it, leave the files and LedgerEntry untouched (shared-entry retention) and
report it as kept (shared)." The directory is that of a row with isDirectory=true,
`.cursor/objType/entry`. -/
def uninstallEntry (names : Path → List String) (all : CollectionMap)
    (name objType entry : String) (s : State) : State :=
  match s.manifest.GetEntry objType entry with
  | none => s
  | some row =>
    if isShared s.manifest all name objType entry then
      s.print (.keptShared (objType ++ "/" ++ entry))
    else
      let fs1 := row.Files.foldl (fun fs f => removeFile fs (recordedPath f)) s.fs
      let fs2 :=
        if row.IsDir then removeDirIfEmpty names fs1 (Path.join [] [".cursor", objType, entry])
        else fs1
      { s with fs := fs2, manifest := s.manifest.RemoveEntry objType entry }

/-- Modelled from the spec: the loop of the missing `Installer.Uninstall` over "every
(objectType, entryName) the target collection lists", in the order Install visits them. -/
def uninstallPairs (names : Path → List String) (all : CollectionMap) (name : String) :
    List (String × String) → State → State
  | [], s => s
  | (objType, entry) :: rest, s =>
    uninstallPairs names all name rest (uninstallEntry names all name objType entry s)

/-- Modelled from the spec: `Installer.Uninstall(col, name, allCollections)`, which
cmd/uninstall.go calls and installer.go does not define, after section 4.4: every entry of
the target collection is processed by `uninstallEntry`; "after processing all entries, remove
the collection name from the Ledger's installed list and persist", with `Manifest.Save` and
the error wrapping of Install. -/
def Uninstall (names : Path → List String) (marshal : Manifest → String) (col : Collection)
    (name : String) (all : CollectionMap) (s : State) : Option Error × State :=
  let s1 := uninstallPairs names all name col.pairs s
  let s2 : State := { s1 with manifest := s1.manifest.RemoveCollection name }
  let s3 := s2.emit (.saveCalled s2.manifest)
  match s3.manifest.Save marshal s3.fs with
  | (some err, fs4) => (some (.saveManifest err), { s3 with fs := fs4 })
  | (none, fs4) => (none, { s3 with fs := fs4 })

/-- The rows of a ledger that uninstalling `name` removes for a list of pairs: the rows of
those pairs that no other installed collection references. -/
def removedRow (m : Manifest) (all : CollectionMap) (name : String)
    (pairs : List (String × String)) (row : Entry) : Bool :=
  pairs.contains row.key && !isShared m all name row.Typ row.Name

/-- Two collections: `base` lists the rules `common` and `own` and the command `foo`;
`extra` lists the rule `common`. -/
def sampleMap : CollectionMap :=
  [("base", [("rules", ["common", "own"]), ("commands", ["foo"])]),
    ("extra", [("rules", ["common"])])]

/-- A project in which both collections of the sample map are installed: one file for each
of the three entries, and the ledger file. -/
def installedDir : FS := fun p =>
  if p = [] ∨ p = [".cursor"] ∨ p = [".cursor", "rules"] ∨ p = [".cursor", "rules", "common"] ∨
      p = [".cursor", "rules", "own"] ∨ p = [".cursor", "commands"] then some .dir
  else if p = [".cursor", "rules", "common", "style.mdc"] then some (.file "style")
  else if p = [".cursor", "rules", "own", "a.mdc"] then some (.file "a")
  else if p = [".cursor", "commands", "foo.md"] then some (.file "theirs")
  else if p = [".cursor", ".curset.json"] then some (.file "ledger")
  else none

/-- The ledger of that project. -/
def installedLedger : Manifest :=
  ⟨["base", "extra"],
    [⟨"rules", "common", true, ["rules/common/style.mdc"]⟩,
      ⟨"rules", "own", true, ["rules/own/a.mdc"]⟩,
      ⟨"commands", "foo", false, ["commands/foo.md"]⟩], ""⟩

/-- A run of the uninstall command in that project. -/
def installedState : State := ⟨[], installedLedger, installedDir, []⟩

/-- The names looked for in the directories of the sample project. -/
def sampleNames : Path → List String := fun _ =>
  ["rules", "commands", "common", "own", "style.mdc", "a.mdc", "foo.md", ".curset.json"]

/-- Two collections that both list the command `foo`; `base` lists the command `foo.md` as
well. -/
def overlapMap : CollectionMap :=
  [("base", [("commands", ["foo", "foo.md"])]), ("extra", [("commands", ["foo"])])]

/-- A ledger in which the rows of `commands/foo` and `commands/foo.md` record the same
file. -/
def overlapLedger : Manifest :=
  ⟨["base", "extra"],
    [⟨"commands", "foo", false, ["commands/foo.md"]⟩,
      ⟨"commands", "foo.md", false, ["commands/foo.md"]⟩], ""⟩

/-- A run of the uninstall command with that ledger, in the project that holds the file. -/
def overlapState : State := ⟨[], overlapLedger, installedDir, []⟩

/-- The collection `base` of the sample map. -/
def baseCollection : Collection := [("rules", ["common", "own"]), ("commands", ["foo"])]

/-- The collection `base` of the map in which two entries share a file. -/
def overlapCollection : Collection := [("commands", ["foo", "foo.md"])]

/-- A run of the uninstall command with a ledger that names `base` twice in its installed
list and has no rows. -/
def twiceInstalledState : State := ⟨[], ⟨["base", "base"], [], ""⟩, installedDir, []⟩

/-- A collection whose one entry has the ledger file as its local path. -/
def ledgerCollection : Collection := [(".", [".curset.json"])]

/-- The collection map with that collection under the name `base`. -/
def ledgerMap : CollectionMap := [("base", ledgerCollection)]

/-- A run of the uninstall command with a ledger whose one row records the ledger file
itself: the row Install records for the entry `.curset.json` of object type `.`. -/
def ledgerRowState : State :=
  ⟨[], ⟨["base"], [⟨".", ".curset.json", false, [".curset.json"]⟩], ""⟩, installedDir, []⟩

/-- A ledger with two rows for the pair (rules, common), as `Load` reads it from a ledger
file that lists the pair twice. -/
def twoCommonRowsLedger : Manifest :=
  ⟨[], [⟨"rules", "common", true, []⟩, ⟨"rules", "common", true, ["rules/common/old.mdc"]⟩],
    ""⟩

/-- A run in a project that holds this ledger file and nothing else under `.cursor`. -/
def twoCommonRowsState : State :=
  ⟨[], twoCommonRowsLedger,
    fun p =>
      if p = [] ∨ p = [".cursor"] then some .dir
      else if p = [".cursor", ".curset.json"] then
        some (.file (marshalCompact twoCommonRowsLedger))
      else none,
    []⟩

/-- A new run on the ledger and filesystem left by installing `rules/common` from the sample
remote in that project. -/
def twoCommonRowsAgain : State :=
  ⟨[], (installEntry remoteSample "rules" "common" twoCommonRowsState).2.manifest,
    (installEntry remoteSample "rules" "common" twoCommonRowsState).2.fs, []⟩

/-! # Lemmas and theorems -/

/-! ## The ledger -/


theorem hasKey_iff (e : Entry) (t n : String) : e.hasKey t n = true ↔ e.key = (t, n) := by
  simp [Entry.hasKey, Entry.key]

theorem hasKey_false_iff (e : Entry) (t n : String) : e.hasKey t n = false ↔ e.key ≠ (t, n) := by
  rw [Ne, ← hasKey_iff]; simp

theorem hasKey_self (e : Entry) : e.hasKey e.Typ e.Name = true := by
  simp [Entry.hasKey]

theorem isManaged_iff (m : Manifest) (t n : String) :
    m.IsManaged t n = true ↔ (t, n) ∈ m.Entries.map Entry.key := by
  simp only [Manifest.IsManaged, List.any_eq_true, hasKey_iff, List.mem_map]

theorem isManaged_false_iff (m : Manifest) (t n : String) :
    m.IsManaged t n = false ↔ (t, n) ∉ m.Entries.map Entry.key := by
  rw [← isManaged_iff]; simp

/-- Shape of the rows after the AddOrUpdate loop when some row has the key. -/
theorem addOrUpdateRows_of_mem (entry : Entry) (rows : List Entry)
    (h : ∃ r ∈ rows, r.hasKey entry.Typ entry.Name = true) :
    ∃ pre r post, rows = pre ++ r :: post ∧ (∀ x ∈ pre, x.hasKey entry.Typ entry.Name = false) ∧
      r.hasKey entry.Typ entry.Name = true ∧ addOrUpdateRows entry rows = pre ++ entry :: post := by
  induction rows with
  | nil => simp at h
  | cons a rest ih =>
    by_cases ha : a.hasKey entry.Typ entry.Name = true
    · exact ⟨[], a, rest, rfl, by simp, ha, by simp [addOrUpdateRows, ha]⟩
    · have hrest : ∃ r ∈ rest, r.hasKey entry.Typ entry.Name = true := by
        obtain ⟨r, hr, hk⟩ := h
        rcases List.mem_cons.mp hr with rfl | hr
        · exact absurd hk ha
        · exact ⟨r, hr, hk⟩
      obtain ⟨pre, r, post, h1, h2, h3, h4⟩ := ih hrest
      refine ⟨a :: pre, r, post, by simp [h1], ?_, h3, by simp [addOrUpdateRows, ha, h4]⟩
      intro x hx
      rcases List.mem_cons.mp hx with rfl | hx
      · simpa using ha
      · exact h2 x hx

/-- The AddOrUpdate loop appends when no row has the key. -/
theorem addOrUpdateRows_of_not_mem (entry : Entry) (rows : List Entry)
    (h : ∀ r ∈ rows, r.hasKey entry.Typ entry.Name = false) :
    addOrUpdateRows entry rows = rows ++ [entry] := by
  induction rows with
  | nil => rfl
  | cons a rest ih =>
    have ha := h a (List.mem_cons_self _ _)
    simp [addOrUpdateRows, ha, ih (fun r hr => h r (List.mem_cons_of_mem _ hr))]

theorem addOrUpdateRows_filter (entry : Entry) (rows : List Entry) :
    (addOrUpdateRows entry rows).filter (fun r => !r.hasKey entry.Typ entry.Name) =
      rows.filter (fun r => !r.hasKey entry.Typ entry.Name) := by
  induction rows with
  | nil => simp [addOrUpdateRows, hasKey_self]
  | cons a rest ih =>
    by_cases ha : a.hasKey entry.Typ entry.Name = true
    · simp [addOrUpdateRows, ha, hasKey_self]
    · simp [addOrUpdateRows, ha, ih]

theorem addOrUpdateRows_find (entry : Entry) (rows : List Entry) :
    (addOrUpdateRows entry rows).find? (fun r => r.hasKey entry.Typ entry.Name) = some entry := by
  induction rows with
  | nil => simp [addOrUpdateRows, hasKey_self]
  | cons a rest ih =>
    by_cases ha : a.hasKey entry.Typ entry.Name = true
    · simp [addOrUpdateRows, ha, hasKey_self]
    · simp [addOrUpdateRows, ha, ih]

theorem addOrUpdateRows_any (entry : Entry) (rows : List Entry) :
    (addOrUpdateRows entry rows).any (fun r => r.hasKey entry.Typ entry.Name) = true := by
  induction rows with
  | nil => simp [addOrUpdateRows, hasKey_self]
  | cons a rest ih =>
    by_cases ha : a.hasKey entry.Typ entry.Name = true
    · simp [addOrUpdateRows, ha, hasKey_self]
    · simp [addOrUpdateRows, ha, ih]

/-- C9. AddOrUpdate: when a row with the key of `e` exists, the rows are the old
rows with the first such row replaced by `e` at its index (same length); when
none exists, the old rows with `e` appended. Rows with another key keep
content and relative order, the installed-collections list is unchanged,
IsManaged holds for the key afterwards and GetEntry returns `e`. -/
theorem addOrUpdate_spec (m : Manifest) (e : Entry) :
    ((∃ r ∈ m.Entries, r.Typ = e.Typ ∧ r.Name = e.Name) →
        ∃ pre r post, m.Entries = pre ++ r :: post ∧
          (∀ x ∈ pre, ¬ (x.Typ = e.Typ ∧ x.Name = e.Name)) ∧
          (r.Typ = e.Typ ∧ r.Name = e.Name) ∧
          (m.AddOrUpdate e).Entries = pre ++ e :: post ∧
          (m.AddOrUpdate e).Entries = m.Entries.set pre.length e ∧
          (m.AddOrUpdate e).Entries.length = m.Entries.length) ∧
    ((¬ ∃ r ∈ m.Entries, r.Typ = e.Typ ∧ r.Name = e.Name) →
        (m.AddOrUpdate e).Entries = m.Entries ++ [e]) ∧
    ((m.AddOrUpdate e).Entries.filter (fun r => !(r.Typ == e.Typ && r.Name == e.Name)) =
        m.Entries.filter (fun r => !(r.Typ == e.Typ && r.Name == e.Name))) ∧
    (m.AddOrUpdate e).Collections = m.Collections ∧
    (m.AddOrUpdate e).IsManaged e.Typ e.Name = true ∧
    (m.AddOrUpdate e).GetEntry e.Typ e.Name = some e := by
  refine ⟨?_, ?_, ?_, rfl, ?_, ?_⟩
  · rintro ⟨r, hr, h⟩
    obtain ⟨pre, r', post, h1, h2, h3, h4⟩ :=
      addOrUpdateRows_of_mem e m.Entries ⟨r, hr, by simpa [Entry.hasKey] using h⟩
    refine ⟨pre, r', post, h1, ?_, by simpa [Entry.hasKey] using h3, h4, ?_, ?_⟩
    · intro x hx
      have := h2 x hx
      simpa [Entry.hasKey] using this
    · show addOrUpdateRows e m.Entries = _
      rw [h4, h1]; simp
    · show (addOrUpdateRows e m.Entries).length = _
      rw [h4, h1]; simp
  · intro h
    apply addOrUpdateRows_of_not_mem
    intro r hr
    have : ¬ (r.Typ = e.Typ ∧ r.Name = e.Name) := fun hk => h ⟨r, hr, hk⟩
    simpa [Entry.hasKey] using this
  · exact addOrUpdateRows_filter e m.Entries
  · exact addOrUpdateRows_any e m.Entries
  · exact addOrUpdateRows_find e m.Entries

theorem addOrUpdateRows_keys (entry : Entry) (rows : List Entry) :
    (addOrUpdateRows entry rows).map Entry.key =
      if entry.key ∈ rows.map Entry.key then rows.map Entry.key
      else rows.map Entry.key ++ [entry.key] := by
  induction rows with
  | nil => simp [addOrUpdateRows]
  | cons a rest ih =>
    by_cases ha : a.hasKey entry.Typ entry.Name = true
    · have hk : a.key = entry.key := (hasKey_iff a _ _).mp ha
      simp [addOrUpdateRows, ha, hk]
    · have hk : a.key ≠ entry.key := fun h => ha ((hasKey_iff a _ _).mpr h)
      simp only [addOrUpdateRows, ha, Bool.false_eq_true, ↓reduceIte, List.map_cons, ih,
        List.mem_cons, (Ne.symm hk), false_or]
      split <;> simp

theorem addOrUpdateRows_nodup (entry : Entry) (rows : List Entry)
    (h : (rows.map Entry.key).Nodup) : ((addOrUpdateRows entry rows).map Entry.key).Nodup := by
  rw [addOrUpdateRows_keys]
  split
  · exact h
  · rename_i hn
    exact List.Nodup.append h (List.nodup_singleton _) (by simpa using hn)

theorem removeFirstRow_sublist (t n : String) (rows : List Entry) :
    (removeFirstRow t n rows).Sublist rows := by
  induction rows with
  | nil => exact List.Sublist.refl _
  | cons a rest ih =>
    by_cases ha : a.hasKey t n = true
    · simp [removeFirstRow, ha]
    · simp [removeFirstRow, ha, ih]

theorem removeFirstRow_nodup (t n : String) (rows : List Entry)
    (h : (rows.map Entry.key).Nodup) : ((removeFirstRow t n rows).map Entry.key).Nodup :=
  List.Nodup.sublist ((removeFirstRow_sublist t n rows).map _) h

theorem LedgerOp.apply_uniqueKeys (op : LedgerOp) (m : Manifest) (h : m.UniqueKeys) :
    (op.apply m).UniqueKeys := by
  cases op with
  | addOrUpdate entry => exact addOrUpdateRows_nodup entry m.Entries h
  | removeEntry objType name => exact removeFirstRow_nodup objType name m.Entries h
  | addCollection name =>
    show (m.AddCollection name).UniqueKeys
    unfold Manifest.AddCollection
    split <;> exact h
  | removeCollection name => exact h

theorem applyOps_uniqueKeys (ops : List LedgerOp) (m : Manifest) (h : m.UniqueKeys) :
    (applyOps ops m).UniqueKeys := by
  induction ops generalizing m with
  | nil => exact h
  | cons op rest ih => exact ih _ (LedgerOp.apply_uniqueKeys op m h)

/-- C10. Ledger uniqueness invariant: a ledger with at most one row per
(type, name) pair still has at most one row per pair after AddOrUpdate and
after RemoveEntry, and every ledger reached from the empty ledger by a
sequence of AddOrUpdate, RemoveEntry, AddCollection and RemoveCollection calls
has at most one row per pair. -/
theorem uniqueKeys_invariant :
    (∀ (m : Manifest) (e : Entry), m.UniqueKeys → (m.AddOrUpdate e).UniqueKeys) ∧
    (∀ (m : Manifest) (objType name : String), m.UniqueKeys →
      (m.RemoveEntry objType name).UniqueKeys) ∧
    (∀ ops : List LedgerOp, (applyOps ops Manifest.empty).UniqueKeys) :=
  ⟨fun m e h => addOrUpdateRows_nodup e m.Entries h,
   fun m t n h => removeFirstRow_nodup t n m.Entries h,
   fun ops => applyOps_uniqueKeys ops _ (by simp [Manifest.UniqueKeys, Manifest.empty])⟩

/-! ## The local filesystem -/


theorem FS.growsDirs_refl (fs : FS) : FS.GrowsDirs fs fs := fun _ => Or.inl rfl

theorem FS.growsDirs_trans {a b c : FS} (h1 : FS.GrowsDirs a b) (h2 : FS.GrowsDirs b c) :
    FS.GrowsDirs a c := by
  intro q
  rcases h1 q with h | ⟨h, h'⟩
  · rcases h2 q with g | ⟨g, g'⟩
    · exact Or.inl (g.trans h)
    · exact Or.inr ⟨h ▸ g, g'⟩
  · rcases h2 q with g | ⟨g, _⟩
    · exact Or.inr ⟨h, g.trans h'⟩
    · rw [h'] at g; cases g

theorem Mkdir_ok {fs fs' : FS} {p : Path} (h : Mkdir fs p = .ok fs') :
    fs p = none ∧ fs' = fs.set p .dir := by
  unfold Mkdir at h
  split at h
  · cases h
  · rename_i hp
    split at h
    · cases h
    · split at h
      · cases h; exact ⟨hp, rfl⟩
      · cases h
      · cases h

theorem MkdirAllRev_ok (fs : FS) (rp : List String) (fs' : FS)
    (h : MkdirAllRev fs rp = .ok fs') : FS.GrowsDirs fs fs' ∧ fs' rp.reverse = some .dir := by
  induction rp generalizing fs' with
  | nil =>
    unfold MkdirAllRev at h
    split at h
    · cases h; rename_i hd; exact ⟨FS.growsDirs_refl _, hd⟩
    · cases h
    · cases h
  | cons x rparent ih =>
    unfold MkdirAllRev at h
    split at h
    · cases h; rename_i hd; exact ⟨FS.growsDirs_refl _, hd⟩
    · cases h
    · rename_i hnone
      split at h
      · cases h
      · rename_i fs1 h1
        obtain ⟨g1, _⟩ := ih fs1 h1
        obtain ⟨hp, hset⟩ := Mkdir_ok h
        subst hset
        refine ⟨FS.growsDirs_trans g1 ?_, by simp [FS.set]⟩
        intro q
        by_cases hq : q = (x :: rparent).reverse
        · subst hq; exact Or.inr ⟨hp, by simp [FS.set]⟩
        · exact Or.inl (by unfold FS.set; rw [if_neg hq])

theorem MkdirAll_ok {fs fs' : FS} {p : Path} (h : MkdirAll fs p = .ok fs') :
    FS.GrowsDirs fs fs' ∧ fs' p = some .dir := by
  have := MkdirAllRev_ok fs p.reverse fs' h
  simpa using this

theorem MkdirAll_of_dir {fs : FS} {p : Path} (h : fs p = some .dir) : MkdirAll fs p = .ok fs := by
  unfold MkdirAll
  cases hp : p.reverse with
  | nil =>
    have : p = [] := by simpa using hp
    subst this
    simp [MkdirAllRev, h]
  | cons x r =>
    have : (x :: r).reverse = p := by rw [← hp]; simp
    simp [MkdirAllRev, this, h]

theorem WriteFile_ok {fs fs' : FS} {p : Path} {data : String} (h : WriteFile fs p data = .ok fs') :
    fs' = fs.set p (.file data) ∧ fs p ≠ some .dir ∧ fs (filepath.Dir p) = some .dir ∧ p ≠ [] := by
  unfold WriteFile at h
  split at h
  · cases h
  · rename_i x rparent hp
    have hpar : rparent.reverse = filepath.Dir p := by
      have : p = rparent.reverse ++ [x] := by
        have := congrArg List.reverse hp; simpa using this
      simp [filepath.Dir, this]
    have hne : p ≠ [] := by intro h0; subst h0; simp at hp
    split at h
    · rename_i hd
      split at h
      · cases h
      · rename_i hnd
        cases h
        exact ⟨rfl, fun hh => hnd hh, hpar ▸ hd, hne⟩
    · cases h
    · cases h

theorem WriteFile_of {fs : FS} {p : Path} {x : String} (data : String)
    (hpar : fs p = some .dir) (hnd : fs (p ++ [x]) ≠ some .dir) :
    WriteFile fs (p ++ [x]) data = .ok (fs.set (p ++ [x]) (.file data)) := by
  unfold WriteFile
  simp only [List.reverse_append, List.reverse_cons, List.reverse_nil, List.nil_append,
    List.singleton_append, List.reverse_reverse, hpar]


/-! ## States and effects -/

@[simp] theorem State.emit_fs (s : State) (e : Event) : (s.emit e).fs = s.fs := rfl
@[simp] theorem State.emit_manifest (s : State) (e : Event) : (s.emit e).manifest = s.manifest := rfl
@[simp] theorem State.emit_cache (s : State) (e : Event) : (s.emit e).cache = s.cache := rfl
@[simp] theorem State.emit_log (s : State) (e : Event) : (s.emit e).log = s.log ++ [e] := rfl
@[simp] theorem State.print_fs (s : State) (r : Report) : (s.print r).fs = s.fs := rfl
@[simp] theorem State.print_manifest (s : State) (r : Report) :
    (s.print r).manifest = s.manifest := rfl
@[simp] theorem State.print_cache (s : State) (r : Report) : (s.print r).cache = s.cache := rfl
@[simp] theorem State.print_log (s : State) (r : Report) :
    (s.print r).log = s.log ++ [.printed r] := rfl

theorem FS.keepsKinds_refl (fs : FS) : FS.KeepsKinds fs fs :=
  fun _ => ⟨id, fun data h => ⟨data, h⟩⟩

theorem FS.keepsKinds_trans {a b c : FS} (h1 : FS.KeepsKinds a b) (h2 : FS.KeepsKinds b c) :
    FS.KeepsKinds a c := by
  intro p
  refine ⟨fun h => (h2 p).1 ((h1 p).1 h), fun data h => ?_⟩
  obtain ⟨d1, hd1⟩ := (h1 p).2 data h
  exact (h2 p).2 d1 hd1

theorem FS.keepsKinds_of_eq {a b : FS} (h : b = a) : FS.KeepsKinds a b :=
  h ▸ FS.keepsKinds_refl a

theorem FS.keepsKinds_of_growsDirs {a b : FS} (h : FS.GrowsDirs a b) : FS.KeepsKinds a b := by
  intro p
  rcases h p with e | ⟨e, -⟩
  · rw [e]; exact ⟨id, fun data h => ⟨data, h⟩⟩
  · rw [e]; exact ⟨fun h => (Option.noConfusion h), fun _ h => (Option.noConfusion h)⟩

theorem FS.keepsKinds_of_write {fs fs2 : FS} {p : Path} {data : String}
    (h : WriteFile fs p data = .ok fs2) : FS.KeepsKinds fs fs2 := by
  obtain ⟨hset, hnd, -, -⟩ := WriteFile_ok h
  subst hset
  intro q
  by_cases hq : q = p
  · subst hq
    refine ⟨fun hd => absurd hd hnd, fun _ _ => ⟨data, by simp [FS.set]⟩⟩
  · simp only [FS.set, hq, ↓reduceIte]
    exact ⟨id, fun d hd => ⟨d, hd⟩⟩

/-- The last write to a path among two runs of events is that of the second run, or that of
the first when the second has none. -/
theorem lastWrite_append (p : Path) (a b : List Event) :
    lastWrite p (a ++ b) =
      match lastWrite p b with
      | some data => some data
      | none => lastWrite p a := by
  induction a with
  | nil =>
    simp only [List.nil_append, lastWrite]
    cases lastWrite p b <;> rfl
  | cons ev rest ih =>
    rw [List.cons_append, lastWrite, ih]
    cases lastWrite p b with
    | some data => rfl
    | none => rfl

theorem lastWrite_eq_none_iff (p : Path) (evs : List Event) :
    lastWrite p evs = none ↔ ∀ ev ∈ evs, ev.writesTo p = false := by
  induction evs with
  | nil => simp [lastWrite]
  | cons ev rest ih =>
    simp only [lastWrite, List.mem_cons, forall_eq_or_imp]
    cases hr : lastWrite p rest with
    | some data =>
      have : ¬ ∀ ev ∈ rest, ev.writesTo p = false := fun h => by
        rw [ih.mpr h] at hr; cases hr
      simp [this]
    | none =>
      have hrest := ih.mp hr
      have hhead : ev.written p = none ↔ ev.writesTo p = false := by
        cases ev <;> simp [Event.writesTo, Event.written]
      show ev.written p = none ↔ _
      rw [hhead]
      exact ⟨fun h => ⟨h, hrest⟩, fun h => h.1⟩

/-- Events that are not writes write to no path. -/
theorem lastWrite_of_no_write (p : Path) (evs : List Event)
    (h : ∀ ev ∈ evs, ev.isWrite = false) : lastWrite p evs = none := by
  rw [lastWrite_eq_none_iff]
  intro ev hev
  have := h ev hev
  cases ev <;> simp_all [Event.writesTo, Event.isWrite]

theorem Effects.nil (s : State) : Effects s s [] :=
  ⟨by simp, by simp, rfl, FS.keepsKinds_refl _, fun _ _ => Or.inl rfl,
    fun _ _ h => by simp [lastWrite] at h⟩

theorem Effects.append {a b c : State} {n1 n2 : List Event} (h1 : Effects a b n1)
    (h2 : Effects b c n2) : Effects a c (n1 ++ n2) := by
  obtain ⟨l1, v1, c1, k1, f1, w1⟩ := h1
  obtain ⟨l2, v2, c2, k2, f2, w2⟩ := h2
  refine ⟨by rw [l2, l1, List.append_assoc], ?_, c2.trans c1, FS.keepsKinds_trans k1 k2, ?_, ?_⟩
  · intro ev hev
    rcases List.mem_append.mp hev with h | h
    · exact v1 ev h
    · exact v2 ev h
  · intro p hp
    have g1 := f1 p (fun ev hev => hp ev (List.mem_append_left _ hev))
    have g2 := f2 p (fun ev hev => hp ev (List.mem_append_right _ hev))
    rcases g1 with h | ⟨h, h'⟩
    · rcases g2 with g | ⟨g, g'⟩
      · exact Or.inl (g.trans h)
      · exact Or.inr ⟨h ▸ g, g'⟩
    · rcases g2 with g | ⟨g, _⟩
      · exact Or.inr ⟨h, g.trans h'⟩
      · rw [h'] at g; cases g
  · intro p data hp
    rw [lastWrite_append] at hp
    cases hb : lastWrite p n2 with
    | some d =>
      rw [hb] at hp
      have hd : d = data := Option.some.inj hp
      exact hd ▸ w2 p d hb
    | none =>
      rw [hb] at hp
      have hfile := w1 p data hp
      rcases f2 p ((lastWrite_eq_none_iff p n2).mp hb) with g | ⟨g, _⟩
      · rw [g, hfile]
      · rw [hfile] at g; cases g

/-- Changing only the cache and the manifest, and appending events that are neither writes nor
calls of Save, is a run. -/
theorem Effects.of_same_fs {s s' : State} {new : List Event} (hfs : s'.fs = s.fs)
    (hcol : s'.manifest.Collections = s.manifest.Collections)
    (hlog : s'.log = s.log ++ new) (hsave : ∀ ev ∈ new, ev.isSave = false)
    (hwrite : ∀ ev ∈ new, ev.isWrite = false) :
    Effects s s' new :=
  ⟨hlog, hsave, hcol, FS.keepsKinds_of_eq hfs, fun _ _ => Or.inl (by rw [hfs]),
    fun p _ h => by rw [lastWrite_of_no_write p new hwrite] at h; cases h⟩

theorem Effects.of_growsDirs {s s' : State} (hfs : FS.GrowsDirs s.fs s'.fs)
    (hcol : s'.manifest.Collections = s.manifest.Collections)
    (hlog : s'.log = s.log) : Effects s s' [] :=
  ⟨by simp [hlog], by simp, hcol, FS.keepsKinds_of_growsDirs hfs, fun p _ => hfs p,
    fun _ _ h => by simp [lastWrite] at h⟩

theorem Effects.of_write {s : State} {fs2 : FS} {p : Path} {data : String}
    (h : WriteFile s.fs p data = .ok fs2) :
    Effects s ({ s with fs := fs2 }.emit (.wrote p data)) [.wrote p data] := by
  obtain ⟨hset, -, -, -⟩ := WriteFile_ok h
  refine ⟨rfl, by simp [Event.isSave], rfl, FS.keepsKinds_of_write h, ?_, ?_⟩
  · intro q hq
    have : q ≠ p := by
      intro h; subst h
      have := hq (.wrote q data) (by simp)
      simp [Event.writesTo] at this
    left
    simp [hset, FS.set, this]
  · intro q d hq
    simp only [lastWrite, Event.written] at hq
    split at hq
    · rename_i hqp
      cases hq
      subst hqp
      simp [hset, FS.set]
    · cases hq

theorem Runs.refl (s : State) : Runs s s := ⟨[], Effects.nil s⟩

theorem Runs.trans {a b c : State} (h1 : Runs a b) (h2 : Runs b c) : Runs a c := by
  obtain ⟨n1, e1⟩ := h1
  obtain ⟨n2, e2⟩ := h2
  exact ⟨n1 ++ n2, e1.append e2⟩

theorem Runs.emit (s : State) {e : Event} (h : e.isSave = false) (hw : e.isWrite = false) :
    Runs s (s.emit e) :=
  ⟨[e], Effects.of_same_fs rfl rfl rfl (by simpa using h) (by simpa using hw)⟩

theorem Runs.print (s : State) (r : Report) : Runs s (s.print r) := Runs.emit s rfl rfl

theorem Runs.of_eq {s s' : State} (hfs : s'.fs = s.fs)
    (hcol : s'.manifest.Collections = s.manifest.Collections) (hlog : s'.log = s.log) :
    Runs s s' :=
  ⟨[], Effects.of_same_fs hfs hcol (by simp [hlog]) (by simp) (by simp)⟩

theorem Runs.mkdirAll {s : State} {fs1 : FS} {p : Path} (h : MkdirAll s.fs p = .ok fs1) :
    Runs s { s with fs := fs1 } :=
  ⟨[], Effects.of_growsDirs (MkdirAll_ok h).1 rfl rfl⟩

theorem Runs.write {s : State} {fs2 : FS} {p : Path} {data : String}
    (h : WriteFile s.fs p data = .ok fs2) : Runs s ({ s with fs := fs2 }.emit (.wrote p data)) :=
  ⟨_, Effects.of_write h⟩

theorem ListContents_fs (R : Remote) (path : String) (s : State) :
    (ListContents R path s).2.fs = s.fs := by
  unfold ListContents; split
  · rfl
  · dsimp only; split <;> rfl

theorem ListContents_manifest (R : Remote) (path : String) (s : State) :
    (ListContents R path s).2.manifest = s.manifest := by
  unfold ListContents; split
  · rfl
  · dsimp only; split <;> rfl

/-- ListContents adds at most its own request to the log. -/
theorem ListContents_log (R : Remote) (path : String) (s : State) :
    (ListContents R path s).2.log = s.log ∨
      (ListContents R path s).2.log = s.log ++ [.httpContents path] := by
  unfold ListContents; split
  · exact Or.inl rfl
  · dsimp only; split <;> exact Or.inr rfl

theorem ListContents_runs {R : Remote} {path : String} {s s' : State}
    {res : Except Error ContentsResult} (h : ListContents R path s = (res, s')) : Runs s s' := by
  have e : s' = (ListContents R path s).2 := by rw [h]
  subst e
  rcases ListContents_log R path s with h | h
  · exact Runs.of_eq (ListContents_fs R path s) (by rw [ListContents_manifest]) h
  · exact ⟨_, Effects.of_same_fs (ListContents_fs R path s) (by rw [ListContents_manifest]) h
      (by simp [Event.isSave]) (by simp [Event.isWrite])⟩

theorem DownloadFile_runs {R : Remote} {filePath : String} {s s' : State}
    {res : Except Error String} (h : DownloadFile R filePath s = (res, s')) : Runs s s' := by
  have e : s' = (DownloadFile R filePath s).2 := by rw [h]
  subst e
  exact Runs.emit s rfl rfl

theorem installDirectoryLoop_runs {R : Remote} {objType entry : String} {localDir : Path}
    {contents : List ContentEntry} {files : List String} {s s' : State}
    {res : Except Error (List String)}
    (h : installDirectoryLoop R objType entry localDir contents files s = (res, s')) :
    Runs s s' := by
  induction contents generalizing files s with
  | nil =>
    simp only [installDirectoryLoop, Prod.mk.injEq] at h
    exact h.2 ▸ Runs.refl s
  | cons c rest ih =>
    unfold installDirectoryLoop at h
    split at h
    · exact ih h
    · dsimp only at h
      split at h
      · rename_i hd
        simp only [Prod.mk.injEq] at h
        exact h.2 ▸ DownloadFile_runs hd
      · rename_i hd
        split at h
        · simp only [Prod.mk.injEq] at h
          exact h.2 ▸ DownloadFile_runs hd
        · rename_i hw
          exact (DownloadFile_runs hd).trans ((Runs.write hw).trans (ih h))

theorem installDirectory_runs {R : Remote} {objType entry : String}
    {contents : List ContentEntry} {s s' : State} {res : Option Error}
    (h : installDirectory R objType entry contents s = (res, s')) : Runs s s' := by
  unfold installDirectory at h
  dsimp only at h
  split at h
  · simp only [Prod.mk.injEq] at h
    exact h.2 ▸ Runs.print s _
  · have h0 : Runs s (if s.manifest.IsManaged objType entry = true then
        s.print (.updating (Path.join [] [".cursor", objType, entry]).toString) else s) := by
      split
      · exact Runs.print s _
      · exact Runs.refl s
    split at h
    · simp only [Prod.mk.injEq] at h
      exact h.2 ▸ h0
    · rename_i hm
      have h1 := h0.trans (Runs.mkdirAll hm)
      split at h
      · rename_i hl
        simp only [Prod.mk.injEq] at h
        exact h.2 ▸ h1.trans (installDirectoryLoop_runs hl)
      · rename_i hl
        simp only [Prod.mk.injEq] at h
        refine h.2 ▸ (h1.trans (installDirectoryLoop_runs hl)).trans ?_
        split
        · exact (Runs.print _ _).trans (Runs.of_eq rfl rfl rfl)
        · exact (Runs.print _ _).trans (Runs.of_eq rfl rfl rfl)

theorem installSingleFile_runs {R : Remote} {objType : String} {entry : ContentEntry}
    {entryName : String} {s s' : State} {res : Option Error}
    (h : installSingleFile R objType entry entryName s = (res, s')) : Runs s s' := by
  unfold installSingleFile at h
  dsimp only at h
  split at h
  · simp only [Prod.mk.injEq] at h
    exact h.2 ▸ Runs.refl s
  · rename_i hm
    have h1 : Runs s { s with fs := _ } := Runs.mkdirAll hm
    split at h
    · simp only [Prod.mk.injEq] at h
      exact h.2 ▸ h1.trans (Runs.print _ _)
    · split at h
      · rename_i hd
        simp only [Prod.mk.injEq] at h
        exact h.2 ▸ h1.trans (DownloadFile_runs hd)
      · rename_i hd
        split at h
        · simp only [Prod.mk.injEq] at h
          exact h.2 ▸ h1.trans (DownloadFile_runs hd)
        · rename_i hw
          simp only [Prod.mk.injEq] at h
          exact h.2 ▸ (h1.trans (DownloadFile_runs hd)).trans
            ((Runs.write hw).trans ((Runs.print _ _).trans (Runs.of_eq rfl rfl rfl)))

theorem installFileByNameLoop_runs {R : Remote} {objType entry : String} {localDir : Path}
    {managed : Bool} {contents : List ContentEntry} {found : Bool} {files : List String}
    {s s' : State} {res : Except Error (Bool × List String)}
    (h : installFileByNameLoop R objType entry localDir managed contents found files s =
      (res, s')) : Runs s s' := by
  induction contents generalizing found files s with
  | nil =>
    simp only [installFileByNameLoop, Prod.mk.injEq] at h
    exact h.2 ▸ Runs.refl s
  | cons c rest ih =>
    unfold installFileByNameLoop at h
    split at h
    · exact ih h
    · dsimp only at h
      split at h
      · split at h
        · exact (Runs.print _ _).trans (ih h)
        · split at h
          · rename_i hd
            simp only [Prod.mk.injEq] at h
            exact h.2 ▸ DownloadFile_runs hd
          · rename_i hd
            split at h
            · simp only [Prod.mk.injEq] at h
              exact h.2 ▸ DownloadFile_runs hd
            · rename_i hw
              exact (DownloadFile_runs hd).trans
                ((Runs.write hw).trans ((Runs.print _ _).trans (ih h)))
      · exact ih h

theorem installFileByName_runs {R : Remote} {objType entry : String} {s s' : State}
    {res : Option Error} (h : installFileByName R objType entry s = (res, s')) : Runs s s' := by
  unfold installFileByName at h
  split at h
  · rename_i hl
    simp only [Prod.mk.injEq] at h
    exact h.2 ▸ ListContents_runs hl
  · rename_i hl
    have h0 := ListContents_runs hl
    dsimp only at h
    split at h
    · simp only [Prod.mk.injEq] at h
      exact h.2 ▸ h0
    · rename_i hm
      have h1 := h0.trans (Runs.mkdirAll hm)
      split at h
      · rename_i hloop
        simp only [Prod.mk.injEq] at h
        exact h.2 ▸ h1.trans (installFileByNameLoop_runs hloop)
      · rename_i hloop
        have h2 := h1.trans (installFileByNameLoop_runs hloop)
        split at h
        · simp only [Prod.mk.injEq] at h
          exact h.2 ▸ h2
        · simp only [Prod.mk.injEq] at h
          exact h.2 ▸ h2.trans (Runs.of_eq rfl rfl rfl)

theorem installEntry_runs {R : Remote} {objType entry : String} {s s' : State}
    {res : Option Error} (h : installEntry R objType entry s = (res, s')) : Runs s s' := by
  unfold installEntry at h
  dsimp only at h
  split at h
  · rename_i hl
    exact (ListContents_runs hl).trans (installFileByName_runs h)
  · rename_i hl
    have h0 := ListContents_runs hl
    split at h
    · exact h0.trans (installDirectory_runs h)
    · split at h
      · simp only [Prod.mk.injEq] at h
        exact h.2 ▸ h0
      · exact h0.trans (installSingleFile_runs h)

theorem installPairs_append (R : Remote) (a b : List (String × String)) (s : State) :
    installPairs R (a ++ b) s =
      match installPairs R a s with
      | (some err, s1) => (some err, s1)
      | (none, s1) => installPairs R b s1 := by
  induction a generalizing s with
  | nil => rfl
  | cons p rest ih =>
    obtain ⟨t, e⟩ := p
    simp only [List.cons_append, installPairs]
    rcases installEntry R t e s with ⟨_ | err, s1⟩
    · exact ih _
    · rfl

theorem installEntries_eq (R : Remote) (objType : String) (entries : List String) (s : State) :
    installEntries R objType entries s =
      installPairs R (entries.map fun entry => (objType, entry)) s := by
  induction entries generalizing s with
  | nil => rfl
  | cons e rest ih =>
    simp only [installEntries, List.map_cons, installPairs]
    rcases installEntry R objType e s with ⟨_ | err, s1⟩
    · exact ih _
    · rfl

theorem installObjTypes_eq (R : Remote) (col : Collection) (s : State) :
    installObjTypes R col s = installPairs R col.pairs s := by
  induction col generalizing s with
  | nil => rfl
  | cons p rest ih =>
    obtain ⟨t, es⟩ := p
    simp only [installObjTypes, Collection.pairs, List.flatMap_cons, installPairs_append,
      installEntries_eq]
    rcases installPairs R (List.map (fun entry => (t, entry)) es) s with ⟨_ | err, s1⟩
    · exact ih _
    · rfl

theorem installPairs_runs {R : Remote} {pairs : List (String × String)} {s s' : State}
    {res : Option Error} (h : installPairs R pairs s = (res, s')) : Runs s s' := by
  induction pairs generalizing s with
  | nil =>
    simp only [installPairs, Prod.mk.injEq] at h
    exact h.2 ▸ Runs.refl s
  | cons p rest ih =>
    obtain ⟨t, e⟩ := p
    simp only [installPairs] at h
    split at h
    · rename_i he
      simp only [Prod.mk.injEq] at h
      exact h.2 ▸ installEntry_runs he
    · rename_i he
      exact (installEntry_runs he).trans (ih h)

theorem installBegin_runs (name : String) (s : State) : Runs s (installBegin name s) :=
  (Runs.print s _).trans (Runs.of_eq rfl rfl rfl)

theorem fileAt_of_frame {fs fs' : FS} {p : Path}
    (h : fs' p = fs p ∨ (fs p = none ∧ fs' p = some Node.dir)) :
    FS.fileAt fs' p = FS.fileAt fs p := by
  rcases h with h | ⟨h, h'⟩
  · simp [FS.fileAt, h]
  · simp [FS.fileAt, h, h']

/-- The state Install leaves when it returns no error: the events of the loops, none of them a
call of Save, then the call of Save with the manifest in memory, whose installed-collections
list is the one Install started with. -/
theorem Install_success (R : Remote) (marshal : Manifest → String) (col : Collection)
    (name : String) (s : State) (h : (Install R marshal col name s).1 = none) :
    (Install R marshal col name s).2.manifest.Collections = s.manifest.Collections ∧
    ∃ new, (∀ ev ∈ new, ev.isSave = false) ∧
      (Install R marshal col name s).2.log =
        s.log ++ new ++
          [.saveCalled (Install R marshal col name s).2.manifest, .printed .done] := by
  unfold Install at h ⊢
  dsimp only at h ⊢
  rcases hl : installObjTypes R col
      { s.print (.installing name) with
        manifest := { (s.print (.installing name)).manifest with Collection := name } }
    with ⟨r, s2⟩
  rw [hl] at h
  rw [installObjTypes_eq] at hl
  obtain ⟨new, hlog, hsave, hcols, -, -⟩ :=
    (installBegin_runs name s).trans (installPairs_runs hl)
  cases r with
  | some err => simp at h
  | none =>
    dsimp only at h ⊢
    rcases hs : Manifest.Save marshal (s2.emit (.saveCalled s2.manifest)).manifest
      (s2.emit (.saveCalled s2.manifest)).fs with ⟨r4, fs4⟩
    rw [hs] at h
    cases r4 with
    | some err => simp at h
    | none =>
      dsimp only
      refine ⟨hcols, new, hsave, ?_⟩
      simp [State.emit, State.print, hlog]

/-- C5. Install never adds the collection name to the installed list: whenever it returns no
error the manifest it saved answers HasCollection(name) as the manifest it started with did.
On a fresh project the collection `base` with the directory entry `rules/common` installs
without error and the manifest passed to Save has an empty installed list, so
HasCollection(`base`) is false on it. -/
theorem install_does_not_record_collection :
    (∀ (R : Remote) (marshal : Manifest → String) (col : Collection) (name : String)
        (s : State), (Install R marshal col name s).1 = none →
      (Install R marshal col name s).2.manifest.HasCollection name =
        s.manifest.HasCollection name) ∧
    (Install remoteSample marshalCompact [("rules", ["common"])] "base" freshState).1 = none ∧
    (Install remoteSample marshalCompact [("rules", ["common"])] "base" freshState).2.log =
      [.printed (.installing "base"), .httpContents "rules/common",
        .httpRaw "rules/common/style.mdc",
        .wrote [".cursor", "rules", "common", "style.mdc"] "style",
        .printed (.installedDir ".cursor/rules/common" 1),
        .saveCalled ⟨[], [⟨"rules", "common", true, ["rules/common/style.mdc"]⟩], "base"⟩,
        .printed .done] ∧
    Manifest.HasCollection ⟨[], [⟨"rules", "common", true, ["rules/common/style.mdc"]⟩], "base"⟩
      "base" = false := by
  refine ⟨?_, by decide, by decide, by decide⟩
  intro R marshal col name s h
  unfold Manifest.HasCollection
  rw [(Install_success R marshal col name s h).1]

/-- C2. A user file does not survive two installs in the fallback case. The user owns
`.cursor/commands/foo.md` and the ledger is empty; `commands/foo` resolves only through the
listing of `commands`. The first installEntry skips the file and leaves its content, yet
records the row (commands, foo) with no files, so the entry is managed; the second
installEntry then overwrites the file with the remote content. -/
theorem skipped_fallback_entry_is_recorded :
    userFooState.fs [".cursor", "commands", "foo.md"] = some (.file "mine") ∧
    userFooState.manifest.IsManaged "commands" "foo" = false ∧
    (installEntry remoteSample "commands" "foo" userFooState).1 = none ∧
    (installEntry remoteSample "commands" "foo" userFooState).2.log =
      [.httpContents "commands/foo", .httpContents "commands",
        .printed (.skipped ".cursor/commands/foo.md")] ∧
    (installEntry remoteSample "commands" "foo" userFooState).2.fs
      [".cursor", "commands", "foo.md"] = some (.file "mine") ∧
    (installEntry remoteSample "commands" "foo" userFooState).2.manifest.Entries =
      [⟨"commands", "foo", false, []⟩] ∧
    (installEntry remoteSample "commands" "foo" userFooState).2.manifest.IsManaged
      "commands" "foo" = true ∧
    (installEntry remoteSample "commands" "foo"
      (installEntry remoteSample "commands" "foo" userFooState).2).1 = none ∧
    (installEntry remoteSample "commands" "foo"
      (installEntry remoteSample "commands" "foo" userFooState).2).2.fs
      [".cursor", "commands", "foo.md"] = some (.file "theirs") := by
  refine ⟨by decide, by decide, by decide, by decide, by decide, by decide, by decide,
    by decide, by decide⟩

theorem FS.GrowsDirs.fileAt {fs fs' : FS} (h : FS.GrowsDirs fs fs') (p : Path) :
    FS.fileAt fs' p = FS.fileAt fs p := fileAt_of_frame (h p)

/-- The fallback loop passes over a listing without matching entries. -/
theorem installFileByNameLoop_no_match (R : Remote) (objType entry : String) (localDir : Path)
    (managed : Bool) (contents : List ContentEntry) (found : Bool) (files : List String)
    (s : State) (h : ∀ c ∈ contents, isMatch entry c = false) :
    installFileByNameLoop R objType entry localDir managed contents found files s =
      (.ok (found, files), s) := by
  induction contents with
  | nil => rfl
  | cons c rest ih =>
    have hc := h c (List.mem_cons_self _ _)
    have hrest := ih (fun c hc => h c (List.mem_cons_of_mem _ hc))
    unfold installFileByNameLoop
    by_cases ht : c.Typ = "file"
    · have : (strings.TrimSuffix c.Name (filepath.Ext c.Name) == entry) = false := by
        simpa [isMatch, ht] using hc
      simp [ht, this, hrest]
    · simp [ht, hrest]

/-- C6 (amended). If the probe of objType/entry does not resolve, the listing of objType has
no file whose name without extension is the entry name, and the local directory
`.cursor/objType` exists or can be created, then installEntry fails with
`entry objType/entry not found in remote repository`, the ledger is unchanged, no file is
written or changed (at most directories are created), and only the two listings are
requested. -/
theorem entry_not_found (R : Remote) (objType entry : String) (s : State) (err : Error)
    (r : ContentsResult) (fs1 : FS)
    (hprobe : (ListContents R (objType ++ "/" ++ entry) s).1 = .error err)
    (hparent : (ListContents R objType (ListContents R (objType ++ "/" ++ entry) s).2).1 = .ok r)
    (hnomatch : ∀ c ∈ r.Entries, isMatch entry c = false)
    (hdir : MkdirAll s.fs (Path.join [] [".cursor", objType]) = .ok fs1) :
    (installEntry R objType entry s).1 = some (.entryNotFound objType entry) ∧
    (Error.entryNotFound objType entry).message =
      "entry " ++ objType ++ "/" ++ entry ++ " not found in remote repository" ∧
    (installEntry R objType entry s).2.manifest = s.manifest ∧
    (installEntry R objType entry s).2.fs = fs1 ∧
    (∀ p, FS.fileAt fs1 p = FS.fileAt s.fs p) ∧
    ∃ new, (installEntry R objType entry s).2.log = s.log ++ new ∧
      ∀ ev ∈ new, ev = .httpContents (objType ++ "/" ++ entry) ∨ ev = .httpContents objType := by
  rcases h1 : ListContents R (objType ++ "/" ++ entry) s with ⟨r1, s1⟩
  rw [h1] at hprobe hparent
  simp only at hprobe hparent
  subst hprobe
  rcases h2 : ListContents R objType s1 with ⟨r2, s2⟩
  rw [h2] at hparent
  simp only at hparent
  subst hparent
  have e1 : s1 = (ListContents R (objType ++ "/" ++ entry) s).2 := by rw [h1]
  have e2 : s2 = (ListContents R objType s1).2 := by rw [h2]
  have hfs : s2.fs = s.fs := by rw [e2, ListContents_fs, e1, ListContents_fs]
  have hman : s2.manifest = s.manifest := by
    rw [e2, ListContents_manifest, e1, ListContents_manifest]
  have hres : installEntry R objType entry s =
      (some (.entryNotFound objType entry), { s2 with fs := fs1 }) := by
    unfold installEntry
    simp only [h1]
    unfold installFileByName
    simp only [h2, hfs, hdir, installFileByNameLoop_no_match R objType entry _ _ _ _ _ _ hnomatch]
    rfl
  rw [hres]
  refine ⟨rfl, rfl, hman, rfl, (MkdirAll_ok hdir).1.fileAt, ?_⟩
  show ∃ new, s2.log = s.log ++ new ∧ _
  rcases ListContents_log R (objType ++ "/" ++ entry) s with g1 | g1 <;>
    rcases ListContents_log R objType s1 with g2 | g2 <;>
    rw [← e1] at g1 <;> rw [← e2] at g2
  · exact ⟨[], by simp [g2, g1], by simp⟩
  · exact ⟨[.httpContents objType], by simp [g2, g1], by simp⟩
  · exact ⟨[.httpContents (objType ++ "/" ++ entry)], by simp [g2, g1], by simp⟩
  · exact ⟨[.httpContents (objType ++ "/" ++ entry), .httpContents objType],
      by simp [g2, g1], by simp⟩

/-- Witness for C6: `commands/bar` on a remote whose `commands` holds only `foo.md`. -/
theorem entry_not_found_witness :
    (ListContents remoteSample ("commands" ++ "/" ++ "bar") freshState).1 =
      .error (.pathNotFound "commands/bar") ∧
    (installEntry remoteSample "commands" "bar" freshState).1 =
      some (.entryNotFound "commands" "bar") ∧
    (installEntry remoteSample "commands" "bar" freshState).2.manifest = freshState.manifest :=
  have h := entry_not_found remoteSample "commands" "bar" freshState
    (.pathNotFound "commands/bar")
    ⟨[⟨"foo.md", "data/.cursor/commands/foo.md", "file", ""⟩], true⟩
    ((emptyDir.set [".cursor"] .dir).set [".cursor", "commands"] .dir)
    rfl rfl (by decide) rfl
  ⟨rfl, h.1, h.2.2.1⟩

/-- C6 as stated fails: when `.cursor/commands` is a regular file, in a project without a
ledger file, the probe of `commands/bar` does not resolve and the listing of `commands` has
no match, yet installEntry fails in MkdirAll with an error that names the directory and not
the entry. -/
theorem entry_not_found_masked_by_mkdir :
    commandsIsFileState.fs manifestPath = none ∧
    (ListContents remoteSample ("commands" ++ "/" ++ "bar") commandsIsFileState).1 =
      .error (.pathNotFound "commands/bar") ∧
    (ListContents remoteSample "commands"
      (ListContents remoteSample ("commands" ++ "/" ++ "bar") commandsIsFileState).2).1 =
      .ok ⟨[⟨"foo.md", "data/.cursor/commands/foo.md", "file", ""⟩], true⟩ ∧
    isMatch "bar" ⟨"foo.md", "data/.cursor/commands/foo.md", "file", ""⟩ = false ∧
    (installEntry remoteSample "commands" "bar" commandsIsFileState).1 =
      some (.createDir ".cursor/commands" ⟨"mkdir", ".cursor/commands", .notDir⟩) ∧
    (Error.createDir ".cursor/commands" ⟨"mkdir", ".cursor/commands", .notDir⟩).message =
      "failed to create directory .cursor/commands: mkdir .cursor/commands: not a directory" ∧
    (Error.createDir ".cursor/commands" ⟨"mkdir", ".cursor/commands", .notDir⟩) ≠
      .entryNotFound "commands" "bar" := by
  refine ⟨by decide, rfl, rfl, by decide, by decide, by decide, by decide⟩

/-! ## Paths -/

theorem splitSlashAux_of_no_slash (cs acc : List Char) (h : '/' ∉ cs) :
    splitSlashAux cs acc = [String.mk (acc.reverse ++ cs)] := by
  induction cs generalizing acc with
  | nil => simp [splitSlashAux]
  | cons c rest ih =>
    have hc : c ≠ '/' := fun e => h (e ▸ List.mem_cons_self _ _)
    have hr : '/' ∉ rest := fun e => h (List.mem_cons_of_mem _ e)
    simp [splitSlashAux, hc, ih _ hr]

theorem isFileName_iff (name : String) :
    isFileName name = true ↔ '/' ∉ name.data ∧ name ≠ "" ∧ name ≠ "." ∧ name ≠ ".." := by
  simp [isFileName, and_assoc]

theorem splitSlash_fileName {name : String} (h : isFileName name = true) :
    splitSlash name = [name] := by
  have h1 := ((isFileName_iff name).mp h).1
  unfold splitSlash
  rw [splitSlashAux_of_no_slash _ _ h1]
  simp

/-- Joining a file name onto a cleaned path appends it. -/
theorem Path.join_fileName (base : Path) {name : String} (h : isFileName name = true) :
    Path.join base [name] = base ++ [name] := by
  obtain ⟨-, h2, h3, h4⟩ := (isFileName_iff name).mp h
  simp [Path.join, splitSlash_fileName h, cleanStep, h2, h3, h4]

theorem FS.WellFormed.parent {fs : FS} (h : fs.WellFormed) {p : Path} {x : String}
    (hx : Stat fs (p ++ [x]) = true) : fs p = some .dir := by
  apply h.2 p x
  intro hn
  simp [Stat, hn] at hx

/-! ## The skip rule -/

/-- With an unmanaged entry whose matching files all exist locally, the fallback loop skips
every match: nothing is downloaded or written. -/
theorem installFileByNameLoop_all_skipped (R : Remote) (objType entry : String)
    (localDir : Path) (contents : List ContentEntry) (found : Bool) (files : List String)
    (s : State)
    (h : ∀ c ∈ contents, isMatch entry c = true → Stat s.fs (localDir.join [c.Name]) = true) :
    ∃ s', installFileByNameLoop R objType entry localDir false contents found files s =
        (.ok (found || contents.any (isMatch entry), files), s') ∧
      s'.fs = s.fs ∧ s'.manifest = s.manifest ∧
      ∃ new, s'.log = s.log ++ new ∧ ∀ ev ∈ new, ev.isListingOrSkip = true := by
  induction contents generalizing found s with
  | nil => exact ⟨s, by simp [installFileByNameLoop], rfl, rfl, [], by simp, by simp⟩
  | cons c rest ih =>
    unfold installFileByNameLoop
    by_cases hm : isMatch entry c = true
    · have ht : c.Typ = "file" := by
        simp only [isMatch, Bool.and_eq_true, beq_iff_eq] at hm; exact hm.1
      have hn : (strings.TrimSuffix c.Name (filepath.Ext c.Name) == entry) = true := by
        simp only [isMatch, Bool.and_eq_true] at hm; exact hm.2
      have hs := h c (List.mem_cons_self _ _) hm
      obtain ⟨s', e, hfs, hman, new, hlog, hnew⟩ := ih true
        (s.print (.skipped (localDir.join [c.Name]).toString))
        (fun c' hc' hm' => h c' (List.mem_cons_of_mem _ hc') hm')
      refine ⟨s', ?_, hfs, hman, .printed (.skipped (localDir.join [c.Name]).toString) :: new,
        by simp [hlog], ?_⟩
      · simp only [ht, bne_self_eq_false, Bool.false_eq_true, ↓reduceIte, hn, hs, Bool.not_false,
          Bool.and_self, e, List.any_cons, hm, Bool.true_or, Bool.or_true]
      · intro ev hev
        rcases List.mem_cons.mp hev with rfl | hev
        · rfl
        · exact hnew ev hev
    · have hm' : isMatch entry c = false := by simpa using hm
      obtain ⟨s', e, hfs, hman, new, hlog, hnew⟩ := ih found s
        (fun c' hc' hm' => h c' (List.mem_cons_of_mem _ hc') hm')
      refine ⟨s', ?_, hfs, hman, new, hlog, hnew⟩
      by_cases ht : c.Typ = "file"
      · have hn : (strings.TrimSuffix c.Name (filepath.Ext c.Name) == entry) = false := by
          simpa [isMatch, ht] using hm'
        simp [ht, hn, e, hm']
      · simp [ht, e, hm']

/-- The log only grows along the fallback loop. -/
theorem installFileByNameLoop_log {R : Remote} {objType entry : String} {localDir : Path}
    {managed : Bool} {contents : List ContentEntry} {found : Bool} {files : List String}
    {s s' : State} {res : Except Error (Bool × List String)}
    (h : installFileByNameLoop R objType entry localDir managed contents found files s =
      (res, s')) : ∃ new, s'.log = s.log ++ new := by
  obtain ⟨new, hlog, -⟩ := installFileByNameLoop_runs h
  exact ⟨new, hlog⟩

/-- A matching file that exists and is not managed leaves a skip report in the log. -/
theorem installFileByNameLoop_skip_reported {R : Remote} {objType entry : String}
    {localDir : Path} {contents : List ContentEntry} {found : Bool} {files : List String}
    {s s' : State} {res : Except Error (Bool × List String)} {new : List Event}
    (h : installFileByNameLoop R objType entry localDir false contents found files s =
      (res, s'))
    (hlog : s'.log = s.log ++ new) (c : ContentEntry) (hc : c ∈ contents)
    (hm : isMatch entry c = true)
    (hall : ∀ c ∈ contents, isMatch entry c = true →
      Stat s.fs (localDir.join [c.Name]) = true) :
    ∃ p, Event.printed (.skipped p) ∈ new := by
  induction contents generalizing found s new with
  | nil => simp at hc
  | cons d rest ih =>
    unfold installFileByNameLoop at h
    by_cases hmd : isMatch entry d = true
    · have ht : d.Typ = "file" := by
        simp only [isMatch, Bool.and_eq_true, beq_iff_eq] at hmd; exact hmd.1
      have hn : (strings.TrimSuffix d.Name (filepath.Ext d.Name) == entry) = true := by
        simp only [isMatch, Bool.and_eq_true] at hmd; exact hmd.2
      have hs := hall d (List.mem_cons_self _ _) hmd
      simp only [ht, bne_self_eq_false, Bool.false_eq_true, ↓reduceIte, hn, hs, Bool.not_false,
        Bool.and_self] at h
      obtain ⟨more, hmore⟩ := installFileByNameLoop_log h
      refine ⟨(localDir.join [d.Name]).toString, ?_⟩
      have : s.log ++ new = s.log ++ (.printed (.skipped (localDir.join [d.Name]).toString)
          :: more) := by
        rw [← hlog, hmore]; simp
      rw [List.append_cancel_left this]
      exact List.mem_cons_self _ _
    · have hmd' : isMatch entry d = false := by simpa using hmd
      have hcr : c ∈ rest := by
        rcases List.mem_cons.mp hc with rfl | hcr
        · exact absurd hm hmd
        · exact hcr
      have hstep : installFileByNameLoop R objType entry localDir false rest found files s =
          (res, s') := by
        by_cases ht : d.Typ = "file"
        · have hn : (strings.TrimSuffix d.Name (filepath.Ext d.Name) == entry) = false := by
            simpa [isMatch, ht] using hmd'
          simpa [ht, hn] using h
        · simpa [ht] using h
      exact ih hstep hlog hcr (fun c' hc' => hall c' (List.mem_cons_of_mem _ hc'))

theorem ListContents_state {R : Remote} {path : String} {s s1 : State}
    {res : Except Error ContentsResult} (h : ListContents R path s = (res, s1)) :
    s1.fs = s.fs ∧ s1.manifest = s.manifest ∧
      ∃ new, s1.log = s.log ++ new ∧ ∀ ev ∈ new, ev = .httpContents path := by
  have e : s1 = (ListContents R path s).2 := by rw [h]
  subst e
  refine ⟨ListContents_fs R path s, ListContents_manifest R path s, ?_⟩
  rcases ListContents_log R path s with g | g
  · exact ⟨[], by simp [g], by simp⟩
  · exact ⟨[.httpContents path], g, by simp⟩

/-- C1. Skip rule, single install: on a well-formed filesystem, if the local path of an entry
exists before installEntry runs (the directory `.cursor/objType/entry` when the probe resolves
to a directory, the file `.cursor/objType/<remote file name>` when it resolves to a single
file, the file of every match when the listing of objType is searched) and (objType, entry)
is not managed, then installEntry returns no error, the filesystem is exactly as it was, and
the only new events are listing requests and skip reports, at least one of the latter: nothing
is downloaded or written. When the probe resolves, the ledger is unchanged as well. -/
theorem skip_rule (R : Remote) (objType entry : String) (s : State)
    (hwf : s.fs.WellFormed) (hun : s.manifest.IsManaged objType entry = false)
    (hcase : SkipCase R objType entry s) :
    (installEntry R objType entry s).1 = none ∧
    (installEntry R objType entry s).2.fs = s.fs ∧
    (∃ new, (installEntry R objType entry s).2.log = s.log ++ new ∧
      (∀ ev ∈ new, ev.isListingOrSkip = true) ∧ ∃ p, Event.printed (.skipped p) ∈ new) ∧
    ((∀ err, (ListContents R (objType ++ "/" ++ entry) s).1 ≠ .error err) →
      (installEntry R objType entry s).2.manifest = s.manifest) := by
  rcases h1 : ListContents R (objType ++ "/" ++ entry) s with ⟨r1, s1⟩
  obtain ⟨hfs1, hman1, new1, hlog1, hnew1⟩ := ListContents_state h1
  have hnew1' : ∀ ev ∈ new1, ev.isListingOrSkip = true := fun ev hev => by
    rw [hnew1 ev hev]; rfl
  cases hcase with
  | directory entries hprobe hexists =>
    rw [h1] at hprobe
    simp only at hprobe
    subst hprobe
    have hres : installEntry R objType entry s =
        (none, s1.print (.skipped (Path.join [] [".cursor", objType, entry]).toString)) := by
      have hcond : (Stat s1.fs (Path.join [] [".cursor", objType, entry]) &&
          !s1.manifest.IsManaged objType entry) = true := by
        rw [hfs1, hman1, hexists, hun]; rfl
      unfold installEntry
      simp only [h1]
      unfold installDirectory
      simp only [hcond, ↓reduceIte]
    rw [hres]
    refine ⟨rfl, hfs1, ⟨new1 ++ [.printed (.skipped
      (Path.join [] [".cursor", objType, entry]).toString)], by simp [hlog1], ?_,
      (Path.join [] [".cursor", objType, entry]).toString, by simp⟩, fun _ => hman1⟩
    intro ev hev
    rcases List.mem_append.mp hev with h | h
    · exact hnew1' ev h
    · simp only [List.mem_singleton] at h; subst h; rfl
  | singleFile first rest hprobe hname hexists =>
    rw [h1] at hprobe
    simp only at hprobe
    subst hprobe
    have hdir : MkdirAll s1.fs (Path.join [] [".cursor", objType]) = .ok s1.fs := by
      rw [Path.join_fileName _ hname] at hexists
      rw [hfs1]; exact MkdirAll_of_dir (hwf.parent hexists)
    have hres : installEntry R objType entry s =
        (none, ({ s1 with fs := s1.fs } : State).print
          (.skipped ((Path.join [] [".cursor", objType]).join [first.Name]).toString)) := by
      have hcond : (Stat s1.fs ((Path.join [] [".cursor", objType]).join [first.Name]) &&
          !s1.manifest.IsManaged objType entry) = true := by
        rw [hfs1, hman1, hexists, hun]; rfl
      unfold installEntry
      simp only [h1]
      unfold installSingleFile
      simp only [hdir, hcond, ↓reduceIte, Bool.false_eq_true]
    rw [hres]
    refine ⟨rfl, hfs1, ⟨new1 ++ [.printed (.skipped
      ((Path.join [] [".cursor", objType]).join [first.Name]).toString)], by simp [hlog1], ?_,
      ((Path.join [] [".cursor", objType]).join [first.Name]).toString, by simp⟩,
      fun _ => hman1⟩
    intro ev hev
    rcases List.mem_append.mp hev with h | h
    · exact hnew1' ev h
    · simp only [List.mem_singleton] at h; subst h; rfl
  | fallback err r hprobe hparent hsome hexists =>
    rw [h1] at hprobe hparent
    simp only at hprobe hparent
    subst hprobe
    rcases h2 : ListContents R objType s1 with ⟨r2, s2⟩
    rw [h2] at hparent
    simp only at hparent
    subst hparent
    obtain ⟨hfs2, hman2, new2, hlog2, hnew2⟩ := ListContents_state h2
    obtain ⟨c0, hc0, hm0⟩ := hsome
    have hex0 := (hexists c0 hc0 hm0).2
    rw [Path.join_fileName _ (hexists c0 hc0 hm0).1] at hex0
    have hdir : MkdirAll s2.fs (Path.join [] [".cursor", objType]) = .ok s2.fs := by
      rw [hfs2, hfs1]; exact MkdirAll_of_dir (hwf.parent hex0)
    obtain ⟨s3, hloop, hfs3, hman3, new3, hlog3, hnew3⟩ :=
      installFileByNameLoop_all_skipped R objType entry (Path.join [] [".cursor", objType])
        r.Entries false [] ({ s2 with fs := s2.fs } : State)
        (fun c hc hm => by
          show Stat s2.fs _ = true
          rw [hfs2, hfs1]; exact (hexists c hc hm).2)
    have hany : r.Entries.any (isMatch entry) = true :=
      List.any_eq_true.mpr ⟨c0, hc0, hm0⟩
    have hres : installEntry R objType entry s =
        (none, { s3 with manifest := s3.manifest.AddOrUpdate ⟨objType, entry, false, []⟩ }) := by
      have hmanaged : s2.manifest.IsManaged objType entry = false := by
        rw [hman2, hman1, hun]
      unfold installEntry
      simp only [h1]
      unfold installFileByName
      simp only [h2, hdir, hmanaged, hloop, hany]
      rfl
    rw [hres]
    refine ⟨rfl, by rw [← hfs1, ← hfs2]; exact hfs3, ?_, fun hne => absurd rfl (hne err)⟩
    obtain ⟨p, hp⟩ : ∃ p, Event.printed (.skipped p) ∈ new3 :=
      installFileByNameLoop_skip_reported hloop hlog3 c0 hc0 hm0
        (fun c hc hm => by
          show Stat s2.fs _ = true
          rw [hfs2, hfs1]; exact (hexists c hc hm).2)
    refine ⟨new1 ++ new2 ++ new3, ?_, ?_, p, by simp [hp]⟩
    · show s3.log = _
      rw [hlog3]
      show s2.log ++ new3 = _
      rw [hlog2, hlog1]
      simp
    · intro ev hev
      rcases List.mem_append.mp hev with h | h
      · rcases List.mem_append.mp h with h | h
        · exact hnew1' ev h
        · rw [hnew2 ev h]; rfl
      · exact hnew3 ev h

theorem userFooDir_wellFormed : userFooDir.WellFormed := by
  refine ⟨by decide, ?_⟩
  intro p x h
  rcases p with _ | ⟨a, _ | ⟨b, _ | ⟨c, q⟩⟩⟩
  · decide
  · simp only [userFooDir, List.cons_append, List.nil_append] at h ⊢
    by_cases ha : a = ".cursor"
    · subst ha; decide
    · simp [ha] at h
  · simp only [userFooDir, List.cons_append, List.nil_append] at h ⊢
    by_cases ha : a = ".cursor" ∧ b = "commands"
    · obtain ⟨rfl, rfl⟩ := ha; decide
    · have : ¬ (a = ".cursor" ∧ b = "commands" ∧ x = "foo.md") := fun hh => ha ⟨hh.1, hh.2.1⟩
      simp [this] at h
  · simp [userFooDir] at h

/-- Witness for C1: the user's `.cursor/commands/foo.md`, matched through the listing of
`commands`, with an empty ledger. -/
theorem skip_rule_witness :
    userFooState.manifest.IsManaged "commands" "foo" = false ∧
    Stat userFooState.fs [".cursor", "commands", "foo.md"] = true ∧
    (installEntry remoteSample "commands" "foo" userFooState).1 = none ∧
    (installEntry remoteSample "commands" "foo" userFooState).2.fs = userFooState.fs :=
  have h := skip_rule remoteSample "commands" "foo" userFooState userFooDir_wellFormed
    (by decide)
    (.fallback (.pathNotFound "commands/foo")
      ⟨[⟨"foo.md", "data/.cursor/commands/foo.md", "file", ""⟩], true⟩ rfl rfl
      ⟨_, List.mem_singleton.mpr rfl, by decide⟩ (by decide))
  ⟨by decide, by decide, h.1, h.2.1⟩

/-! ## The directory case -/

theorem FS.set_ne (fs : FS) {p q : Path} (n : Node) (h : q ≠ p) : (fs.set p n) q = fs q := by
  simp [FS.set, h]

theorem FS.set_self (fs : FS) (p : Path) (n : Node) : (fs.set p n) p = some n := by
  simp [FS.set]

theorem MkdirAllRev_frame (fs : FS) (rp : List String) (fs' : FS)
    (h : MkdirAllRev fs rp = .ok fs') (q : Path) (hq : ¬ q <+: rp.reverse) : fs' q = fs q := by
  induction rp generalizing fs' with
  | nil =>
    unfold MkdirAllRev at h
    split at h
    · cases h; rfl
    · cases h
    · cases h
  | cons x rparent ih =>
    unfold MkdirAllRev at h
    split at h
    · cases h; rfl
    · cases h
    · split at h
      · cases h
      · rename_i fs1 h1
        obtain ⟨-, hset⟩ := Mkdir_ok h
        subst hset
        have hne : q ≠ (x :: rparent).reverse := fun e => hq (e ▸ List.prefix_refl _)
        rw [FS.set_ne _ _ hne]
        apply ih fs1 h1
        intro hpre
        apply hq
        rw [List.reverse_cons]
        exact hpre.trans (List.prefix_append _ _)

/-- MkdirAll changes nothing outside the path it creates. -/
theorem MkdirAll_frame {fs fs' : FS} {p : Path} (h : MkdirAll fs p = .ok fs') (q : Path)
    (hq : ¬ q <+: p) : fs' q = fs q := by
  have := MkdirAllRev_frame fs p.reverse fs' h q
  rw [List.reverse_reverse] at this
  exact this hq

theorem not_prefix_snoc (p : Path) (x : String) : ¬ (p ++ [x]) <+: p := by
  intro h
  have := h.length_le
  simp at this


@[simp] theorem writeAll_nil (fs : FS) : writeAll fs [] = fs := rfl

@[simp] theorem writeAll_cons (fs : FS) (w : Path × String) (ws : List (Path × String)) :
    writeAll fs (w :: ws) = writeAll (fs.set w.1 (.file w.2)) ws := rfl

theorem fileEntries_cons_file {c : ContentEntry} (rest : List ContentEntry)
    (h : c.Typ = "file") : fileEntries (c :: rest) = c :: fileEntries rest := by
  simp [fileEntries, h]

theorem fileEntries_cons_other {c : ContentEntry} (rest : List ContentEntry)
    (h : c.Typ ≠ "file") : fileEntries (c :: rest) = fileEntries rest := by
  simp [fileEntries, h]

/-- The file loop of installDirectory when every download succeeds, the local directory
exists and no listed file name is a local directory. -/
theorem installDirectoryLoop_ok (R : Remote) (objType entry : String) (localDir : Path)
    (contents : List ContentEntry) (files : List String) (s : State)
    (hdir : s.fs localDir = some .dir)
    (hdownload : ∀ c ∈ contents, c.Typ = "file" →
      ∃ data, fetchRaw R (dirRemotePath objType entry c) = .ok data)
    (hnames : ∀ c ∈ contents, c.Typ = "file" →
      isFileName c.Name = true ∧ s.fs (localDir ++ [c.Name]) ≠ some .dir) :
    installDirectoryLoop R objType entry localDir contents files s =
      (.ok (files ++ dirFiles objType entry contents),
        ⟨s.cache, s.manifest, writeAll s.fs (dirWrites R objType entry localDir contents),
          s.log ++ dirEvents R objType entry localDir contents⟩) := by
  induction contents generalizing files s with
  | nil => simp [installDirectoryLoop, dirFiles, dirWrites, dirEvents, fileEntries]
  | cons c rest ih =>
    have hd' := fun c' hc' => hdownload c' (List.mem_cons_of_mem _ hc')
    have hn' := fun c' hc' => hnames c' (List.mem_cons_of_mem _ hc')
    unfold installDirectoryLoop
    by_cases ht : c.Typ = "file"
    · obtain ⟨data, hdata⟩ := hdownload c (List.mem_cons_self _ _) ht
      obtain ⟨hname, hnd⟩ := hnames c (List.mem_cons_self _ _) ht
      have hraw : rawData R (dirRemotePath objType entry c) = data := by
        simp [rawData, hdata]
      have hw : WriteFile (s.emit (.httpRaw (objType ++ "/" ++ entry ++ "/" ++ c.Name))).fs
          (localDir.join [c.Name]) data = .ok (s.fs.set (localDir ++ [c.Name]) (.file data)) := by
        rw [Path.join_fileName _ hname]
        exact WriteFile_of data hdir hnd
      have hne : localDir ≠ localDir ++ [c.Name] := by
        intro h
        have := congrArg List.length h
        simp at this
      simp only [ht, bne_self_eq_false, Bool.false_eq_true, ↓reduceIte, DownloadFile]
      have hdata' : fetchRaw R (objType ++ "/" ++ entry ++ "/" ++ c.Name) = .ok data := hdata
      rw [hdata']
      simp only [hw]
      rw [ih]
      · have hraw' : rawData R (objType ++ "/" ++ entry ++ "/" ++ c.Name) = data := hraw
        simp [dirFiles, dirWrites, dirEvents, fileEntries_cons_file rest ht, hraw',
          Path.join_fileName _ hname, State.emit, dirRemotePath]
      · show (s.fs.set (localDir ++ [c.Name]) (.file data)) localDir = some .dir
        rw [FS.set_ne _ _ hne]; exact hdir
      · exact hd'
      · intro c' hc' ht'
        refine ⟨(hn' c' hc' ht').1, ?_⟩
        show (s.fs.set (localDir ++ [c.Name]) (.file data)) (localDir ++ [c'.Name]) ≠ some .dir
        by_cases hp : localDir ++ [c'.Name] = localDir ++ [c.Name]
        · rw [hp, FS.set_self]; simp
        · rw [FS.set_ne _ _ hp]; exact (hn' c' hc' ht').2
    · have hb : (c.Typ != "file") = true := by simpa using ht
      simp only [hb, ↓reduceIte]
      rw [ih files s hdir hd' hn']
      simp [dirFiles, dirWrites, dirEvents, fileEntries_cons_other rest ht]

theorem cleanStep_fileName (rooted : Bool) (stack : List String) {name : String}
    (h : isFileName name = true) : cleanStep rooted stack name = name :: stack := by
  obtain ⟨-, h2, h3, h4⟩ := (isFileName_iff name).mp h
  simp [cleanStep, h2, h3, h4]

theorem foldl_cleanStep_fileNames (rooted : Bool) (names stack : List String)
    (h : ∀ n ∈ names, isFileName n = true) :
    names.foldl (cleanStep rooted) stack = names.reverse ++ stack := by
  induction names generalizing stack with
  | nil => rfl
  | cons n rest ih =>
    rw [List.foldl_cons, cleanStep_fileName rooted stack (h n (List.mem_cons_self _ _)),
      ih _ (fun m hm => h m (List.mem_cons_of_mem _ hm))]
    simp

theorem flatMap_splitSlash_fileNames (names : List String)
    (h : ∀ n ∈ names, isFileName n = true) : names.flatMap splitSlash = names := by
  induction names with
  | nil => rfl
  | cons n rest ih =>
    rw [List.flatMap_cons, splitSlash_fileName (h n (List.mem_cons_self _ _)),
      ih (fun m hm => h m (List.mem_cons_of_mem _ hm))]
    rfl

/-- Joining file names onto a cleaned path appends them. -/
theorem Path.join_fileNames (base : Path) (names : List String)
    (h : ∀ n ∈ names, isFileName n = true) : Path.join base names = base ++ names := by
  unfold Path.join
  rw [flatMap_splitSlash_fileNames names h, foldl_cleanStep_fileNames false names _ h]
  simp

theorem rooted_fileName {name : String} (rest : List String) (h : isFileName name = true) :
    filepath.rooted (name :: rest) = false := by
  obtain ⟨h1, h2, -, -⟩ := (isFileName_iff name).mp h
  unfold filepath.rooted
  rw [if_neg h2]
  cases hd : name.data with
  | nil => simp
  | cons c cs =>
    have : c ≠ '/' := fun e => h1 (by rw [hd, e]; exact List.mem_cons_self _ _)
    simp [this]

/-- Join of file names is their concatenation with separators. -/
theorem filepath.Join_fileNames (name : String) (rest : List String)
    (h : ∀ n ∈ name :: rest, isFileName n = true) :
    filepath.Join (name :: rest) = "/".intercalate (name :: rest) := by
  have hn := h name (List.mem_cons_self _ _)
  have hne : name ≠ "" := ((isFileName_iff name).mp hn).2.1
  unfold filepath.Join
  have hall : (name :: rest).all (fun e => e == "") = false := by simp [hne]
  rw [hall]
  simp only [Bool.false_eq_true, ↓reduceIte, rooted_fileName rest hn,
    flatMap_splitSlash_fileNames _ h, foldl_cleanStep_fileNames false _ _ h]
  simp [Path.toString]

/-- C8 (amended). Directory case: when the entry is not skipped, every download succeeds,
the local directory exists or can be created, and every listed file name is a single path
element that is not a local directory, installDirectory returns no error; it writes each
listing entry of type "file", and no other, to `<local directory>/<name>` in listing order,
each write preceded by its download; it records through AddOrUpdate the row (objType, entry)
with isDirectory = true and the files `Join(objType, entry, name)` of exactly those entries in
listing order; it reports "installed" when the entry was not managed before and "updating"
then "updated" when it was. For objType and entry that are single path elements the local
directory is `.cursor/objType/entry` and the recorded files are `objType/entry/<name>`. -/
theorem install_directory (R : Remote) (objType entry : String) (contents : List ContentEntry)
    (s : State) (fs1 : FS)
    (hnoskip : (Stat s.fs (Path.join [] [".cursor", objType, entry]) &&
      !s.manifest.IsManaged objType entry) = false)
    (hdownload : ∀ c ∈ contents, c.Typ = "file" →
      ∃ data, fetchRaw R (dirRemotePath objType entry c) = .ok data)
    (hmkdir : MkdirAll s.fs (Path.join [] [".cursor", objType, entry]) = .ok fs1)
    (hnames : ∀ c ∈ contents, c.Typ = "file" → isFileName c.Name = true ∧
      s.fs (Path.join [] [".cursor", objType, entry] ++ [c.Name]) ≠ some .dir) :
    (installDirectory R objType entry contents s).1 = none ∧
    (installDirectory R objType entry contents s).2.manifest =
      s.manifest.AddOrUpdate ⟨objType, entry, true, dirFiles objType entry contents⟩ ∧
    (installDirectory R objType entry contents s).2.fs =
      writeAll fs1 (dirWrites R objType entry (Path.join [] [".cursor", objType, entry]) contents) ∧
    (installDirectory R objType entry contents s).2.log =
      s.log ++
        (if s.manifest.IsManaged objType entry = true then
          [.printed (.updating (Path.join [] [".cursor", objType, entry]).toString)] else []) ++
        dirEvents R objType entry (Path.join [] [".cursor", objType, entry]) contents ++
        [.printed (if s.manifest.IsManaged objType entry = true then
          .updatedDir (Path.join [] [".cursor", objType, entry]).toString
            (fileEntries contents).length
          else .installedDir (Path.join [] [".cursor", objType, entry]).toString
            (fileEntries contents).length)] ∧
    (isFileName objType = true → isFileName entry = true →
      Path.join [] [".cursor", objType, entry] = [".cursor", objType, entry] ∧
      dirFiles objType entry contents =
        (fileEntries contents).map fun c => objType ++ "/" ++ entry ++ "/" ++ c.Name) := by
  have hjoin : isFileName objType = true → isFileName entry = true →
      Path.join [] [".cursor", objType, entry] = [".cursor", objType, entry] ∧
      dirFiles objType entry contents =
        (fileEntries contents).map fun c => objType ++ "/" ++ entry ++ "/" ++ c.Name := by
    intro h1 h2
    refine ⟨?_, ?_⟩
    · rw [Path.join_fileNames]
      · rfl
      · intro n hn
        simp only [List.mem_cons, List.mem_singleton, List.not_mem_nil, or_false] at hn
        rcases hn with rfl | rfl | rfl
        · decide
        · exact h1
        · exact h2
    · unfold dirFiles
      apply List.map_congr_left
      intro c hc
      have hc' : c ∈ contents ∧ c.Typ = "file" := by
        simpa [fileEntries] using hc
      rw [filepath.Join_fileNames]
      · rfl
      · intro n hn
        simp only [List.mem_cons, List.mem_singleton, List.not_mem_nil, or_false] at hn
        rcases hn with rfl | rfl | rfl
        · exact h1
        · exact h2
        · exact (hnames c hc'.1 hc'.2).1
  have hlen : (dirFiles objType entry contents).length = (fileEntries contents).length := by
    simp [dirFiles]
  have hnames1 : ∀ c ∈ contents, c.Typ = "file" → isFileName c.Name = true ∧
      fs1 (Path.join [] [".cursor", objType, entry] ++ [c.Name]) ≠ some .dir := by
    intro c hc ht
    refine ⟨(hnames c hc ht).1, ?_⟩
    rw [MkdirAll_frame hmkdir _ (not_prefix_snoc _ _)]
    exact (hnames c hc ht).2
  cases hm : s.manifest.IsManaged objType entry with
  | false =>
    have hloop := installDirectoryLoop_ok R objType entry
      (Path.join [] [".cursor", objType, entry]) contents [] ({ s with fs := fs1 } : State)
      (MkdirAll_ok hmkdir).2 hdownload hnames1
    have hres : installDirectory R objType entry contents s =
        (none, ⟨s.cache, s.manifest.AddOrUpdate ⟨objType, entry, true, dirFiles objType entry contents⟩,
          writeAll fs1 (dirWrites R objType entry (Path.join [] [".cursor", objType, entry]) contents),
          s.log ++ dirEvents R objType entry (Path.join [] [".cursor", objType, entry]) contents ++
            [.printed (.installedDir (Path.join [] [".cursor", objType, entry]).toString
              (fileEntries contents).length)]⟩) := by
      have hst : Stat s.fs (Path.join [] [".cursor", objType, entry]) = false := by
        simpa [hm] using hnoskip
      unfold installDirectory
      simp only [hst, hm, Bool.false_eq_true, ↓reduceIte, hmkdir, hloop, Bool.not_false,
        List.nil_append, hlen, Bool.and_true, Bool.false_and]
      rfl
    rw [hres]
    exact ⟨rfl, rfl, rfl, by simp, hjoin⟩
  | true =>
    have hloop := installDirectoryLoop_ok R objType entry
      (Path.join [] [".cursor", objType, entry]) contents []
      ({ s.print (.updating (Path.join [] [".cursor", objType, entry]).toString) with
        fs := fs1 } : State)
      (MkdirAll_ok hmkdir).2 hdownload hnames1
    have hres : installDirectory R objType entry contents s =
        (none, ⟨s.cache, s.manifest.AddOrUpdate ⟨objType, entry, true, dirFiles objType entry contents⟩,
          writeAll fs1 (dirWrites R objType entry (Path.join [] [".cursor", objType, entry]) contents),
          s.log ++ [.printed (.updating (Path.join [] [".cursor", objType, entry]).toString)] ++
            dirEvents R objType entry (Path.join [] [".cursor", objType, entry]) contents ++
            [.printed (.updatedDir (Path.join [] [".cursor", objType, entry]).toString
              (fileEntries contents).length)]⟩) := by
      unfold installDirectory
      simp only [hm, Bool.false_eq_true, ↓reduceIte, State.print_fs, hmkdir, hloop,
        Bool.not_true, List.nil_append, hlen, Bool.and_false]
      rfl
    rw [hres]
    exact ⟨rfl, rfl, rfl, by simp, hjoin⟩

/-- Witness for C8: the directory `rules/common` of the sample remote on a fresh project. -/
theorem install_directory_witness :
    (installDirectory remoteSample "rules" "common" [styleEntry] freshState).1 = none ∧
    (installDirectory remoteSample "rules" "common" [styleEntry] freshState).2.manifest =
      freshState.manifest.AddOrUpdate ⟨"rules", "common", true, ["rules/common/style.mdc"]⟩ :=
  have h := install_directory remoteSample "rules" "common" [styleEntry] freshState
    (((emptyDir.set [".cursor"] .dir).set [".cursor", "rules"] .dir).set
      [".cursor", "rules", "common"] .dir)
    (by decide)
    (fun c hc _ => by
      rw [List.mem_singleton.mp hc]
      exact ⟨"style", rfl⟩)
    rfl (by decide)
  ⟨h.1, h.2.1⟩

/-- C8 as stated fails in two ways, both with the managed entry `rules/common`, which is not
skipped and whose one download succeeds. With a regular file in the place of the directory
`.cursor/rules/common`, installDirectory fails in MkdirAll after the report "updating":
nothing is downloaded or written, "updated" is not reported and the row is not refreshed.
With a local directory in the place of `style.mdc`, installDirectory fails in WriteFile after
the download: the file is not written and the row keeps its old files. -/
theorem install_directory_mkdir_fails :
    ((Stat commonIsFileState.fs (Path.join [] [".cursor", "rules", "common"]) &&
        !commonIsFileState.manifest.IsManaged "rules" "common") = false ∧
      fetchRaw remoteSample (dirRemotePath "rules" "common" styleEntry) = .ok "style" ∧
      (installDirectory remoteSample "rules" "common" [styleEntry] commonIsFileState).1 =
        some (.createDir ".cursor/rules/common" ⟨"mkdir", ".cursor/rules/common", .notDir⟩) ∧
      (installDirectory remoteSample "rules" "common" [styleEntry] commonIsFileState).2.log =
        [.printed (.updating ".cursor/rules/common")] ∧
      (installDirectory remoteSample "rules" "common" [styleEntry]
        commonIsFileState).2.fs [".cursor", "rules", "common"] = some (.file "") ∧
      (installDirectory remoteSample "rules" "common" [styleEntry]
        commonIsFileState).2.fs [".cursor", "rules", "common", "style.mdc"] = none ∧
      (installDirectory remoteSample "rules" "common" [styleEntry]
        commonIsFileState).2.manifest = commonIsFileState.manifest) ∧
    ((Stat namesAreDirsState.fs (Path.join [] [".cursor", "rules", "common"]) &&
        !namesAreDirsState.manifest.IsManaged "rules" "common") = false ∧
      (installDirectory remoteSample "rules" "common" [styleEntry] namesAreDirsState).1 =
        some (.writeFailed ".cursor/rules/common/style.mdc"
          ⟨"open", ".cursor/rules/common/style.mdc", .isDir⟩) ∧
      (installDirectory remoteSample "rules" "common" [styleEntry] namesAreDirsState).2.log =
        [.printed (.updating ".cursor/rules/common"), .httpRaw "rules/common/style.mdc"] ∧
      (installDirectory remoteSample "rules" "common" [styleEntry]
        namesAreDirsState).2.fs [".cursor", "rules", "common", "style.mdc"] = some .dir ∧
      (installDirectory remoteSample "rules" "common" [styleEntry]
        namesAreDirsState).2.manifest.GetEntry "rules" "common" =
        some ⟨"rules", "common", true, []⟩) := by
  refine ⟨⟨by decide, rfl, by decide, by decide, by decide, by decide, by decide⟩,
    ⟨by decide, by decide, by decide, by decide, by decide⟩⟩

/-! ## The fallback case -/

theorem matching_cons_match {entry : String} {c : ContentEntry} (rest : List ContentEntry)
    (h : isMatch entry c = true) : matching entry (c :: rest) = c :: matching entry rest := by
  simp [matching, h]

theorem matching_cons_other {entry : String} {c : ContentEntry} (rest : List ContentEntry)
    (h : isMatch entry c = false) : matching entry (c :: rest) = matching entry rest := by
  simp [matching, h]

/-- One pass of the fallback loop over an entry that does not match. -/
theorem installFileByNameLoop_cons_other (R : Remote) (objType entry : String)
    (localDir : Path) (managed : Bool) (c : ContentEntry) (rest : List ContentEntry)
    (found : Bool) (files : List String) (s : State) (h : isMatch entry c = false) :
    installFileByNameLoop R objType entry localDir managed (c :: rest) found files s =
      installFileByNameLoop R objType entry localDir managed rest found files s := by
  rw [installFileByNameLoop]
  by_cases ht : c.Typ = "file"
  · have hn : (strings.TrimSuffix c.Name (filepath.Ext c.Name) == entry) = false := by
      simpa [isMatch, ht] using h
    simp [ht, hn]
  · simp [ht]

/-- One pass of the fallback loop over a match that is not skipped, when the download and the
write succeed. -/
theorem installFileByNameLoop_cons_install (R : Remote) (objType entry : String)
    (localDir : Path) (managed : Bool) (c : ContentEntry) (rest : List ContentEntry)
    (found : Bool) (files : List String) (s : State) (data : String) (fs2 : FS)
    (h : isMatch entry c = true)
    (hcond : (Stat s.fs (localDir.join [c.Name]) && !managed) = false)
    (hdata : fetchRaw R (strippedPath c) = .ok data)
    (hw : WriteFile s.fs (localDir.join [c.Name]) data = .ok fs2) :
    installFileByNameLoop R objType entry localDir managed (c :: rest) found files s =
      installFileByNameLoop R objType entry localDir managed rest true
        (files ++ [filepath.Join [objType, c.Name]])
        ⟨s.cache, s.manifest, fs2,
          s.log ++ [.httpRaw (strippedPath c), .wrote (localDir.join [c.Name]) data,
            .printed (.fileAction (if managed then "updated" else "installed")
              (localDir.join [c.Name]).toString)]⟩ := by
  have ht : c.Typ = "file" := by
    simp only [isMatch, Bool.and_eq_true, beq_iff_eq] at h; exact h.1
  have hn : (strings.TrimSuffix c.Name (filepath.Ext c.Name) == entry) = true := by
    simp only [isMatch, Bool.and_eq_true] at h; exact h.2
  have hdata' : fetchRaw R (strings.TrimPrefix c.Path "data/.cursor/") = .ok data := hdata
  have hw' : WriteFile (s.emit (.httpRaw (strings.TrimPrefix c.Path "data/.cursor/"))).fs
      (localDir.join [c.Name]) data = .ok fs2 := hw
  rw [installFileByNameLoop]
  simp only [ht, bne_self_eq_false, Bool.false_eq_true, ↓reduceIte, hn, hcond, DownloadFile,
    hdata', hw']
  simp [State.emit, State.print, strippedPath]

/-- The fallback loop when no match is skipped, every download succeeds, the local directory
exists and no matched name is a local directory. -/
theorem installFileByNameLoop_ok (R : Remote) (objType entry : String) (localDir : Path)
    (managed : Bool) (contents : List ContentEntry) (found : Bool) (files : List String)
    (s : State)
    (hdir : s.fs localDir = some .dir)
    (hdownload : ∀ c ∈ contents, isMatch entry c = true →
      ∃ data, fetchRaw R (strippedPath c) = .ok data)
    (hnames : ∀ c ∈ contents, isMatch entry c = true →
      isFileName c.Name = true ∧ s.fs (localDir ++ [c.Name]) ≠ some .dir)
    (hnoskip : managed = true ∨
      ∀ c ∈ contents, isMatch entry c = true → s.fs (localDir ++ [c.Name]) = none)
    (hdistinct : ((matching entry contents).map fun c => c.Name).Nodup) :
    installFileByNameLoop R objType entry localDir managed contents found files s =
      (.ok (found || contents.any (isMatch entry), files ++ fallbackFiles objType entry contents),
        ⟨s.cache, s.manifest, writeAll s.fs (fallbackWrites R entry localDir contents),
          s.log ++ fallbackEvents R entry localDir managed contents⟩) := by
  induction contents generalizing found files s with
  | nil =>
    simp [installFileByNameLoop, fallbackFiles, fallbackWrites, fallbackEvents, matching]
  | cons c rest ih =>
    have hd' := fun c' hc' => hdownload c' (List.mem_cons_of_mem _ hc')
    have hn' := fun c' hc' => hnames c' (List.mem_cons_of_mem _ hc')
    by_cases hm : isMatch entry c = true
    · obtain ⟨data, hdata⟩ := hdownload c (List.mem_cons_self _ _) hm
      obtain ⟨hname, hnd⟩ := hnames c (List.mem_cons_self _ _) hm
      have hraw : rawData R (strippedPath c) = data := by simp [rawData, hdata]
      rw [matching_cons_match rest hm, List.map_cons, List.nodup_cons] at hdistinct
      have hcond : (Stat s.fs (localDir.join [c.Name]) && !managed) = false := by
        rcases hnoskip with h | h
        · simp [h]
        · rw [Path.join_fileName _ hname]
          simp [Stat, h c (List.mem_cons_self _ _) hm]
      have hw : WriteFile s.fs (localDir.join [c.Name]) data =
          .ok (s.fs.set (localDir ++ [c.Name]) (.file data)) := by
        rw [Path.join_fileName _ hname]
        exact WriteFile_of data hdir hnd
      have hne : localDir ≠ localDir ++ [c.Name] := by
        intro h
        have := congrArg List.length h
        simp at this
      have hother : ∀ c' ∈ rest, isMatch entry c' = true →
          localDir ++ [c'.Name] ≠ localDir ++ [c.Name] := by
        intro c' hc' hm' e
        have : c'.Name = c.Name := by simpa using e
        apply hdistinct.1
        rw [← this]
        exact List.mem_map.mpr ⟨c', List.mem_filter.mpr ⟨hc', hm'⟩, rfl⟩
      rw [installFileByNameLoop_cons_install R objType entry localDir managed c rest found files
        s data _ hm hcond hdata hw, ih]
      · simp [fallbackFiles, fallbackWrites, fallbackEvents, matching_cons_match rest hm, hraw,
          Path.join_fileName _ hname, hm]
      · show (s.fs.set (localDir ++ [c.Name]) (.file data)) localDir = some .dir
        rw [FS.set_ne _ _ hne]; exact hdir
      · exact hd'
      · intro c' hc' hm'
        refine ⟨(hn' c' hc' hm').1, ?_⟩
        show (s.fs.set (localDir ++ [c.Name]) (.file data)) (localDir ++ [c'.Name]) ≠ some .dir
        rw [FS.set_ne _ _ (hother c' hc' hm')]
        exact (hn' c' hc' hm').2
      · rcases hnoskip with h | h
        · exact Or.inl h
        · right
          intro c' hc' hm'
          show (s.fs.set (localDir ++ [c.Name]) (.file data)) (localDir ++ [c'.Name]) = none
          rw [FS.set_ne _ _ (hother c' hc' hm')]
          exact h c' (List.mem_cons_of_mem _ hc') hm'
      · exact hdistinct.2
    · have hm' : isMatch entry c = false := by simpa using hm
      rw [matching_cons_other rest hm'] at hdistinct
      rw [installFileByNameLoop_cons_other _ _ _ _ _ _ _ _ _ _ hm',
        ih found files s hdir hd' hn' ?_ hdistinct]
      · simp [fallbackFiles, fallbackWrites, fallbackEvents, matching_cons_other rest hm', hm']
      · rcases hnoskip with h | h
        · exact Or.inl h
        · exact Or.inr (fun c' hc' => h c' (List.mem_cons_of_mem _ hc'))

theorem filter_hasKey_eq_nil {rows : List Entry} {t n : String}
    (h : ∀ r ∈ rows, r.hasKey t n = false) : rows.filter (fun r => r.hasKey t n) = [] := by
  rw [List.filter_eq_nil_iff]
  intro r hr
  simp [h r hr]

/-- After AddOrUpdate on a ledger with at most one row per key, the new entry is the only row
with its key. -/
theorem addOrUpdateRows_filter_key (entry : Entry) (rows : List Entry)
    (h : (rows.map Entry.key).Nodup) :
    (addOrUpdateRows entry rows).filter (fun r => r.hasKey entry.Typ entry.Name) = [entry] := by
  by_cases hex : ∃ r ∈ rows, r.hasKey entry.Typ entry.Name = true
  · obtain ⟨pre, r, post, hrows, hpre, hr, hres⟩ := addOrUpdateRows_of_mem entry rows hex
    rw [hres]
    have hpost : ∀ x ∈ post, x.hasKey entry.Typ entry.Name = false := by
      intro x hx
      rw [hrows, List.map_append, List.map_cons] at h
      have hnd := (List.nodup_append.mp h).2.1
      rw [List.nodup_cons] at hnd
      rw [hasKey_false_iff]
      intro hk
      apply hnd.1
      rw [(hasKey_iff r _ _).mp hr, ← hk]
      exact List.mem_map.mpr ⟨x, hx, rfl⟩
    rw [List.filter_append, List.filter_cons, filter_hasKey_eq_nil hpre,
      filter_hasKey_eq_nil hpost]
    simp [hasKey_self]
  · have hnone : ∀ r ∈ rows, r.hasKey entry.Typ entry.Name = false := by
      intro r hr
      by_contra hk
      exact hex ⟨r, hr, by simpa using hk⟩
    rw [addOrUpdateRows_of_not_mem entry rows hnone, List.filter_append,
      filter_hasKey_eq_nil hnone]
    simp [hasKey_self]

/-- C7 (amended). Fallback matching, for a ledger with at most one row per key and a listing
whose matching names are distinct single path elements: when the probe does not resolve, the
listing of objType has at least one file whose name without its last extension is the entry
name, no match is skipped (the entry is managed, or no matched file exists locally), every
download succeeds, `.cursor/objType` exists or can be created and no matched name is a local
directory, installEntry returns no error; the ledger is the old one after AddOrUpdate of the
row (objType, entry) with isDirectory = false and the files `Join(objType, name)` of exactly
the matching entries in listing order, and that row is the only one with its key; exactly
the matching entries are downloaded and written, in listing order, to
`<local directory>/<name>`. For an objType that is a single path element the local directory
is `.cursor/objType` and the recorded files are `objType/<name>`. -/
theorem install_by_name (R : Remote) (objType entry : String) (s : State) (err : Error)
    (r : ContentsResult) (fs1 : FS)
    (hprobe : (ListContents R (objType ++ "/" ++ entry) s).1 = .error err)
    (hparent : (ListContents R objType (ListContents R (objType ++ "/" ++ entry) s).2).1 = .ok r)
    (hsome : ∃ c ∈ r.Entries, isMatch entry c = true)
    (hnoskip : s.manifest.IsManaged objType entry = true ∨
      ∀ c ∈ r.Entries, isMatch entry c = true →
        Stat s.fs (Path.join [] [".cursor", objType] ++ [c.Name]) = false)
    (hdownload : ∀ c ∈ r.Entries, isMatch entry c = true →
      ∃ data, fetchRaw R (strippedPath c) = .ok data)
    (hmkdir : MkdirAll s.fs (Path.join [] [".cursor", objType]) = .ok fs1)
    (hnames : ∀ c ∈ r.Entries, isMatch entry c = true → isFileName c.Name = true ∧
      s.fs (Path.join [] [".cursor", objType] ++ [c.Name]) ≠ some .dir)
    (hdistinct : ((matching entry r.Entries).map fun c => c.Name).Nodup)
    (hunique : s.manifest.UniqueKeys) :
    (installEntry R objType entry s).1 = none ∧
    (installEntry R objType entry s).2.manifest =
      s.manifest.AddOrUpdate ⟨objType, entry, false, fallbackFiles objType entry r.Entries⟩ ∧
    (installEntry R objType entry s).2.manifest.Entries.filter
        (fun row => row.hasKey objType entry) =
      [⟨objType, entry, false, fallbackFiles objType entry r.Entries⟩] ∧
    (installEntry R objType entry s).2.fs =
      writeAll fs1 (fallbackWrites R entry (Path.join [] [".cursor", objType]) r.Entries) ∧
    (∃ listings,
      (∀ ev ∈ listings,
        ev = .httpContents (objType ++ "/" ++ entry) ∨ ev = .httpContents objType) ∧
      (installEntry R objType entry s).2.log =
        s.log ++ listings ++
          fallbackEvents R entry (Path.join [] [".cursor", objType])
            (s.manifest.IsManaged objType entry) r.Entries) ∧
    (isFileName objType = true →
      Path.join [] [".cursor", objType] = [".cursor", objType] ∧
      fallbackFiles objType entry r.Entries =
        (matching entry r.Entries).map fun c => objType ++ "/" ++ c.Name) := by
  rcases h1 : ListContents R (objType ++ "/" ++ entry) s with ⟨r1, s1⟩
  rw [h1] at hprobe hparent
  simp only at hprobe hparent
  subst hprobe
  rcases h2 : ListContents R objType s1 with ⟨r2, s2⟩
  rw [h2] at hparent
  simp only at hparent
  subst hparent
  obtain ⟨hfs1, hman1, new1, hlog1, hnew1⟩ := ListContents_state h1
  obtain ⟨hfs2, hman2, new2, hlog2, hnew2⟩ := ListContents_state h2
  have hfs : s2.fs = s.fs := hfs2.trans hfs1
  have hman : s2.manifest = s.manifest := hman2.trans hman1
  have hframe : ∀ c : ContentEntry, fs1 (Path.join [] [".cursor", objType] ++ [c.Name]) =
      s.fs (Path.join [] [".cursor", objType] ++ [c.Name]) :=
    fun c => MkdirAll_frame hmkdir _ (not_prefix_snoc _ _)
  have hloop := installFileByNameLoop_ok R objType entry (Path.join [] [".cursor", objType])
    (s2.manifest.IsManaged objType entry) r.Entries false [] ({ s2 with fs := fs1 } : State)
    (MkdirAll_ok hmkdir).2 hdownload
    (fun c hc hm => ⟨(hnames c hc hm).1, by
      show fs1 _ ≠ _
      rw [hframe]; exact (hnames c hc hm).2⟩)
    (by
      rcases hnoskip with h | h
      · exact Or.inl (by rw [hman]; exact h)
      · right
        intro c hc hm
        show fs1 _ = none
        rw [hframe]
        have := h c hc hm
        simpa [Stat] using this)
    hdistinct
  obtain ⟨c0, hc0, hm0⟩ := hsome
  have hany : r.Entries.any (isMatch entry) = true := List.any_eq_true.mpr ⟨c0, hc0, hm0⟩
  have hdir2 : MkdirAll s2.fs (Path.join [] [".cursor", objType]) = .ok fs1 := by
    rw [hfs]; exact hmkdir
  have hres : installEntry R objType entry s =
      (none, ⟨s2.cache,
        s2.manifest.AddOrUpdate ⟨objType, entry, false, fallbackFiles objType entry r.Entries⟩,
        writeAll fs1 (fallbackWrites R entry (Path.join [] [".cursor", objType]) r.Entries),
        s2.log ++ fallbackEvents R entry (Path.join [] [".cursor", objType])
          (s2.manifest.IsManaged objType entry) r.Entries⟩) := by
    unfold installEntry
    simp only [h1]
    unfold installFileByName
    simp only [h2, hdir2, hloop, hany, Bool.false_or, Bool.not_true, Bool.false_eq_true,
      ↓reduceIte, List.nil_append]
  rw [hres]
  refine ⟨rfl, by rw [hman], ?_, rfl, ⟨new1 ++ new2, ?_, ?_⟩, ?_⟩
  · show (addOrUpdateRows _ s2.manifest.Entries).filter _ = _
    rw [hman]
    exact addOrUpdateRows_filter_key
      ⟨objType, entry, false, fallbackFiles objType entry r.Entries⟩ s.manifest.Entries hunique
  · intro ev hev
    rcases List.mem_append.mp hev with h | h
    · exact Or.inl (hnew1 ev h)
    · exact Or.inr (hnew2 ev h)
  · show s2.log ++ _ = _
    rw [hlog2, hlog1, hman]
    simp
  · intro hobj
    refine ⟨?_, ?_⟩
    · rw [Path.join_fileNames]
      · rfl
      · intro n hn
        simp only [List.mem_cons, List.mem_singleton, List.not_mem_nil, or_false] at hn
        rcases hn with rfl | rfl
        · decide
        · exact hobj
    · unfold fallbackFiles
      apply List.map_congr_left
      intro c hc
      have hc' : c ∈ r.Entries ∧ isMatch entry c = true := by
        simpa [matching] using hc
      rw [filepath.Join_fileNames]
      · rfl
      · intro n hn
        simp only [List.mem_cons, List.mem_singleton, List.not_mem_nil, or_false] at hn
        rcases hn with rfl | rfl
        · exact hobj
        · exact (hnames c hc'.1 hc'.2).1

/-- Witness for C7: `commands/foo` of the sample remote, found as `foo.md` in the listing of
`commands`, on a fresh project. -/
theorem install_by_name_witness :
    (ListContents remoteSample ("commands" ++ "/" ++ "foo") freshState).1 =
      .error (.pathNotFound "commands/foo") ∧
    (installEntry remoteSample "commands" "foo" freshState).1 = none ∧
    (installEntry remoteSample "commands" "foo" freshState).2.manifest.Entries.filter
        (fun row => row.hasKey "commands" "foo") =
      [⟨"commands", "foo", false, ["commands/foo.md"]⟩] :=
  have h := install_by_name remoteSample "commands" "foo" freshState
    (.pathNotFound "commands/foo") ⟨[fooEntry], true⟩
    ((emptyDir.set [".cursor"] .dir).set [".cursor", "commands"] .dir)
    rfl rfl ⟨fooEntry, List.mem_singleton.mpr rfl, by decide⟩ (Or.inr (by decide))
    (fun c hc _ => by
      rw [List.mem_singleton.mp hc]
      exact ⟨"theirs", rfl⟩)
    rfl (by decide) (by decide) List.nodup_nil
  ⟨rfl, h.1, h.2.2.1⟩

/-- C7 as stated fails in three ways, each time in the fallback case with no match skipped
and no download failing. With `.cursor/commands` a regular file, `commands/foo` has the one
match `foo.md`, which does not exist locally, yet installEntry fails in MkdirAll and the ledger
has no row for (commands, foo). With the managed entry `commands/foo` and a local directory in
the place of `foo.md`, installEntry fails in WriteFile: the file is not written and the row
keeps its old files. On a fresh project `commands/bar` has no match at all, installEntry
fails and the ledger has no row for (commands, bar). -/
theorem install_by_name_no_row :
    ((ListContents remoteSample ("commands" ++ "/" ++ "foo") commandsIsFileState).1 =
        .error (.pathNotFound "commands/foo") ∧
      (ListContents remoteSample "commands"
        (ListContents remoteSample ("commands" ++ "/" ++ "foo") commandsIsFileState).2).1 =
        .ok ⟨[fooEntry], true⟩ ∧
      matching "foo" [fooEntry] = [fooEntry] ∧
      Stat commandsIsFileState.fs [".cursor", "commands", "foo.md"] = false ∧
      fetchRaw remoteSample (strippedPath fooEntry) = .ok "theirs" ∧
      (installEntry remoteSample "commands" "foo" commandsIsFileState).1 =
        some (.createDir ".cursor/commands" ⟨"mkdir", ".cursor/commands", .notDir⟩) ∧
      (installEntry remoteSample "commands" "foo" commandsIsFileState).2.manifest.Entries =
        []) ∧
    ((ListContents remoteSample ("commands" ++ "/" ++ "foo") namesAreDirsState).1 =
        .error (.pathNotFound "commands/foo") ∧
      (ListContents remoteSample "commands"
        (ListContents remoteSample ("commands" ++ "/" ++ "foo") namesAreDirsState).2).1 =
        .ok ⟨[fooEntry], true⟩ ∧
      namesAreDirsState.manifest.IsManaged "commands" "foo" = true ∧
      (installEntry remoteSample "commands" "foo" namesAreDirsState).1 =
        some (.writeFailed ".cursor/commands/foo.md"
          ⟨"open", ".cursor/commands/foo.md", .isDir⟩) ∧
      (installEntry remoteSample "commands" "foo" namesAreDirsState).2.fs
        [".cursor", "commands", "foo.md"] = some .dir ∧
      (installEntry remoteSample "commands" "foo" namesAreDirsState).2.manifest.GetEntry
        "commands" "foo" = some ⟨"commands", "foo", false, []⟩) ∧
    ((ListContents remoteSample ("commands" ++ "/" ++ "bar") freshState).1 =
        .error (.pathNotFound "commands/bar") ∧
      (ListContents remoteSample "commands"
        (ListContents remoteSample ("commands" ++ "/" ++ "bar") freshState).2).1 =
        .ok ⟨[fooEntry], true⟩ ∧
      matching "bar" [fooEntry] = [] ∧
      (installEntry remoteSample "commands" "bar" freshState).1 =
        some (.entryNotFound "commands" "bar") ∧
      (installEntry remoteSample "commands" "bar" freshState).2.manifest.Entries = []) := by
  refine ⟨⟨rfl, rfl, by decide, by decide, rfl, by decide, by decide⟩,
    ⟨rfl, rfl, by decide, by decide, by decide, by decide⟩,
    ⟨rfl, rfl, by decide, by decide, by decide⟩⟩

/-! ## Installing twice -/

theorem addOrUpdateRows_idem (entry : Entry) (rows : List Entry) :
    addOrUpdateRows entry (addOrUpdateRows entry rows) = addOrUpdateRows entry rows := by
  induction rows with
  | nil => simp [addOrUpdateRows, hasKey_self]
  | cons a rest ih =>
    by_cases ha : a.hasKey entry.Typ entry.Name = true
    · simp [addOrUpdateRows, ha, hasKey_self]
    · simp [addOrUpdateRows, ha, ih]

theorem Manifest.AddOrUpdate_idem (m : Manifest) (entry : Entry) :
    (m.AddOrUpdate entry).AddOrUpdate entry = m.AddOrUpdate entry := by
  simp [Manifest.AddOrUpdate, addOrUpdateRows_idem]

theorem Manifest.IsManaged_addOrUpdate (m : Manifest) (entry : Entry) :
    (m.AddOrUpdate entry).IsManaged entry.Typ entry.Name = true :=
  addOrUpdateRows_any entry m.Entries

theorem ListContents_agrees {R : Remote} {path : String} {s s' : State}
    {res : Except Error ContentsResult} (hc : CacheAgrees R s.cache)
    (h : ListContents R path s = (res, s')) :
    res = fetchContents R path ∧ CacheAgrees R s'.cache := by
  unfold ListContents at h
  split at h
  · rename_i cached hl
    simp only [Prod.mk.injEq] at h
    obtain ⟨rfl, rfl⟩ := h
    exact ⟨(hc path cached hl).symm, hc⟩
  · dsimp only at h
    split at h
    · rename_i err he
      simp only [Prod.mk.injEq] at h
      obtain ⟨rfl, rfl⟩ := h
      exact ⟨he.symm, hc⟩
    · rename_i result he
      simp only [Prod.mk.injEq] at h
      obtain ⟨rfl, rfl⟩ := h
      refine ⟨he.symm, ?_⟩
      intro p r hp
      simp only [State.emit_cache, List.lookup_cons] at hp
      split at hp
      · rename_i hpe
        have : p = path := by simpa using hpe
        subst this
        cases hp
        exact he
      · exact hc p r hp

theorem WriteFile_of_file {fs : FS} {p : Path} (data : String) (hne : p ≠ [])
    (hpar : fs (filepath.Dir p) = some .dir) (hnd : fs p ≠ some .dir) :
    WriteFile fs p data = .ok (fs.set p (.file data)) := by
  have hp : p = filepath.Dir p ++ [p.getLast hne] := by
    simp [filepath.Dir, List.dropLast_append_getLast]
  have := @WriteFile_of fs (filepath.Dir p) (p.getLast hne) data hpar
    (by rw [← hp]; exact hnd)
  rw [← hp] at this
  exact this

/-- A write that succeeded succeeds again on any filesystem that kept the kinds of the one it
produced. -/
theorem WriteFile_again {fs fs2 fsA fsB : FS} {p : Path} {data : String}
    (h : WriteFile fs p data = .ok fs2) (h2 : FS.KeepsKinds fs2 fsA)
    (hk : FS.KeepsKinds fsA fsB) :
    WriteFile fsB p data = .ok (fsB.set p (.file data)) ∧
      FS.KeepsKinds fsA (fsB.set p (.file data)) := by
  obtain ⟨hset, -, hpar, hne⟩ := WriteFile_ok h
  subst hset
  have hdne : filepath.Dir p ≠ p := by
    intro e
    have := congrArg List.length e
    simp only [filepath.Dir, List.length_dropLast] at this
    have hl : 0 < p.length := List.length_pos.mpr hne
    omega
  have hparA : fsA (filepath.Dir p) = some .dir := by
    apply (h2 _).1
    rw [FS.set_ne _ _ hdne]; exact hpar
  obtain ⟨dA, hfileA⟩ := (h2 p).2 data (FS.set_self _ _ _)
  obtain ⟨dB, hfileB⟩ := (hk p).2 dA hfileA
  refine ⟨WriteFile_of_file data hne ((hk _).1 hparA) (by rw [hfileB]; simp), ?_⟩
  intro q
  by_cases hq : q = p
  · subst hq
    rw [FS.set_self, hfileA]
    exact ⟨fun h => (by cases h), fun _ _ => ⟨data, rfl⟩⟩
  · rw [FS.set_ne _ _ hq]
    exact hk q

theorem installDirectoryLoop_replay {R : Remote} {objType entry : String} {localDir : Path}
    {contents : List ContentEntry} {files F : List String} {a a' : State} (b : State)
    (h : installDirectoryLoop R objType entry localDir contents files a = (.ok F, a'))
    (hk : FS.KeepsKinds a'.fs b.fs) :
    ∃ b', installDirectoryLoop R objType entry localDir contents files b = (.ok F, b') ∧
      b'.manifest = b.manifest ∧
      ∃ new, a'.log = a.log ++ new ∧ b'.log = b.log ++ new ∧
        ∀ ev ∈ new, ev.isReport = false := by
  induction contents generalizing files a b with
  | nil =>
    simp only [installDirectoryLoop, Prod.mk.injEq, Except.ok.injEq] at h
    obtain ⟨rfl, rfl⟩ := h
    exact ⟨b, rfl, rfl, [], by simp, by simp, by simp⟩
  | cons c rest ih =>
    unfold installDirectoryLoop at h ⊢
    split at h
    · rename_i ht
      simp only [ht, ↓reduceIte]
      exact ih b h hk
    · rename_i ht
      simp only [ht, ↓reduceIte]
      simp only [DownloadFile] at h ⊢
      cases hf : fetchRaw R (objType ++ "/" ++ entry ++ "/" ++ c.Name) with
      | error err => rw [hf] at h; simp at h
      | ok data =>
        rw [hf] at h
        simp only at h ⊢
        cases hw : WriteFile (a.emit (.httpRaw (objType ++ "/" ++ entry ++ "/" ++ c.Name))).fs
            (localDir.join [c.Name]) data with
        | error e => rw [hw] at h; simp at h
        | ok fs2 =>
          rw [hw] at h
          simp only at h
          obtain ⟨-, -, -, -, hk1, -⟩ := installDirectoryLoop_runs h
          obtain ⟨hwb, hkb⟩ := @WriteFile_again _ _ _ b.fs _ _ hw hk1 hk
          have hwb' : WriteFile (b.emit (.httpRaw (objType ++ "/" ++ entry ++ "/" ++ c.Name))).fs
              (localDir.join [c.Name]) data = _ := hwb
          rw [hwb']
          simp only
          obtain ⟨b', hb', hman, new, hla, hlb, hrep⟩ := ih
            (({ b.emit (.httpRaw (objType ++ "/" ++ entry ++ "/" ++ c.Name)) with
              fs := b.fs.set (localDir.join [c.Name]) (.file data) } : State).emit
              (.wrote (localDir.join [c.Name]) data)) h hkb
          refine ⟨b', hb', hman, [.httpRaw (objType ++ "/" ++ entry ++ "/" ++ c.Name),
            .wrote (localDir.join [c.Name]) data] ++ new, ?_, ?_, ?_⟩
          · rw [hla]; simp [State.emit]
          · rw [hlb]; simp [State.emit]
          · intro ev hev
            rcases List.mem_append.mp hev with h1 | h1
            · simp only [List.mem_cons, List.mem_singleton, List.not_mem_nil, or_false] at h1
              rcases h1 with rfl | rfl <;> rfl
            · exact hrep ev h1

theorem filter_isWrite_of_reports {new : List Event} (h : ∀ ev ∈ new, ev.isReport = true) :
    new.filter Event.isWrite = [] := by
  rw [List.filter_eq_nil_iff]
  intro ev hev
  have := h ev hev
  cases ev <;> simp_all [Event.isReport, Event.isWrite]

/-- The second run of installDirectory, given what the first run did after its skip check:
the directory was there for the loop, the loop succeeded, and the row was recorded. -/
theorem installDirectory_replay_core {R : Remote} {objType entry : String}
    {contents : List ContentEntry} {a0 s2 : State} {files : List String}
    {new1 : List Event} (a' : State) (pre post : List Event) (b : State)
    (hdir1 : a0.fs (Path.join [] [".cursor", objType, entry]) = some .dir)
    (hl : installDirectoryLoop R objType entry (Path.join [] [".cursor", objType, entry])
      contents [] a0 = (.ok files, s2))
    (hman' : a'.manifest = s2.manifest.AddOrUpdate ⟨objType, entry, true, files⟩)
    (hfs' : a'.fs = s2.fs)
    (hnew1 : ∀ loopnew, s2.log = a0.log ++ loopnew → new1 = pre ++ loopnew ++ post)
    (hpre : ∀ ev ∈ pre, ev.isReport = true) (hpost : ∀ ev ∈ post, ev.isReport = true)
    (hman : b.manifest = a'.manifest) (hk : FS.KeepsKinds a'.fs b.fs) :
    Replays new1 b (installDirectory R objType entry contents b).2
      (installDirectory R objType entry contents b).1 := by
  obtain ⟨-, -, -, -, hk1, -⟩ := installDirectoryLoop_runs hl
  have hmanaged : b.manifest.IsManaged objType entry = true := by
    rw [hman, hman']
    exact Manifest.IsManaged_addOrUpdate s2.manifest ⟨objType, entry, true, files⟩
  have hdir : b.fs (Path.join [] [".cursor", objType, entry]) = some .dir := by
    apply (hk _).1
    rw [hfs']
    exact (hk1 _).1 hdir1
  obtain ⟨b', hb', hbman, new, hla, hlb, hrep⟩ := installDirectoryLoop_replay
    ({ b.print (.updating (Path.join [] [".cursor", objType, entry]).toString) with
      fs := b.fs } : State) hl (by rw [← hfs']; exact hk)
  have hres : installDirectory R objType entry contents b =
      (none, { b'.print (.updatedDir (Path.join [] [".cursor", objType, entry]).toString
          files.length) with
        manifest := b'.manifest.AddOrUpdate ⟨objType, entry, true, files⟩ }) := by
    unfold installDirectory
    simp only [hmanaged, Bool.not_true, Bool.and_false, Bool.false_eq_true, ↓reduceIte,
      State.print_fs, MkdirAll_of_dir hdir, hb']
    rfl
  rw [hres, hnew1 new hla]
  refine ⟨rfl, ?_, [.printed (.updating (Path.join [] [".cursor", objType, entry]).toString)]
    ++ new ++ [.printed (.updatedDir (Path.join [] [".cursor", objType, entry]).toString
      files.length)], ?_, ?_, ?_, ?_⟩
  · show b'.manifest.AddOrUpdate _ = b.manifest
    rw [hbman]
    show b.manifest.AddOrUpdate _ = b.manifest
    rw [hman, hman', Manifest.AddOrUpdate_idem]
  · show b'.log ++ _ = _
    rw [hlb]
    simp
  · simp only [List.filter_append, filter_isWrite_of_reports hpre,
      filter_isWrite_of_reports hpost, List.nil_append, List.append_nil]
    rw [@filter_isWrite_of_reports [_] (by simp [Event.isReport]),
      @filter_isWrite_of_reports [_] (by simp [Event.isReport])]
    simp
  · intro ev hev
    simp only [List.append_assoc, List.mem_append, List.mem_singleton] at hev
    rcases hev with rfl | hev | rfl
    · exact ⟨rfl, fun _ => rfl⟩
    · have := hrep ev hev
      refine ⟨?_, fun hr => by rw [this] at hr; cases hr⟩
      cases ev <;> simp_all [Event.isReport, Event.isSkip]
    · exact ⟨rfl, fun _ => rfl⟩
  · exact ⟨.printed (.updating (Path.join [] [".cursor", objType, entry]).toString),
      by simp, rfl⟩

theorem installDirectory_replay {R : Remote} {objType entry : String}
    {contents : List ContentEntry} {a a' : State} {new1 : List Event} (b : State)
    (h : installDirectory R objType entry contents a = (none, a'))
    (hlog : a'.log = a.log ++ new1) (hns : ∀ ev ∈ new1, ev.isSkip = false)
    (hman : b.manifest = a'.manifest) (hk : FS.KeepsKinds a'.fs b.fs) :
    Replays new1 b (installDirectory R objType entry contents b).2
      (installDirectory R objType entry contents b).1 := by
  unfold installDirectory at h
  dsimp only at h
  split at h
  · -- the first run skipped: excluded
    simp only [Prod.mk.injEq, true_and] at h
    subst h
    have : new1 = [.printed (.skipped (Path.join [] [".cursor", objType, entry]).toString)] := by
      have := hlog
      simp only [State.print_log] at this
      exact (List.append_cancel_left this).symm
    have := hns _ (by rw [this]; exact List.mem_singleton.mpr rfl)
    simp [Event.isSkip] at this
  · cases hma : a.manifest.IsManaged objType entry with
    | false =>
      simp only [hma, Bool.false_eq_true, ↓reduceIte, Bool.not_false] at h
      split at h
      · simp at h
      · rename_i fs1 hm
        split at h
        · simp at h
        · rename_i files s2 hl
          simp only [Prod.mk.injEq, true_and] at h
          have hlog' : a'.log = s2.log ++ [.printed (.installedDir
              (Path.join [] [".cursor", objType, entry]).toString files.length)] := by
            rw [← h]; rfl
          refine installDirectory_replay_core a' []
            [.printed (.installedDir (Path.join [] [".cursor", objType, entry]).toString
              files.length)] b (MkdirAll_ok hm).2 hl (by rw [← h]; rfl) (by rw [← h]; rfl)
            ?_ (by simp) (by simp [Event.isReport]) hman hk
          intro loopnew hloop
          apply @List.append_cancel_left _ a.log
          rw [← hlog, hlog', hloop]
          simp
    | true =>
      simp only [hma, ↓reduceIte, Bool.not_true, Bool.false_eq_true] at h
      split at h
      · simp at h
      · rename_i fs1 hm
        split at h
        · simp at h
        · rename_i files s2 hl
          simp only [Prod.mk.injEq, true_and] at h
          have hlog' : a'.log = s2.log ++ [.printed (.updatedDir
              (Path.join [] [".cursor", objType, entry]).toString files.length)] := by
            rw [← h]; rfl
          refine installDirectory_replay_core a'
            [.printed (.updating (Path.join [] [".cursor", objType, entry]).toString)]
            [.printed (.updatedDir (Path.join [] [".cursor", objType, entry]).toString
              files.length)] b (MkdirAll_ok hm).2 hl (by rw [← h]; rfl) (by rw [← h]; rfl)
            ?_ (by simp [Event.isReport]) (by simp [Event.isReport]) hman hk
          intro loopnew hloop
          apply @List.append_cancel_left _ a.log
          rw [← hlog, hlog', hloop]
          simp

theorem installSingleFile_replay {R : Remote} {objType entryName : String}
    {first : ContentEntry} {a a' : State} {new1 : List Event} (b : State)
    (h : installSingleFile R objType first entryName a = (none, a'))
    (hlog : a'.log = a.log ++ new1) (hns : ∀ ev ∈ new1, ev.isSkip = false)
    (hman : b.manifest = a'.manifest) (hk : FS.KeepsKinds a'.fs b.fs) :
    Replays new1 b (installSingleFile R objType first entryName b).2
      (installSingleFile R objType first entryName b).1 := by
  unfold installSingleFile at h
  dsimp only at h
  split at h
  · simp at h
  · rename_i fs1 hm
    split at h
    · -- the first run skipped: excluded
      simp only [Prod.mk.injEq, true_and] at h
      have hl : a'.log = a.log ++ [.printed (.skipped
          ((Path.join [] [".cursor", objType]).join [first.Name]).toString)] := by
        rw [← h]; rfl
      have : new1 = [.printed (.skipped
          ((Path.join [] [".cursor", objType]).join [first.Name]).toString)] := by
        apply @List.append_cancel_left _ a.log
        rw [← hlog, hl]
      have := hns _ (by rw [this]; exact List.mem_singleton.mpr rfl)
      simp [Event.isSkip] at this
    · simp only [DownloadFile] at h
      cases hf : fetchRaw R (strings.TrimPrefix first.Path "data/.cursor/") with
      | error err => rw [hf] at h; simp at h
      | ok data =>
        rw [hf] at h
        simp only at h
        split at h
        · simp at h
        · rename_i fs2 hw
          simp only [Prod.mk.injEq, true_and] at h
          have hw' : WriteFile fs1 ((Path.join [] [".cursor", objType]).join [first.Name]) data =
              .ok fs2 := hw
          have hman' : a'.manifest = a.manifest.AddOrUpdate
              ⟨objType, entryName, false, [filepath.Join [objType, first.Name]]⟩ := by
            rw [← h]; rfl
          have hfs' : a'.fs = fs2 := by rw [← h]; rfl
          have hnew1 : new1 = [.httpRaw (strings.TrimPrefix first.Path "data/.cursor/"),
              .wrote ((Path.join [] [".cursor", objType]).join [first.Name]) data,
              .printed (.fileAction (if a.manifest.IsManaged objType entryName = true
                then "updated" else "installed")
                ((Path.join [] [".cursor", objType]).join [first.Name]).toString)] := by
            apply @List.append_cancel_left _ a.log
            rw [← hlog, ← h]
            simp [State.emit, State.print]
          have hmanaged : b.manifest.IsManaged objType entryName = true := by
            rw [hman, hman']
            exact Manifest.IsManaged_addOrUpdate a.manifest
              ⟨objType, entryName, false, [filepath.Join [objType, first.Name]]⟩
          have hdir : b.fs (Path.join [] [".cursor", objType]) = some .dir := by
            apply (hk _).1
            rw [hfs']
            exact ((FS.keepsKinds_of_write hw') _).1 (MkdirAll_ok hm).2
          obtain ⟨hwb, -⟩ := @WriteFile_again _ _ a'.fs b.fs _ _ hw'
            (FS.keepsKinds_of_eq hfs') hk
          have hres : installSingleFile R objType first entryName b =
              (none, ⟨b.cache, b.manifest.AddOrUpdate
                  ⟨objType, entryName, false, [filepath.Join [objType, first.Name]]⟩,
                b.fs.set ((Path.join [] [".cursor", objType]).join [first.Name]) (.file data),
                b.log ++ [.httpRaw (strings.TrimPrefix first.Path "data/.cursor/"),
                  .wrote ((Path.join [] [".cursor", objType]).join [first.Name]) data,
                  .printed (.fileAction "updated"
                    ((Path.join [] [".cursor", objType]).join [first.Name]).toString)]⟩) := by
            have hwb' : WriteFile
                (({ b with fs := b.fs } : State).emit
                  (.httpRaw (strings.TrimPrefix first.Path "data/.cursor/"))).fs
                ((Path.join [] [".cursor", objType]).join [first.Name]) data = _ := hwb
            unfold installSingleFile
            simp only [MkdirAll_of_dir hdir, hmanaged, Bool.not_true, Bool.and_false,
              Bool.false_eq_true, ↓reduceIte, DownloadFile, hf, hwb']
            simp [State.emit, State.print]
          rw [hres, hnew1]
          refine ⟨rfl, ?_, _, rfl, ?_, ?_, ?_⟩
          · show b.manifest.AddOrUpdate _ = b.manifest
            rw [hman, hman', Manifest.AddOrUpdate_idem]
          · simp [Event.isWrite]
          · intro ev hev
            simp only [List.mem_cons, List.mem_singleton, List.not_mem_nil, or_false] at hev
            rcases hev with rfl | rfl | rfl
            · exact ⟨rfl, fun hr => by cases hr⟩
            · exact ⟨rfl, fun hr => by cases hr⟩
            · exact ⟨rfl, fun _ => rfl⟩
          · exact ⟨.printed (.fileAction "updated"
              ((Path.join [] [".cursor", objType]).join [first.Name]).toString), by simp, rfl⟩

theorem installFileByNameLoop_replay {R : Remote} {objType entry : String} {localDir : Path}
    {managed : Bool} {contents : List ContentEntry} {found : Bool} {files : List String}
    {F : Bool × List String} {a a' : State} {new1 : List Event} (b : State)
    (h : installFileByNameLoop R objType entry localDir managed contents found files a =
      (.ok F, a'))
    (hlog : a'.log = a.log ++ new1) (hns : ∀ ev ∈ new1, ev.isSkip = false)
    (hk : FS.KeepsKinds a'.fs b.fs) :
    ∃ b' new2, installFileByNameLoop R objType entry localDir true contents found files b =
        (.ok F, b') ∧
      b'.manifest = b.manifest ∧ b'.log = b.log ++ new2 ∧
      new2.filter Event.isWrite = new1.filter Event.isWrite ∧
      (∀ ev ∈ new2, ev.isSkip = false ∧ (ev.isReport = true → ev.isUpdateReport = true)) ∧
      (F.1 = true → found = true ∨ ∃ ev ∈ new2, ev.isUpdateReport = true) := by
  induction contents generalizing found files a b new1 with
  | nil =>
    simp only [installFileByNameLoop, Prod.mk.injEq, Except.ok.injEq] at h
    obtain ⟨rfl, rfl⟩ := h
    have : new1 = [] := by
      have := hlog
      exact (List.self_eq_append_right.mp this)
    subst this
    exact ⟨b, [], rfl, rfl, by simp, rfl, by simp, fun hF => Or.inl hF⟩
  | cons c rest ih =>
    by_cases hm : isMatch entry c = true
    · have ht : c.Typ = "file" := by
        simp only [isMatch, Bool.and_eq_true, beq_iff_eq] at hm; exact hm.1
      have hn : (strings.TrimSuffix c.Name (filepath.Ext c.Name) == entry) = true := by
        simp only [isMatch, Bool.and_eq_true] at hm; exact hm.2
      rw [installFileByNameLoop] at h
      simp only [ht, bne_self_eq_false, Bool.false_eq_true, ↓reduceIte, hn] at h
      split at h
      · -- the first run skipped this match: excluded
        obtain ⟨more, hmore⟩ := installFileByNameLoop_log h
        have : new1 = .printed (.skipped (localDir.join [c.Name]).toString) :: more := by
          apply @List.append_cancel_left _ a.log
          rw [← hlog, hmore]
          simp
        have := hns _ (by rw [this]; exact List.mem_cons_self _ _)
        simp [Event.isSkip] at this
      · rename_i hcond
        simp only [DownloadFile] at h
        cases hf : fetchRaw R (strings.TrimPrefix c.Path "data/.cursor/") with
        | error err => rw [hf] at h; simp at h
        | ok data =>
          rw [hf] at h
          simp only at h
          cases hw : WriteFile (a.emit (.httpRaw (strings.TrimPrefix c.Path "data/.cursor/"))).fs
              (localDir.join [c.Name]) data with
          | error e => rw [hw] at h; simp at h
          | ok fs2 =>
            rw [hw] at h
            simp only at h
            obtain ⟨more, hmore, -, -, hk1, -⟩ := installFileByNameLoop_runs h
            obtain ⟨hwb, hkb⟩ := @WriteFile_again _ _ _ b.fs _ _ hw hk1 hk
            have hnew1 : new1 = [.httpRaw (strings.TrimPrefix c.Path "data/.cursor/"),
                .wrote (localDir.join [c.Name]) data,
                .printed (.fileAction (if managed = true then "updated" else "installed")
                  (localDir.join [c.Name]).toString)] ++ more := by
              apply @List.append_cancel_left _ a.log
              rw [← hlog, hmore]
              simp [State.emit, State.print]
            obtain ⟨b', new2, hb', hbman, hlb, hwr, hrep, -⟩ := ih
              (⟨b.cache, b.manifest, b.fs.set (localDir.join [c.Name]) (.file data),
                b.log ++ [.httpRaw (strippedPath c), .wrote (localDir.join [c.Name]) data,
                  .printed (.fileAction (if true = true then "updated" else "installed")
                    (localDir.join [c.Name]).toString)]⟩ : State) h hmore
              (fun ev hev => hns ev (by rw [hnew1]; exact List.mem_append_right _ hev)) hkb
            refine ⟨b', [.httpRaw (strippedPath c), .wrote (localDir.join [c.Name]) data,
              .printed (.fileAction "updated" (localDir.join [c.Name]).toString)] ++ new2,
              ?_, hbman, ?_, ?_, ?_, ?_⟩
            · rw [installFileByNameLoop_cons_install R objType entry localDir true c rest found
                files b data _ hm (by simp) hf hwb]
              exact hb'
            · rw [hlb]; simp
            · rw [hnew1]
              simp only [List.filter_append, hwr]
              simp [Event.isWrite, List.filter_cons]
            · intro ev hev
              rcases List.mem_append.mp hev with h1 | h1
              · simp only [List.mem_cons, List.mem_singleton, List.not_mem_nil, or_false] at h1
                rcases h1 with rfl | rfl | rfl
                · exact ⟨rfl, fun hr => by cases hr⟩
                · exact ⟨rfl, fun hr => by cases hr⟩
                · exact ⟨rfl, fun _ => rfl⟩
              · exact hrep ev h1
            · intro _
              exact Or.inr ⟨.printed (.fileAction "updated" (localDir.join [c.Name]).toString),
                by simp, rfl⟩
    · have hm' : isMatch entry c = false := by simpa using hm
      rw [installFileByNameLoop_cons_other _ _ _ _ _ _ _ _ _ _ hm'] at h ⊢
      exact ih b h hlog hns hk

theorem filter_isWrite_of_listings {new : List Event} {path : String}
    (h : ∀ ev ∈ new, ev = .httpContents path) : new.filter Event.isWrite = [] := by
  rw [List.filter_eq_nil_iff]
  intro ev hev
  rw [h ev hev]
  simp [Event.isWrite]

/-- Listing requests in front of the events of a replayed run do not change what it shows. -/
theorem Replays.after_listing {new1 pre1 pre2 : List Event} {path : String} {t0 t t' : State}
    {res : Option Error} (h : Replays new1 t t' res)
    (h1 : ∀ ev ∈ pre1, ev = .httpContents path) (h2 : ∀ ev ∈ pre2, ev = .httpContents path)
    (hlog : t.log = t0.log ++ pre2) (hman : t.manifest = t0.manifest) :
    Replays (pre1 ++ new1) t0 t' res := by
  obtain ⟨hres, hm, new2, hl, hw, hrep, hex⟩ := h
  refine ⟨hres, hm.trans hman, pre2 ++ new2, by rw [hl, hlog, List.append_assoc], ?_, ?_, ?_⟩
  · rw [List.filter_append, List.filter_append, filter_isWrite_of_listings h1,
      filter_isWrite_of_listings h2, hw]
  · intro ev hev
    rcases List.mem_append.mp hev with h' | h'
    · rw [h2 ev h']
      exact ⟨rfl, fun hr => by cases hr⟩
    · exact hrep ev h'
  · obtain ⟨ev, hev, hu⟩ := hex
    exact ⟨ev, List.mem_append_right _ hev, hu⟩

theorem installFileByName_replay {R : Remote} {objType entry : String} {a a' : State}
    {new1 : List Event} (b : State)
    (h : installFileByName R objType entry a = (none, a'))
    (hlog : a'.log = a.log ++ new1) (hns : ∀ ev ∈ new1, ev.isSkip = false)
    (hman : b.manifest = a'.manifest) (hk : FS.KeepsKinds a'.fs b.fs)
    (hca : CacheAgrees R a.cache) (hcb : CacheAgrees R b.cache) :
    Replays new1 b (installFileByName R objType entry b).2
      (installFileByName R objType entry b).1 := by
  unfold installFileByName at h
  split at h
  · simp at h
  · rename_i r sa hla
    dsimp only at h
    split at h
    · simp at h
    · rename_i fs1 hm
      split at h
      · simp at h
      · rename_i found files sc hloop
        split at h
        · simp at h
        · rename_i hfound
          simp only [Prod.mk.injEq, true_and] at h
          have hfound' : found = true := by simpa using hfound
          subst hfound'
          obtain ⟨hfsa, hmana, pre1, hloga, hpre1⟩ := ListContents_state hla
          obtain ⟨loopnew, hlogc, -, -, hk1, -⟩ := installFileByNameLoop_runs hloop
          have hman' : a'.manifest =
              sc.manifest.AddOrUpdate ⟨objType, entry, false, files⟩ := by rw [← h]
          have hfs' : a'.fs = sc.fs := by rw [← h]
          have hnew1 : new1 = pre1 ++ loopnew := by
            apply @List.append_cancel_left _ a.log
            rw [← hlog, ← h]
            show sc.log = _
            rw [hlogc]
            show sa.log ++ _ = _
            rw [hloga, List.append_assoc]
          rcases hlb : ListContents R objType b with ⟨rb, sb⟩
          obtain ⟨hfsb, hmanb, pre2, hlogb, hpre2⟩ := ListContents_state hlb
          have hrb : rb = .ok r := by
            rw [(ListContents_agrees hcb hlb).1, ← (ListContents_agrees hca hla).1]
          subst hrb
          have hmanaged : sb.manifest.IsManaged objType entry = true := by
            rw [hmanb, hman, hman']
            exact Manifest.IsManaged_addOrUpdate sc.manifest ⟨objType, entry, false, files⟩
          have hksb : FS.KeepsKinds sc.fs sb.fs := by
            rw [hfsb, ← hfs']; exact hk
          have hdir : sb.fs (Path.join [] [".cursor", objType]) = some .dir :=
            (hksb _).1 ((hk1 _).1 (MkdirAll_ok hm).2)
          obtain ⟨b', new2, hb', hbman, hlb2, hwr, hrep, hex⟩ := installFileByNameLoop_replay
            ({ sb with fs := sb.fs } : State) hloop hlogc
            (fun ev hev => hns ev (by rw [hnew1]; exact List.mem_append_right _ hev)) hksb
          have hres : installFileByName R objType entry b =
              (none, { b' with
                manifest := b'.manifest.AddOrUpdate ⟨objType, entry, false, files⟩ }) := by
            unfold installFileByName
            simp only [hlb, MkdirAll_of_dir hdir, hmanaged, hb', Bool.not_true,
              Bool.false_eq_true, ↓reduceIte]
          rw [hres, hnew1]
          refine Replays.after_listing (t := sb) ?_ hpre1 hpre2 hlogb hmanb
          refine ⟨rfl, ?_, new2, hlb2, hwr, hrep, ?_⟩
          · show b'.manifest.AddOrUpdate _ = sb.manifest
            rw [hbman]
            show sb.manifest.AddOrUpdate _ = sb.manifest
            rw [hmanb, hman, hman', Manifest.AddOrUpdate_idem]
          · rcases hex rfl with hf | hex
            · cases hf
            · exact hex

theorem installDirectoryLoop_manifest {R : Remote} {objType entry : String} {localDir : Path}
    {contents : List ContentEntry} {files : List String} {s s' : State}
    {res : Except Error (List String)}
    (h : installDirectoryLoop R objType entry localDir contents files s = (res, s')) :
    s'.manifest = s.manifest := by
  induction contents generalizing files s with
  | nil =>
    simp only [installDirectoryLoop, Prod.mk.injEq] at h
    rw [← h.2]
  | cons c rest ih =>
    unfold installDirectoryLoop at h
    split at h
    · exact ih h
    · simp only [DownloadFile] at h
      split at h
      · rename_i hd
        simp only [Prod.mk.injEq] at h hd
        rw [← h.2, ← hd.2]; rfl
      · rename_i hd
        simp only [Prod.mk.injEq] at hd
        split at h
        · simp only [Prod.mk.injEq] at h
          rw [← h.2, ← hd.2]; rfl
        · rw [ih h, ← hd.2]; rfl

theorem installFileByNameLoop_manifest {R : Remote} {objType entry : String} {localDir : Path}
    {managed : Bool} {contents : List ContentEntry} {found : Bool} {files : List String}
    {s s' : State} {res : Except Error (Bool × List String)}
    (h : installFileByNameLoop R objType entry localDir managed contents found files s =
      (res, s')) : s'.manifest = s.manifest := by
  induction contents generalizing found files s with
  | nil =>
    simp only [installFileByNameLoop, Prod.mk.injEq] at h
    rw [← h.2]
  | cons c rest ih =>
    unfold installFileByNameLoop at h
    split at h
    · exact ih h
    · dsimp only at h
      split at h
      · split at h
        · rw [ih h]; rfl
        · simp only [DownloadFile] at h
          split at h
          · rename_i hd
            simp only [Prod.mk.injEq] at h hd
            rw [← h.2, ← hd.2]; rfl
          · rename_i hd
            simp only [Prod.mk.injEq] at hd
            split at h
            · simp only [Prod.mk.injEq] at h
              rw [← h.2, ← hd.2]; rfl
            · rw [ih h, ← hd.2]; rfl
      · exact ih h

theorem skip_excluded {a a' : State} {new1 more : List Event} {p : String}
    (hlog : a'.log = a.log ++ new1) (hns : ∀ ev ∈ new1, ev.isSkip = false)
    (h : a'.log = a.log ++ .printed (.skipped p) :: more) : False := by
  have : new1 = .printed (.skipped p) :: more := by
    apply @List.append_cancel_left _ a.log
    rw [← hlog, h]
  have := hns _ (by rw [this]; exact List.mem_cons_self _ _)
  simp [Event.isSkip] at this

theorem installDirectory_records {R : Remote} {objType entry : String}
    {contents : List ContentEntry} {a a' : State} {new1 : List Event}
    (h : installDirectory R objType entry contents a = (none, a'))
    (hlog : a'.log = a.log ++ new1) (hns : ∀ ev ∈ new1, ev.isSkip = false) :
    ∃ files, a'.manifest = a.manifest.AddOrUpdate ⟨objType, entry, true, files⟩ := by
  unfold installDirectory at h
  dsimp only at h
  split at h
  · simp only [Prod.mk.injEq, true_and] at h
    exact (skip_excluded hlog hns (by rw [← h]; rfl)).elim
  · split at h
    · simp at h
    · split at h
      · simp at h
      · rename_i files s2 hl
        simp only [Prod.mk.injEq, true_and] at h
        have hm2 := installDirectoryLoop_manifest hl
        refine ⟨files, ?_⟩
        rw [← h]
        show (if _ then _ else _ : State).manifest.AddOrUpdate _ = _
        have : s2.manifest = a.manifest := by
          rw [hm2]
          show (if _ then _ else _ : State).manifest = _
          split <;> rfl
        split <;> (show s2.manifest.AddOrUpdate _ = _; rw [this])

theorem installSingleFile_records {R : Remote} {objType entryName : String}
    {first : ContentEntry} {a a' : State} {new1 : List Event}
    (h : installSingleFile R objType first entryName a = (none, a'))
    (hlog : a'.log = a.log ++ new1) (hns : ∀ ev ∈ new1, ev.isSkip = false) :
    ∃ files, a'.manifest = a.manifest.AddOrUpdate ⟨objType, entryName, false, files⟩ := by
  unfold installSingleFile at h
  dsimp only at h
  split at h
  · simp at h
  · split at h
    · simp only [Prod.mk.injEq, true_and] at h
      exact (skip_excluded hlog hns (by rw [← h]; rfl)).elim
    · simp only [DownloadFile] at h
      split at h
      · simp at h
      · rename_i hd
        simp only [Prod.mk.injEq] at hd
        split at h
        · simp at h
        · simp only [Prod.mk.injEq, true_and] at h
          refine ⟨[filepath.Join [objType, first.Name]], ?_⟩
          rw [← h, ← hd.2]
          rfl

theorem installFileByName_records {R : Remote} {objType entry : String} {a a' : State}
    (h : installFileByName R objType entry a = (none, a')) :
    ∃ files, a'.manifest = a.manifest.AddOrUpdate ⟨objType, entry, false, files⟩ := by
  unfold installFileByName at h
  split at h
  · simp at h
  · rename_i hla
    dsimp only at h
    split at h
    · simp at h
    · split at h
      · simp at h
      · rename_i found files sc hloop
        split at h
        · simp at h
        · simp only [Prod.mk.injEq, true_and] at h
          refine ⟨files, ?_⟩
          rw [← h]
          show sc.manifest.AddOrUpdate _ = _
          rw [installFileByNameLoop_manifest hloop]
          show Manifest.AddOrUpdate (State.manifest _) _ = _
          rw [(ListContents_state hla).2.1]

/-- A successful installEntry that reports no skip recorded a row for the entry. -/
theorem installEntry_records {R : Remote} {objType entry : String} {a a' : State}
    {new1 : List Event} (h : installEntry R objType entry a = (none, a'))
    (hlog : a'.log = a.log ++ new1) (hns : ∀ ev ∈ new1, ev.isSkip = false) :
    ∃ isDir files, a'.manifest = a.manifest.AddOrUpdate ⟨objType, entry, isDir, files⟩ := by
  unfold installEntry at h
  dsimp only at h
  split at h
  · rename_i hl
    obtain ⟨files, hf⟩ := installFileByName_records h
    exact ⟨false, files, by rw [hf, (ListContents_state hl).2.1]⟩
  · rename_i r sa hl
    obtain ⟨-, hman, pre, hpre, -⟩ := ListContents_state hl
    have hsub : ∀ {res : Option Error}, (∃ more, a'.log = sa.log ++ more) →
        ∃ more, a'.log = sa.log ++ more ∧ ∀ ev ∈ more, ev.isSkip = false := by
      rintro _ ⟨more, hmore⟩
      refine ⟨more, hmore, fun ev hev => hns ev ?_⟩
      have : new1 = pre ++ more := by
        apply @List.append_cancel_left _ a.log
        rw [← hlog, hmore, hpre, List.append_assoc]
      rw [this]
      exact List.mem_append_right _ hev
    split at h
    · obtain ⟨more, hmore, -⟩ := installDirectory_runs h
      obtain ⟨more, hmore, hns'⟩ := @hsub none ⟨more, hmore⟩
      obtain ⟨files, hf⟩ := installDirectory_records h hmore hns'
      exact ⟨true, files, by rw [hf, hman]⟩
    · split at h
      · simp at h
      · obtain ⟨more, hmore, -⟩ := installSingleFile_runs h
        obtain ⟨more, hmore, hns'⟩ := @hsub none ⟨more, hmore⟩
        obtain ⟨files, hf⟩ := installSingleFile_records h hmore hns'
        exact ⟨false, files, by rw [hf, hman]⟩

theorem newEvents_eq {s s' : State} {new : List Event} (h : s'.log = s.log ++ new) :
    newEvents s s' = new := by
  simp [newEvents, h]

theorem installEntry_replay {R : Remote} {objType entry : String} {a a' : State}
    {new1 : List Event} (b : State)
    (h : installEntry R objType entry a = (none, a'))
    (hlog : a'.log = a.log ++ new1) (hns : ∀ ev ∈ new1, ev.isSkip = false)
    (hman : b.manifest = a'.manifest) (hk : FS.KeepsKinds a'.fs b.fs)
    (hca : CacheAgrees R a.cache) (hcb : CacheAgrees R b.cache) :
    Replays new1 b (installEntry R objType entry b).2 (installEntry R objType entry b).1 := by
  rcases hla : ListContents R (objType ++ "/" ++ entry) a with ⟨ra, sa⟩
  rcases hlb : ListContents R (objType ++ "/" ++ entry) b with ⟨rb, sb⟩
  obtain ⟨hfsa, hmana, pre1, hloga, hpre1⟩ := ListContents_state hla
  obtain ⟨hfsb, hmanb, pre2, hlogb, hpre2⟩ := ListContents_state hlb
  obtain ⟨hra, hcsa⟩ := ListContents_agrees hca hla
  obtain ⟨hrb, hcsb⟩ := ListContents_agrees hcb hlb
  have hrr : rb = ra := by rw [hra, hrb]
  subst hrr
  have hmansb : sb.manifest = a'.manifest := hmanb.trans hman
  have hksb : FS.KeepsKinds a'.fs sb.fs := by rw [hfsb]; exact hk
  have hsub : ∀ more, a'.log = sa.log ++ more →
      new1 = pre1 ++ more ∧ ∀ ev ∈ more, ev.isSkip = false := by
    intro more hmore
    have : new1 = pre1 ++ more := by
      apply @List.append_cancel_left _ a.log
      rw [← hlog, hmore, hloga, List.append_assoc]
    exact ⟨this, fun ev hev => hns ev (by rw [this]; exact List.mem_append_right _ hev)⟩
  unfold installEntry at h ⊢
  simp only [hla] at h
  simp only [hlb]
  cases rb with
  | error err =>
    simp only at h ⊢
    obtain ⟨more, hmore, -⟩ := installFileByName_runs h
    obtain ⟨hn1, hns'⟩ := hsub more hmore
    rw [hn1]
    exact (installFileByName_replay sb h hmore hns' hmansb hksb hcsa hcsb).after_listing
      hpre1 hpre2 hlogb hmanb
  | ok r =>
    simp only at h ⊢
    by_cases hd : r.IsDir = true
    · simp only [hd, ↓reduceIte] at h ⊢
      obtain ⟨more, hmore, -⟩ := installDirectory_runs h
      obtain ⟨hn1, hns'⟩ := hsub more hmore
      rw [hn1]
      exact (installDirectory_replay sb h hmore hns' hmansb hksb).after_listing
        hpre1 hpre2 hlogb hmanb
    · simp only [hd, Bool.false_eq_true, ↓reduceIte] at h ⊢
      cases hE : r.Entries with
      | nil => rw [hE] at h; simp at h
      | cons first rest =>
        rw [hE] at h
        simp only at h ⊢
        obtain ⟨more, hmore, -⟩ := installSingleFile_runs h
        obtain ⟨hn1, hns'⟩ := hsub more hmore
        rw [hn1]
        exact (installSingleFile_replay sb h hmore hns' hmansb hksb).after_listing
          hpre1 hpre2 hlogb hmanb

/-- C4 (amended). Idempotence of install: let a first installEntry run return no error and
report no skip. A second installEntry run for the same entry against the same remote (the
caches of both runs hold only what the remote answers), starting from the ledger and
filesystem the first run left, returns no error and reports no skip; every line it prints is
an update report ("updating", "updated") and there is at least one; it writes the same files
with the same contents in the same order as the first run; it leaves the ledger as the first
run left it, and GetEntry returns the same row for (objType, entry) after both runs. When the
ledger the first run started from had at most one row per key, that row is the only row for
(objType, entry) after both runs. -/
theorem install_twice (R : Remote) (objType entry : String) (s t : State)
    (hcs : CacheAgrees R s.cache) (hct : CacheAgrees R t.cache)
    (hfirst : (installEntry R objType entry s).1 = none)
    (hnoskip : ∀ ev ∈ newEvents s (installEntry R objType entry s).2, ev.isSkip = false)
    (hman : t.manifest = (installEntry R objType entry s).2.manifest)
    (hfs : t.fs = (installEntry R objType entry s).2.fs) :
    (installEntry R objType entry t).1 = none ∧
    (∀ ev ∈ newEvents t (installEntry R objType entry t).2,
      ev.isSkip = false ∧ (ev.isReport = true → ev.isUpdateReport = true)) ∧
    (∃ ev ∈ newEvents t (installEntry R objType entry t).2, ev.isUpdateReport = true) ∧
    (newEvents t (installEntry R objType entry t).2).filter Event.isWrite =
      (newEvents s (installEntry R objType entry s).2).filter Event.isWrite ∧
    (installEntry R objType entry t).2.manifest = (installEntry R objType entry s).2.manifest ∧
    ∃ row, (installEntry R objType entry s).2.manifest.GetEntry objType entry = some row ∧
      (installEntry R objType entry t).2.manifest.GetEntry objType entry = some row ∧
      (s.manifest.UniqueKeys →
        (installEntry R objType entry s).2.manifest.Entries.filter
            (fun r => r.hasKey objType entry) = [row] ∧
          (installEntry R objType entry t).2.manifest.Entries.filter
            (fun r => r.hasKey objType entry) = [row]) := by
  rcases h : installEntry R objType entry s with ⟨res, a'⟩
  rw [h] at hfirst hnoskip hman hfs
  simp only at hfirst hnoskip hman hfs
  subst hfirst
  obtain ⟨new1, hlog, -⟩ := installEntry_runs h
  rw [newEvents_eq hlog] at hnoskip ⊢
  obtain ⟨hres, hm2, new2, hlog2, hwr, hrep, hex⟩ :=
    installEntry_replay t h hlog hnoskip hman (FS.keepsKinds_of_eq hfs) hcs hct
  obtain ⟨isDir, files, hrec⟩ := installEntry_records h hlog hnoskip
  rw [newEvents_eq hlog2]
  have hget : a'.manifest.GetEntry objType entry = some ⟨objType, entry, isDir, files⟩ := by
    rw [hrec]
    exact addOrUpdateRows_find ⟨objType, entry, isDir, files⟩ s.manifest.Entries
  refine ⟨hres, hrep, hex, hwr, hm2.trans hman, ⟨objType, entry, isDir, files⟩, hget, ?_, ?_⟩
  · rw [hm2, hman]
    exact hget
  · intro hunique
    have hrow : a'.manifest.Entries.filter (fun r => r.hasKey objType entry) =
        [⟨objType, entry, isDir, files⟩] := by
      rw [hrec]
      exact addOrUpdateRows_filter_key ⟨objType, entry, isDir, files⟩ s.manifest.Entries hunique
    refine ⟨hrow, ?_⟩
    rw [hm2, hman]
    exact hrow

theorem cacheAgrees_nil (R : Remote) : CacheAgrees R [] := by
  intro path r h
  simp at h

/-- Witness for C4: `rules/common` from the sample remote, installed on a fresh project and
installed again in a new run. -/
theorem install_twice_witness :
    (installEntry remoteSample "rules" "common" freshState).1 = none ∧
    (installEntry remoteSample "rules" "common" secondRunState).1 = none ∧
    (installEntry remoteSample "rules" "common" secondRunState).2.manifest =
      (installEntry remoteSample "rules" "common" freshState).2.manifest ∧
    (installEntry remoteSample "rules" "common" secondRunState).2.manifest.Entries =
      [⟨"rules", "common", true, ["rules/common/style.mdc"]⟩] :=
  have h := install_twice remoteSample "rules" "common" freshState secondRunState
    (cacheAgrees_nil _) (cacheAgrees_nil _) (by decide) (by decide) rfl rfl
  ⟨by decide, h.1, h.2.2.2.2.1, by decide⟩

/-- C4 as stated fails on a ledger with two rows for (rules, common): the first run updates
the entry without a skip and without an error, the second run, from the ledger and filesystem
the first left, succeeds as well, and the ledger has two rows for the entry after it. -/
theorem install_twice_two_rows :
    (installEntry remoteSample "rules" "common" twoCommonRowsState).1 = none ∧
    (∀ ev ∈ (installEntry remoteSample "rules" "common" twoCommonRowsState).2.log,
      ev.isSkip = false) ∧
    (installEntry remoteSample "rules" "common" twoCommonRowsAgain).1 = none ∧
    (installEntry remoteSample "rules" "common" twoCommonRowsAgain).2.manifest.Entries =
      [⟨"rules", "common", true, ["rules/common/style.mdc"]⟩,
        ⟨"rules", "common", true, ["rules/common/old.mdc"]⟩] ∧
    ((installEntry remoteSample "rules" "common" twoCommonRowsAgain).2.manifest.Entries.filter
      (fun r => r.hasKey "rules" "common")).length = 2 := by
  refine ⟨by decide, by decide, by decide, by decide, by decide⟩

/-! ## RemoveEntry -/

/-- The RemoveEntry loop changes nothing when no row has the key. -/
theorem removeFirstRow_of_not_mem (t n : String) (rows : List Entry)
    (h : ∀ r ∈ rows, r.hasKey t n = false) : removeFirstRow t n rows = rows := by
  induction rows with
  | nil => rfl
  | cons a rest ih =>
    have ha := h a (List.mem_cons_self _ _)
    simp [removeFirstRow, ha, ih (fun r hr => h r (List.mem_cons_of_mem _ hr))]

/-- Shape of the rows after the RemoveEntry loop when some row has the key. -/
theorem removeFirstRow_of_mem (t n : String) (rows : List Entry)
    (h : ∃ r ∈ rows, r.hasKey t n = true) :
    ∃ pre r post, rows = pre ++ r :: post ∧ (∀ x ∈ pre, x.hasKey t n = false) ∧
      r.hasKey t n = true ∧ removeFirstRow t n rows = pre ++ post := by
  induction rows with
  | nil => simp at h
  | cons a rest ih =>
    by_cases ha : a.hasKey t n = true
    · exact ⟨[], a, rest, rfl, by simp, ha, by simp [removeFirstRow, ha]⟩
    · have hrest : ∃ r ∈ rest, r.hasKey t n = true := by
        obtain ⟨r, hr, hk⟩ := h
        rcases List.mem_cons.mp hr with rfl | hr
        · exact absurd hk ha
        · exact ⟨r, hr, hk⟩
      obtain ⟨pre, r, post, h1, h2, h3, h4⟩ := ih hrest
      refine ⟨a :: pre, r, post, by simp [h1], ?_, h3, by simp [removeFirstRow, ha, h4]⟩
      intro x hx
      rcases List.mem_cons.mp hx with rfl | hx
      · simpa using ha
      · exact h2 x hx

/-- Rows with another key pass through the RemoveEntry loop. -/
theorem removeFirstRow_filter (t n : String) (rows : List Entry) :
    (removeFirstRow t n rows).filter (fun r => !r.hasKey t n) =
      rows.filter (fun r => !r.hasKey t n) := by
  induction rows with
  | nil => rfl
  | cons a rest ih =>
    by_cases ha : a.hasKey t n = true
    · simp [removeFirstRow, ha]
    · simp [removeFirstRow, ha, ih]

/-- The rows with the key that are left are those after the first. -/
theorem removeFirstRow_filter_key (t n : String) (rows : List Entry) :
    (removeFirstRow t n rows).filter (fun r => r.hasKey t n) =
      (rows.filter (fun r => r.hasKey t n)).tail := by
  induction rows with
  | nil => rfl
  | cons a rest ih =>
    by_cases ha : a.hasKey t n = true
    · simp [removeFirstRow, ha]
    · simp [removeFirstRow, ha, ih]

/-- With one row per key, the RemoveEntry loop is the filter that drops the key. -/
theorem removeFirstRow_eq_filter (t n : String) (rows : List Entry)
    (h : (rows.map Entry.key).Nodup) :
    removeFirstRow t n rows = rows.filter (fun r => !r.hasKey t n) := by
  induction rows with
  | nil => rfl
  | cons a rest ih =>
    rw [List.map_cons, List.nodup_cons] at h
    by_cases ha : a.hasKey t n = true
    · have hk : a.key = (t, n) := (hasKey_iff a t n).mp ha
      have hrest : ∀ r ∈ rest, (!r.hasKey t n) = true := by
        intro r hr
        have : r.key ≠ (t, n) := fun hr' => h.1 (hk ▸ hr' ▸ List.mem_map_of_mem _ hr)
        simp [(hasKey_false_iff r t n).mpr this]
      simp [removeFirstRow, ha, List.filter_eq_self.mpr hrest]
    · simp [removeFirstRow, ha, ih h.2]

theorem isManaged_eq_false_iff_filter (m : Manifest) (t n : String) :
    m.IsManaged t n = false ↔ m.Entries.filter (fun r => r.hasKey t n) = [] := by
  simp [Manifest.IsManaged, List.filter_eq_nil_iff]

/-- C11, amended. RemoveEntry: when no row has the key the ledger is unchanged; when a row
has it, the first such row is deleted and all other rows keep their content and relative
order; the installed-collections list is unchanged; IsManaged is false for the key afterwards
exactly when the ledger had at most one row with the key, so for every ledger with at most
one row per key. -/
theorem removeEntry_spec (m : Manifest) (objType name : String) :
    (m.IsManaged objType name = false → m.RemoveEntry objType name = m) ∧
    (m.IsManaged objType name = true →
        ∃ pre r post, m.Entries = pre ++ r :: post ∧
          (∀ x ∈ pre, ¬ (x.Typ = objType ∧ x.Name = name)) ∧
          (r.Typ = objType ∧ r.Name = name) ∧
          (m.RemoveEntry objType name).Entries = pre ++ post ∧
          (m.RemoveEntry objType name).Entries = m.Entries.eraseIdx pre.length) ∧
    ((m.RemoveEntry objType name).Entries.filter (fun r => !(r.Typ == objType && r.Name == name)) =
        m.Entries.filter (fun r => !(r.Typ == objType && r.Name == name))) ∧
    (m.RemoveEntry objType name).Collections = m.Collections ∧
    ((m.RemoveEntry objType name).IsManaged objType name = false ↔
        (m.Entries.filter (fun r => r.Typ == objType && r.Name == name)).length ≤ 1) ∧
    (m.UniqueKeys → (m.RemoveEntry objType name).IsManaged objType name = false) := by
  have hiff : (m.RemoveEntry objType name).IsManaged objType name = false ↔
      (m.Entries.filter (fun r => r.hasKey objType name)).length ≤ 1 := by
    rw [isManaged_eq_false_iff_filter]
    show (removeFirstRow objType name m.Entries).filter _ = [] ↔ _
    rw [removeFirstRow_filter_key]
    cases m.Entries.filter (fun r => r.hasKey objType name) with
    | nil => simp
    | cons a rest => cases rest <;> simp
  refine ⟨?_, ?_, removeFirstRow_filter objType name m.Entries, rfl, hiff, ?_⟩
  · intro h
    have h' : ∀ r ∈ m.Entries, r.hasKey objType name = false := by
      simpa [Manifest.IsManaged] using h
    show ({ m with Entries := removeFirstRow objType name m.Entries } : Manifest) = m
    rw [removeFirstRow_of_not_mem objType name m.Entries h']
  · intro h
    have h' : ∃ r ∈ m.Entries, r.hasKey objType name = true := by
      simpa [Manifest.IsManaged] using h
    obtain ⟨pre, r, post, h1, h2, h3, h4⟩ := removeFirstRow_of_mem objType name m.Entries h'
    refine ⟨pre, r, post, h1, ?_, by simpa [Entry.hasKey] using h3, h4, ?_⟩
    · intro x hx
      have := h2 x hx
      simpa [Entry.hasKey] using this
    · show removeFirstRow objType name m.Entries = _
      rw [h4, h1, List.eraseIdx_append_of_length_le (Nat.le_refl _)]
      simp
  · intro hu
    show Manifest.IsManaged ⟨m.Collections, removeFirstRow objType name m.Entries, m.Collection⟩
      objType name = false
    rw [isManaged_false_iff]
    show (objType, name) ∉ (removeFirstRow objType name m.Entries).map Entry.key
    rw [removeFirstRow_eq_filter objType name m.Entries hu]
    simp only [List.mem_map, List.mem_filter, not_exists, not_and]
    intro r hr hk
    simp [(hasKey_iff r objType name).mpr hk] at hr

/-- The ledger of two rules and two collections: removing the managed row (commands, foo)
leaves the other row and the collections, and the pair is no longer managed. -/
theorem removeEntry_spec_witness :
    sampleLedger.IsManaged "commands" "foo" = true ∧ sampleLedger.UniqueKeys ∧
      (sampleLedger.RemoveEntry "commands" "foo").Entries =
        [⟨"rules", "common", true, ["rules/common/style.mdc"]⟩] ∧
      (sampleLedger.RemoveEntry "commands" "foo").IsManaged "commands" "foo" = false :=
  have hu : sampleLedger.UniqueKeys := by
    show ([("rules", "common"), ("commands", "foo")] : List (String × String)).Nodup
    decide
  ⟨by decide, hu, by decide, (removeEntry_spec sampleLedger "commands" "foo").2.2.2.2.2 hu⟩

/-- C11 as stated fails on a ledger with two rows for one pair: RemoveEntry deletes the first
of them and the pair is still managed afterwards. -/
theorem removeEntry_leaves_second_row :
    twoRowsLedger.IsManaged "rules" "a" = true ∧
      (twoRowsLedger.RemoveEntry "rules" "a").Entries = [⟨"rules", "a", true, ["rules/a/x.md"]⟩] ∧
      (twoRowsLedger.RemoveEntry "rules" "a").IsManaged "rules" "a" = true := by
  decide

/-! ## The installed-collections list -/

theorem hasCollection_iff (m : Manifest) (n : String) :
    m.HasCollection n = true ↔ n ∈ m.Collections := by
  simp [Manifest.HasCollection]

theorem hasCollection_false_iff (m : Manifest) (n : String) :
    m.HasCollection n = false ↔ n ∉ m.Collections := by
  rw [← hasCollection_iff]; simp

theorem removeFirstName_sublist (n : String) (cs : List String) :
    (removeFirstName n cs).Sublist cs := by
  induction cs with
  | nil => exact List.Sublist.refl _
  | cons c rest ih =>
    by_cases hc : c = n
    · simp [removeFirstName, hc]
    · simp [removeFirstName, hc, ih]

/-- Names other than the removed one are in the list after the RemoveCollection loop exactly
when they were before. -/
theorem mem_removeFirstName_of_ne {n k : String} (h : k ≠ n) (cs : List String) :
    k ∈ removeFirstName n cs ↔ k ∈ cs := by
  induction cs with
  | nil => rfl
  | cons c rest ih =>
    by_cases hc : c = n
    · subst hc
      simp [removeFirstName, h]
    · simp [removeFirstName, hc, ih]

/-- In a list without duplicates the removed name is gone after the RemoveCollection loop. -/
theorem not_mem_removeFirstName (n : String) (cs : List String) (h : cs.Nodup) :
    n ∉ removeFirstName n cs := by
  induction cs with
  | nil => simp [removeFirstName]
  | cons c rest ih =>
    rw [List.nodup_cons] at h
    by_cases hc : c = n
    · subst hc
      simpa [removeFirstName] using h.1
    · simp [removeFirstName, hc, ih h.2, Ne.symm hc]

theorem removeFirstName_eq_erase (n : String) (cs : List String) :
    removeFirstName n cs = cs.erase n := by
  induction cs with
  | nil => rfl
  | cons c rest ih =>
    by_cases hc : c = n
    · subst hc
      simp [removeFirstName]
    · simp [removeFirstName, hc, ih, List.erase_cons_tail]

/-- The removed name is gone after the RemoveCollection loop exactly when the list held it at
most once. -/
theorem not_mem_removeFirstName_iff (n : String) (cs : List String) :
    n ∉ removeFirstName n cs ↔ cs.count n ≤ 1 := by
  rw [removeFirstName_eq_erase, ← List.count_eq_zero, List.count_erase_self]
  omega

/-- C12 (amended). The installed-collections list stays distinct: a list without duplicate
names has none after AddCollection or RemoveCollection; AddCollection makes HasCollection
true for the name and a second call changes nothing; RemoveCollection removes the first
occurrence of the name, so it makes HasCollection false for the name exactly when the list
held the name at most once, in particular on a list without duplicates; neither changes
HasCollection for another name, nor the entry rows. -/
theorem collections_stay_distinct (m : Manifest) (n : String) :
    (m.Collections.Nodup →
        (m.AddCollection n).Collections.Nodup ∧ (m.RemoveCollection n).Collections.Nodup) ∧
    (m.AddCollection n).HasCollection n = true ∧
    (m.AddCollection n).AddCollection n = m.AddCollection n ∧
    (m.Collections.Nodup → (m.RemoveCollection n).HasCollection n = false) ∧
    (∀ k, k ≠ n →
        (m.AddCollection n).HasCollection k = m.HasCollection k ∧
          (m.RemoveCollection n).HasCollection k = m.HasCollection k) ∧
    (m.AddCollection n).Entries = m.Entries ∧ (m.RemoveCollection n).Entries = m.Entries ∧
    (m.RemoveCollection n).Collections = m.Collections.erase n ∧
    ((m.RemoveCollection n).HasCollection n = false ↔ m.Collections.count n ≤ 1) := by
  have hadd : (m.AddCollection n).HasCollection n = true := by
    unfold Manifest.AddCollection
    cases h : m.HasCollection n
    · simp [Manifest.HasCollection]
    · simpa using h
  refine ⟨?_, hadd, ?_, ?_, ?_, ?_, rfl, removeFirstName_eq_erase n m.Collections,
    (hasCollection_false_iff _ n).trans (not_mem_removeFirstName_iff n m.Collections)⟩
  · intro hd
    refine ⟨?_, List.Nodup.sublist (removeFirstName_sublist n m.Collections) hd⟩
    unfold Manifest.AddCollection
    cases h : m.HasCollection n
    · have hn : n ∉ m.Collections := (hasCollection_false_iff m n).mp h
      simpa using List.Nodup.append hd (List.nodup_singleton n) (by simpa using hn)
    · simpa using hd
  · generalize hm : m.AddCollection n = m' at hadd ⊢
    simp [Manifest.AddCollection, hadd]
  · intro hd
    rw [hasCollection_false_iff]
    exact not_mem_removeFirstName n m.Collections hd
  · intro k hk
    constructor
    · unfold Manifest.AddCollection
      cases h : m.HasCollection n
      · simp [Manifest.HasCollection, Ne.symm hk]
      · simp
    · have := mem_removeFirstName_of_ne hk m.Collections
      rw [Bool.eq_iff_iff, hasCollection_iff, hasCollection_iff]
      exact this
  · unfold Manifest.AddCollection
    split <;> rfl

/-- The ledger with the collections base and extra: adding a third name and removing one of
the two keep the list distinct, and removing `base` leaves it not installed. -/
theorem collections_stay_distinct_witness :
    sampleLedger.Collections.Nodup ∧
      (sampleLedger.AddCollection "more").Collections = ["base", "extra", "more"] ∧
      (sampleLedger.RemoveCollection "base").Collections = ["extra"] ∧
      (sampleLedger.AddCollection "base").Collections.Nodup ∧
      (sampleLedger.RemoveCollection "base").HasCollection "base" = false :=
  have hd : sampleLedger.Collections.Nodup := by
    show (["base", "extra"] : List String).Nodup
    decide
  have h := collections_stay_distinct sampleLedger "base"
  ⟨hd, by decide, by decide, (h.1 hd).1, h.2.2.2.1 hd⟩

/-- C12 as stated fails on an installed list that names `base` twice: RemoveCollection
removes the first occurrence and `base` is still installed. -/
theorem removeCollection_leaves_second_name :
    (Manifest.RemoveCollection ⟨["base", "extra", "base"], [], ""⟩ "base").Collections =
      ["extra", "base"] ∧
    (Manifest.RemoveCollection ⟨["base", "extra", "base"], [], ""⟩ "base").HasCollection "base" =
      true := by
  decide

/-! ## Probe errors -/

/-- A call of ListContents that returns an error found nothing in the cache, sent its request
and left everything else as it was. -/
theorem ListContents_error {R : Remote} {path : String} {s : State} {err : Error}
    (h : (ListContents R path s).1 = .error err) :
    s.cache.lookup path = none ∧ ListContents R path s = (.error err, s.emit (.httpContents path)) := by
  unfold ListContents at h ⊢
  cases hc : s.cache.lookup path with
  | some cached => simp [hc] at h
  | none =>
    simp only [hc] at h ⊢
    cases hf : fetchContents R path with
    | error e =>
      simp only [hf] at h ⊢
      cases h
      exact ⟨trivial, rfl⟩
    | ok r => simp [hf] at h

/-- Everything installFileByName does comes after its listing of the parent directory. -/
theorem installFileByName_runs_after_listing (R : Remote) (objType entry : String) (s : State) :
    Runs (ListContents R objType s).2 (installFileByName R objType entry s).2 := by
  rcases h : installFileByName R objType entry s with ⟨res, s'⟩
  unfold installFileByName at h
  split at h
  · rename_i hl
    simp only [Prod.mk.injEq] at h
    rw [hl]
    exact h.2 ▸ Runs.refl _
  · rename_i hl
    rw [hl]
    dsimp only at h ⊢
    split at h
    · simp only [Prod.mk.injEq] at h
      exact h.2 ▸ Runs.refl _
    · rename_i hm
      have h1 := Runs.mkdirAll hm
      split at h
      · rename_i hloop
        simp only [Prod.mk.injEq] at h
        exact h.2 ▸ h1.trans (installFileByNameLoop_runs hloop)
      · rename_i hloop
        have h2 := h1.trans (installFileByNameLoop_runs hloop)
        split at h
        · simp only [Prod.mk.injEq] at h
          exact h.2 ▸ h2
        · simp only [Prod.mk.injEq] at h
          exact h.2 ▸ h2.trans (Runs.of_eq rfl rfl rfl)

/-- What installEntry does after a probe error of any kind: it continues as
installFileByName after the probe request. Unless the listing of objType is cached, the next
thing it does is request that listing. When that listing fails as well, it returns the error
of the parent listing, and apart from the two requests nothing has happened. -/
theorem installEntry_of_probe_error (R : Remote) (objType entry : String) (s : State)
    (err : Error) (h : (ListContents R (objType ++ "/" ++ entry) s).1 = .error err) :
    installEntry R objType entry s =
      installFileByName R objType entry (s.emit (.httpContents (objType ++ "/" ++ entry))) ∧
    (s.cache.lookup objType = none →
      ∃ rest, (installEntry R objType entry s).2.log =
        s.log ++ [.httpContents (objType ++ "/" ++ entry), .httpContents objType] ++ rest) ∧
    (∀ err', (ListContents R objType
          (s.emit (.httpContents (objType ++ "/" ++ entry)))).1 = .error err' →
      installEntry R objType entry s =
        (some (.listParent objType err'),
          (s.emit (.httpContents (objType ++ "/" ++ entry))).emit (.httpContents objType))) := by
  have hp := (ListContents_error h).2
  have h1 : installEntry R objType entry s =
      installFileByName R objType entry (s.emit (.httpContents (objType ++ "/" ++ entry))) := by
    unfold installEntry
    simp only [hp]
  refine ⟨h1, ?_, ?_⟩
  · intro hc
    rw [h1]
    obtain ⟨new, hlog, -⟩ := installFileByName_runs_after_listing R objType entry
      (s.emit (.httpContents (objType ++ "/" ++ entry)))
    refine ⟨new, ?_⟩
    rw [hlog]
    have hl : (ListContents R objType (s.emit (.httpContents (objType ++ "/" ++ entry)))).2.log =
        s.log ++ [.httpContents (objType ++ "/" ++ entry)] ++ [.httpContents objType] := by
      unfold ListContents
      have hc' : (s.emit (.httpContents (objType ++ "/" ++ entry))).cache.lookup objType = none :=
        hc
      simp only [hc']
      split <;> rfl
    rw [hl]
    simp
  · intro err' h'
    rw [h1]
    have hq := (ListContents_error h').2
    unfold installFileByName
    simp only [hq]

/-- C14. installEntry does not abort on a probe error other than not-found: the branch
`if err != nil` that its comment introduces with "If not found as a direct path" is taken for
every error of ListContents. For every remote, entry and state, a probe that fails with the
rate-limit error or with a transport error is followed by a request for the listing of the
parent directory, unless that listing is cached. On the remote that throttles every request
the parent `commands` is requested after the rate-limited probe of `commands/foo`. On the
remote where only the probe fails, in transport, installEntry lists the parent, downloads and
writes `foo.md`, records the entry and returns no error. -/
theorem probe_error_lists_parent :
    (∀ (R : Remote) (objType entry : String) (s : State) (err : Error),
      err = .rateLimit ∨ err = .listTransport (objType ++ "/" ++ entry) →
      (ListContents R (objType ++ "/" ++ entry) s).1 = .error err →
      s.cache.lookup objType = none →
      ∃ rest, (installEntry R objType entry s).2.log =
        s.log ++ [.httpContents (objType ++ "/" ++ entry), .httpContents objType] ++ rest) ∧
    ((ListContents remoteThrottled ("commands" ++ "/" ++ "foo") freshState).1 =
        .error .rateLimit ∧
      (installEntry remoteThrottled "commands" "foo" freshState).1 =
        some (.listParent "commands" .rateLimit) ∧
      (installEntry remoteThrottled "commands" "foo" freshState).2.log =
        [.httpContents "commands/foo", .httpContents "commands"]) ∧
    ((ListContents remoteProbeFails ("commands" ++ "/" ++ "foo") freshState).1 =
        .error (.listTransport "commands/foo") ∧
      (installEntry remoteProbeFails "commands" "foo" freshState).1 = none ∧
      (installEntry remoteProbeFails "commands" "foo" freshState).2.log =
        [.httpContents "commands/foo", .httpContents "commands", .httpRaw "commands/foo.md",
          .wrote [".cursor", "commands", "foo.md"] "theirs",
          .printed (.fileAction "installed" ".cursor/commands/foo.md")] ∧
      freshState.fs [".cursor", "commands", "foo.md"] = none ∧
      (installEntry remoteProbeFails "commands" "foo" freshState).2.fs
        [".cursor", "commands", "foo.md"] = some (.file "theirs") ∧
      freshState.manifest.Entries = [] ∧
      (installEntry remoteProbeFails "commands" "foo" freshState).2.manifest.Entries =
        [⟨"commands", "foo", false, ["commands/foo.md"]⟩]) := by
  refine ⟨?_, ⟨rfl, by decide, by decide⟩,
    ⟨rfl, by decide, by decide, by decide, by decide, by decide, by decide⟩⟩
  intro R objType entry s err _ h hc
  exact (installEntry_of_probe_error R objType entry s err h).2.1 hc

/-! ## The uninstall path -/

theorem FS.shrinks_refl (fs : FS) : FS.Shrinks fs fs := fun _ => Or.inl rfl

theorem FS.shrinks_trans {a b c : FS} (h1 : FS.Shrinks a b) (h2 : FS.Shrinks b c) :
    FS.Shrinks a c := by
  intro q
  rcases h2 q with h | h
  · rw [h]; exact h1 q
  · exact Or.inr h

theorem FS.unset_shrinks (fs : FS) (p : Path) : FS.Shrinks fs (fs.unset p) := by
  intro q
  unfold FS.unset
  split
  · exact Or.inr rfl
  · exact Or.inl rfl

/-- A path without a file has none after paths are emptied. -/
theorem FS.Shrinks.fileAt_none {fs fs' : FS} (h : FS.Shrinks fs fs') {p : Path}
    (hp : fs.fileAt p = none) : fs'.fileAt p = none := by
  rcases h p with h | h
  · simpa [FS.fileAt, h] using hp
  · simp [FS.fileAt, h]

theorem removeFile_shrinks (fs : FS) (p : Path) : FS.Shrinks fs (removeFile fs p) := by
  unfold removeFile
  split
  · exact FS.unset_shrinks fs p
  · exact FS.shrinks_refl fs

theorem removeFile_fileAt_self (fs : FS) (p : Path) : (removeFile fs p).fileAt p = none := by
  unfold removeFile
  split
  · simp [FS.fileAt, FS.unset]
  · rename_i h
    unfold FS.fileAt
    split
    · rename_i data hd
      exact absurd hd (h data)
    · rfl

theorem removeFile_ne (fs : FS) {p q : Path} (h : q ≠ p) : (removeFile fs p) q = fs q := by
  unfold removeFile
  cases fs p with
  | none => rfl
  | some n =>
    cases n with
    | dir => rfl
    | file data => simp [FS.unset, h]

theorem removeDirIfEmpty_shrinks (names : Path → List String) (fs : FS) (dir : Path) :
    FS.Shrinks fs (removeDirIfEmpty names fs dir) := by
  unfold removeDirIfEmpty
  split
  · exact FS.unset_shrinks fs dir
  · exact FS.shrinks_refl fs

/-- Removing a directory changes the content of no file. -/
theorem removeDirIfEmpty_fileAt (names : Path → List String) (fs : FS) (dir q : Path) :
    (removeDirIfEmpty names fs dir).fileAt q = fs.fileAt q := by
  unfold removeDirIfEmpty
  split
  · rename_i h
    by_cases hq : q = dir
    · subst hq
      simp [FS.fileAt, FS.unset, h.1]
    · simp [FS.fileAt, FS.unset, hq]
  · rfl

theorem foldl_removeFile_shrinks (files : List String) (fs : FS) :
    FS.Shrinks fs (files.foldl (fun fs f => removeFile fs (recordedPath f)) fs) := by
  induction files generalizing fs with
  | nil => exact FS.shrinks_refl fs
  | cons f rest ih => exact FS.shrinks_trans (removeFile_shrinks fs _) (ih _)

theorem foldl_removeFile_ne (files : List String) (fs : FS) (q : Path)
    (h : ∀ f ∈ files, recordedPath f ≠ q) :
    (files.foldl (fun fs f => removeFile fs (recordedPath f)) fs) q = fs q := by
  induction files generalizing fs with
  | nil => rfl
  | cons f rest ih =>
    rw [List.foldl_cons, ih _ (fun g hg => h g (List.mem_cons_of_mem _ hg))]
    exact removeFile_ne fs (Ne.symm (h f (List.mem_cons_self _ _)))

theorem foldl_removeFile_mem (files : List String) (fs : FS) (f : String) (h : f ∈ files) :
    (files.foldl (fun fs f => removeFile fs (recordedPath f)) fs).fileAt (recordedPath f) =
      none := by
  induction files generalizing fs with
  | nil => simp at h
  | cons g rest ih =>
    rw [List.foldl_cons]
    rcases List.mem_cons.mp h with rfl | h
    · exact (foldl_removeFile_shrinks rest _).fileAt_none (removeFile_fileAt_self fs _)
    · exact ih _ h

/-- The sharing test reads only the installed-collections list of the ledger. -/
theorem isShared_congr {m m' : Manifest} (h : m'.Collections = m.Collections)
    (all : CollectionMap) (name objType entry : String) :
    isShared m' all name objType entry = isShared m all name objType entry := by
  unfold isShared
  rw [h]

theorem getEntry_eq_none_iff (m : Manifest) (t e : String) :
    m.GetEntry t e = none ↔ ∀ r ∈ m.Entries, r.hasKey t e = false := by
  simp [Manifest.GetEntry, List.find?_eq_none]

theorem getEntry_some {m : Manifest} {t e : String} {row : Entry}
    (h : m.GetEntry t e = some row) : row ∈ m.Entries ∧ row.hasKey t e = true := by
  unfold Manifest.GetEntry at h
  exact ⟨List.mem_of_find?_eq_some h, List.find?_some (p := fun r : Entry => r.hasKey t e) h⟩

theorem uninstallEntry_collections (names : Path → List String) (all : CollectionMap)
    (name t e : String) (s : State) :
    (uninstallEntry names all name t e s).manifest.Collections = s.manifest.Collections := by
  unfold uninstallEntry
  split
  · rfl
  · split <;> rfl

theorem uninstallEntry_shrinks (names : Path → List String) (all : CollectionMap)
    (name t e : String) (s : State) :
    FS.Shrinks s.fs (uninstallEntry names all name t e s).fs := by
  unfold uninstallEntry
  split
  · exact FS.shrinks_refl _
  · split
    · exact FS.shrinks_refl _
    · dsimp only
      split
      · exact FS.shrinks_trans (foldl_removeFile_shrinks _ _) (removeDirIfEmpty_shrinks _ _ _)
      · exact foldl_removeFile_shrinks _ _

/-- The rows after one entry is processed: with one row per key, the row of the pair is
dropped when no other installed collection references it, and nothing else changes. -/
theorem uninstallEntry_entries (names : Path → List String) (all : CollectionMap)
    (name t e : String) (s : State) (hu : s.manifest.UniqueKeys) :
    (uninstallEntry names all name t e s).manifest.Entries =
      s.manifest.Entries.filter
        (fun row => !(row.hasKey t e && !isShared s.manifest all name t e)) := by
  unfold uninstallEntry
  split
  · rename_i hg
    rw [getEntry_eq_none_iff] at hg
    symm
    rw [List.filter_eq_self]
    intro r hr
    simp [hg r hr]
  · split
    · rename_i hs
      show s.manifest.Entries = _
      symm
      rw [List.filter_eq_self]
      intro r _
      simp [hs]
    · rename_i hs
      show removeFirstRow t e s.manifest.Entries = _
      rw [removeFirstRow_eq_filter t e s.manifest.Entries hu]
      simp [hs]

theorem uninstallEntry_uniqueKeys (names : Path → List String) (all : CollectionMap)
    (name t e : String) (s : State) (hu : s.manifest.UniqueKeys) :
    (uninstallEntry names all name t e s).manifest.UniqueKeys := by
  unfold Manifest.UniqueKeys
  rw [uninstallEntry_entries names all name t e s hu]
  exact List.Nodup.sublist (List.Sublist.map _ (List.filter_sublist _)) hu

/-- The rows after one entry is processed are among the rows before. -/
theorem uninstallEntry_sublist (names : Path → List String) (all : CollectionMap)
    (name t e : String) (s : State) :
    (uninstallEntry names all name t e s).manifest.Entries.Sublist s.manifest.Entries := by
  unfold uninstallEntry
  split
  · exact List.Sublist.refl _
  · split
    · exact List.Sublist.refl _
    · exact removeFirstRow_sublist t e s.manifest.Entries

/-- Processing one entry changes the content of no file that the removed row does not
record. -/
theorem uninstallEntry_fileAt_frame (names : Path → List String) (all : CollectionMap)
    (name t e : String) (s : State) (q : Path)
    (h : ∀ row ∈ s.manifest.Entries, row.hasKey t e = true →
      isShared s.manifest all name t e = false → ∀ f ∈ row.Files, recordedPath f ≠ q) :
    (uninstallEntry names all name t e s).fs.fileAt q = s.fs.fileAt q := by
  unfold uninstallEntry
  split
  · rfl
  · rename_i row hg
    obtain ⟨hmem, hk⟩ := getEntry_some hg
    split
    · rfl
    · rename_i hs
      have hq := foldl_removeFile_ne row.Files s.fs q (h row hmem hk (by simpa using hs))
      dsimp only
      split
      · rw [removeDirIfEmpty_fileAt]
        simp [FS.fileAt, hq]
      · simp [FS.fileAt, hq]

/-- Processing an entry that no other installed collection references leaves no file at the
paths its row records. -/
theorem uninstallEntry_fileAt_removed (names : Path → List String) (all : CollectionMap)
    (name t e : String) (s : State) (row : Entry) (hg : s.manifest.GetEntry t e = some row)
    (hs : isShared s.manifest all name t e = false) (f : String) (hf : f ∈ row.Files) :
    (uninstallEntry names all name t e s).fs.fileAt (recordedPath f) = none := by
  unfold uninstallEntry
  simp only [hg, hs, Bool.false_eq_true, ↓reduceIte]
  split
  · rw [removeDirIfEmpty_fileAt]
    exact foldl_removeFile_mem row.Files s.fs f hf
  · exact foldl_removeFile_mem row.Files s.fs f hf

theorem uninstallPairs_collections (names : Path → List String) (all : CollectionMap)
    (name : String) (pairs : List (String × String)) (s : State) :
    (uninstallPairs names all name pairs s).manifest.Collections = s.manifest.Collections := by
  induction pairs generalizing s with
  | nil => rfl
  | cons p rest ih =>
    obtain ⟨t, e⟩ := p
    unfold uninstallPairs
    rw [ih, uninstallEntry_collections]

theorem uninstallPairs_shrinks (names : Path → List String) (all : CollectionMap)
    (name : String) (pairs : List (String × String)) (s : State) :
    FS.Shrinks s.fs (uninstallPairs names all name pairs s).fs := by
  induction pairs generalizing s with
  | nil => exact FS.shrinks_refl _
  | cons p rest ih =>
    obtain ⟨t, e⟩ := p
    unfold uninstallPairs
    exact FS.shrinks_trans (uninstallEntry_shrinks names all name t e s) (ih _)

/-- The rows after the loop: with one row per key, exactly the rows of the listed pairs that
no other installed collection references are dropped. -/
theorem uninstallPairs_entries (names : Path → List String) (all : CollectionMap)
    (name : String) (pairs : List (String × String)) (s : State) (hu : s.manifest.UniqueKeys) :
    (uninstallPairs names all name pairs s).manifest.Entries =
      s.manifest.Entries.filter (fun row => !removedRow s.manifest all name pairs row) := by
  induction pairs generalizing s with
  | nil =>
    unfold uninstallPairs
    symm
    rw [List.filter_eq_self]
    intro r _
    simp [removedRow]
  | cons p rest ih =>
    obtain ⟨t, e⟩ := p
    unfold uninstallPairs
    rw [ih _ (uninstallEntry_uniqueKeys names all name t e s hu),
      uninstallEntry_entries names all name t e s hu, List.filter_filter]
    apply List.filter_congr
    intro row _
    have hc := uninstallEntry_collections names all name t e s
    unfold removedRow
    rw [isShared_congr hc]
    by_cases hk : row.hasKey t e = true
    · have hkey : row.key = (t, e) := (hasKey_iff row t e).mp hk
      have ht : row.Typ = t := congrArg Prod.fst hkey
      have he : row.Name = e := congrArg Prod.snd hkey
      simp [hk, hkey, ht, he]
      exact fun h => Or.inr h
    · have hkey : row.key ≠ (t, e) := fun h => hk ((hasKey_iff row t e).mpr h)
      have hkey' : ¬ ((t, e) = row.key) := fun h => hkey h.symm
      simp [hk, hkey, hkey', List.contains_cons]

/-- The loop changes the content of no file that none of the removed rows records. -/
theorem uninstallPairs_fileAt_frame (names : Path → List String) (all : CollectionMap)
    (name : String) (pairs : List (String × String)) (s : State) (q : Path)
    (h : ∀ row ∈ s.manifest.Entries, removedRow s.manifest all name pairs row = true →
      ∀ f ∈ row.Files, recordedPath f ≠ q) :
    (uninstallPairs names all name pairs s).fs.fileAt q = s.fs.fileAt q := by
  induction pairs generalizing s with
  | nil => rfl
  | cons p rest ih =>
    obtain ⟨t, e⟩ := p
    unfold uninstallPairs
    have hc := uninstallEntry_collections names all name t e s
    rw [ih]
    · apply uninstallEntry_fileAt_frame
      intro row hrow hk hs f hf
      have hkey : row.key = (t, e) := (hasKey_iff row t e).mp hk
      have ht : row.Typ = t := congrArg Prod.fst hkey
      have he : row.Name = e := congrArg Prod.snd hkey
      exact h row hrow (by simp [removedRow, hkey, ht, he, hs]) f hf
    · intro row hrow hr f hf
      refine h row ((uninstallEntry_sublist names all name t e s).subset hrow) ?_ f hf
      unfold removedRow at hr ⊢
      rw [isShared_congr hc] at hr
      simp only [Bool.and_eq_true, List.contains_cons, Bool.or_eq_true] at hr ⊢
      exact ⟨Or.inr hr.1, hr.2⟩

/-- GetEntry for one pair is not affected by processing another pair. -/
theorem uninstallEntry_getEntry_ne (names : Path → List String) (all : CollectionMap)
    (name t e t' e' : String) (s : State) (h : (t', e') ≠ (t, e)) :
    (uninstallEntry names all name t e s).manifest.GetEntry t' e' = s.manifest.GetEntry t' e' := by
  unfold uninstallEntry
  split
  · rfl
  · split
    · rfl
    · show (removeFirstRow t e s.manifest.Entries).find? _ = s.manifest.Entries.find? _
      generalize s.manifest.Entries = rows
      induction rows with
      | nil => rfl
      | cons a rest ih =>
        by_cases ha : a.hasKey t e = true
        · have hk : a.key = (t, e) := (hasKey_iff a t e).mp ha
          have ha' : a.hasKey t' e' = false :=
            (hasKey_false_iff a t' e').mpr (fun hk' => h (hk'.symm.trans hk))
          simp [removeFirstRow, ha, ha']
        · simp only [removeFirstRow, ha, Bool.false_eq_true, ↓reduceIte, List.find?_cons]
          rw [ih]

/-- After the loop there is no file at a path recorded by the row of a listed pair that no
other installed collection references. -/
theorem uninstallPairs_fileAt_removed (names : Path → List String) (all : CollectionMap)
    (name : String) (pairs : List (String × String)) (s : State) (t e : String)
    (hmem : (t, e) ∈ pairs) (row : Entry) (hg : s.manifest.GetEntry t e = some row)
    (hs : isShared s.manifest all name t e = false) (f : String) (hf : f ∈ row.Files) :
    (uninstallPairs names all name pairs s).fs.fileAt (recordedPath f) = none := by
  induction pairs generalizing s with
  | nil => simp at hmem
  | cons p rest ih =>
    obtain ⟨t0, e0⟩ := p
    unfold uninstallPairs
    by_cases hp : (t, e) = (t0, e0)
    · cases hp
      exact (uninstallPairs_shrinks names all name rest _).fileAt_none
        (uninstallEntry_fileAt_removed names all name t e s row hg hs f hf)
    · have hrest : (t, e) ∈ rest := by
        rcases List.mem_cons.mp hmem with h | h
        · exact absurd h hp
        · exact h
      apply ih _ hrest
      · rw [uninstallEntry_getEntry_ne names all name t0 e0 t e s hp]
        exact hg
      · rw [isShared_congr (uninstallEntry_collections names all name t0 e0 s)]
        exact hs

/-- Save changes the content of no file but the ledger file. -/
theorem Save_fileAt (marshal : Manifest → String) (m : Manifest) (fs : FS) (q : Path)
    (hq : q ≠ manifestPath) : (m.Save marshal fs).2.fileAt q = fs.fileAt q := by
  unfold Manifest.Save
  dsimp only
  split
  · rfl
  · rename_i fs1 hm
    have h1 := (MkdirAll_ok hm).1.fileAt q
    split
    · exact h1
    · rename_i fs2 hw
      rw [(WriteFile_ok hw).1]
      simp only [FS.fileAt, FS.set_ne _ _ hq]
      exact h1

theorem find?_filter_of_imp {α : Type} (p q : α → Bool) (l : List α)
    (h : ∀ x ∈ l, q x = true → p x = true) : (l.filter p).find? q = l.find? q := by
  induction l with
  | nil => rfl
  | cons a rest ih =>
    have hrest := ih (fun x hx => h x (List.mem_cons_of_mem _ hx))
    by_cases hq : q a = true
    · have hp := h a (List.mem_cons_self _ _) hq
      simp [List.filter_cons, hp, hq]
    · by_cases hp : p a = true
      · simp [List.filter_cons, hp, hq, hrest]
      · simp [List.filter_cons, hp, hq, hrest]

theorem Uninstall_manifest (names : Path → List String) (marshal : Manifest → String)
    (col : Collection) (name : String) (all : CollectionMap) (s : State) :
    (Uninstall names marshal col name all s).2.manifest =
      (uninstallPairs names all name col.pairs s).manifest.RemoveCollection name := by
  unfold Uninstall
  dsimp only
  split <;> rfl

theorem Uninstall_fs (names : Path → List String) (marshal : Manifest → String)
    (col : Collection) (name : String) (all : CollectionMap) (s : State) :
    (Uninstall names marshal col name all s).2.fs =
      (((uninstallPairs names all name col.pairs s).manifest.RemoveCollection name).Save marshal
        (uninstallPairs names all name col.pairs s).fs).2 := by
  unfold Uninstall
  dsimp only
  split
  · rename_i h
    show _ = (Manifest.Save marshal _ _).2
    rw [show ∀ (x : State) (e : Event), (x.emit e).manifest = x.manifest from fun _ _ => rfl,
      show ∀ (x : State) (e : Event), (x.emit e).fs = x.fs from fun _ _ => rfl] at h
    rw [h]
  · rename_i h
    show _ = (Manifest.Save marshal _ _).2
    rw [show ∀ (x : State) (e : Event), (x.emit e).manifest = x.manifest from fun _ _ => rfl,
      show ∀ (x : State) (e : Event), (x.emit e).fs = x.fs from fun _ _ => rfl] at h
    rw [h]

/-- A call of Save that returns no error leaves the encoded ledger in the ledger file. -/
theorem Save_ok (marshal : Manifest → String) (m : Manifest) (fs : FS)
    (h : (m.Save marshal fs).1 = none) :
    (m.Save marshal fs).2.fileAt manifestPath = some (marshal m) := by
  unfold Manifest.Save at h ⊢
  dsimp only at h ⊢
  split
  · rename_i hm
    simp [hm] at h
  · rename_i fs1 hm
    rw [hm] at h
    dsimp only at h
    split
    · rename_i hw
      simp [hw] at h
    · rename_i fs2 hw
      rw [(WriteFile_ok hw).1]
      simp [FS.fileAt, FS.set]

theorem Uninstall_result (names : Path → List String) (marshal : Manifest → String)
    (col : Collection) (name : String) (all : CollectionMap) (s : State)
    (h : (Uninstall names marshal col name all s).1 = none) :
    (((uninstallPairs names all name col.pairs s).manifest.RemoveCollection name).Save marshal
      (uninstallPairs names all name col.pairs s).fs).1 = none := by
  unfold Uninstall at h
  dsimp only at h
  rw [show ∀ (x : State) (e : Event), (x.emit e).manifest = x.manifest from fun _ _ => rfl,
    show ∀ (x : State) (e : Event), (x.emit e).fs = x.fs from fun _ _ => rfl] at h
  split at h
  · cases h
  · rename_i hsave
    rw [hsave]

/-- C13, amended. Shared-entry retention on uninstall, for a ledger with at most one row per
pair and no duplicate name in its installed list. Uninstalling collection `name` drops
exactly the rows of the pairs of the collection that no other installed collection lists. A
managed pair of the collection that another installed collection lists keeps its row, and
each file its row records keeps its content unless a dropped row records the same path or the
path is the ledger file. A managed pair that no other installed collection lists is no longer
managed, and no file is left at the paths its row records, the ledger file apart. Afterwards
`name` is not in the installed list, and the other names are in it as before; when Uninstall
returns no error the ledger file holds this ledger. -/
theorem uninstall_shared_retention (names : Path → List String) (marshal : Manifest → String)
    (col : Collection) (name : String) (all : CollectionMap) (s : State)
    (hu : s.manifest.UniqueKeys) (hd : s.manifest.Collections.Nodup) :
    (Uninstall names marshal col name all s).2.manifest.Entries =
      s.manifest.Entries.filter (fun row => !removedRow s.manifest all name col.pairs row) ∧
    (∀ t e row, (t, e) ∈ col.pairs → s.manifest.GetEntry t e = some row →
      isShared s.manifest all name t e = true →
      (Uninstall names marshal col name all s).2.manifest.GetEntry t e = some row ∧
      ∀ f ∈ row.Files, recordedPath f ≠ manifestPath →
        (∀ row' ∈ s.manifest.Entries, removedRow s.manifest all name col.pairs row' = true →
          ∀ f' ∈ row'.Files, recordedPath f' ≠ recordedPath f) →
        (Uninstall names marshal col name all s).2.fs.fileAt (recordedPath f) =
          s.fs.fileAt (recordedPath f)) ∧
    (∀ t e row, (t, e) ∈ col.pairs → s.manifest.GetEntry t e = some row →
      isShared s.manifest all name t e = false →
      (Uninstall names marshal col name all s).2.manifest.IsManaged t e = false ∧
      ∀ f ∈ row.Files, recordedPath f ≠ manifestPath →
        (Uninstall names marshal col name all s).2.fs.fileAt (recordedPath f) = none) ∧
    (Uninstall names marshal col name all s).2.manifest.HasCollection name = false ∧
    (∀ k, k ≠ name →
      (Uninstall names marshal col name all s).2.manifest.HasCollection k =
        s.manifest.HasCollection k) ∧
    ((Uninstall names marshal col name all s).1 = none →
      (Uninstall names marshal col name all s).2.fs.fileAt manifestPath =
        some (marshal (Uninstall names marshal col name all s).2.manifest)) := by
  have hrows : (Uninstall names marshal col name all s).2.manifest.Entries =
      s.manifest.Entries.filter (fun row => !removedRow s.manifest all name col.pairs row) := by
    rw [Uninstall_manifest]
    exact uninstallPairs_entries names all name col.pairs s hu
  have hcols : (Uninstall names marshal col name all s).2.manifest.Collections =
      removeFirstName name s.manifest.Collections := by
    rw [Uninstall_manifest]
    show removeFirstName name _ = _
    rw [uninstallPairs_collections]
  refine ⟨hrows, ?_, ?_, ?_, ?_, ?_⟩
  · intro t e row hmem hg hs
    constructor
    · unfold Manifest.GetEntry at hg ⊢
      rw [hrows, find?_filter_of_imp, hg]
      intro x _ hx
      have hkey : x.key = (t, e) := (hasKey_iff x t e).mp hx
      have ht : x.Typ = t := congrArg Prod.fst hkey
      have he : x.Name = e := congrArg Prod.snd hkey
      simp [removedRow, ht, he, hs]
    · intro f _ hne hdis
      rw [Uninstall_fs, Save_fileAt marshal _ _ _ hne]
      exact uninstallPairs_fileAt_frame names all name col.pairs s _
        (fun row' hrow' hr f' hf' => hdis row' hrow' hr f' hf')
  · intro t e row hmem hg hs
    constructor
    · rw [isManaged_false_iff, hrows]
      simp only [List.mem_map, List.mem_filter, not_exists, not_and, and_imp]
      intro x _ hx hkey
      have ht : x.Typ = t := congrArg Prod.fst hkey
      have he : x.Name = e := congrArg Prod.snd hkey
      simp [removedRow, ht, he, hs] at hx
      exact hx (hkey ▸ hmem)
    · intro f hf hne
      rw [Uninstall_fs, Save_fileAt marshal _ _ _ hne]
      exact uninstallPairs_fileAt_removed names all name col.pairs s t e hmem row hg hs f hf
  · rw [hasCollection_false_iff, hcols]
    exact not_mem_removeFirstName name s.manifest.Collections hd
  · intro k hk
    rw [Bool.eq_iff_iff, hasCollection_iff, hasCollection_iff, hcols]
    exact mem_removeFirstName_of_ne hk s.manifest.Collections
  · intro h
    rw [Uninstall_fs, Uninstall_manifest]
    exact Save_ok marshal _ _ (Uninstall_result names marshal col name all s h)

/-- Uninstalling `base` from the project in which `base` and `extra` are installed: the rule
`common`, which `extra` lists too, keeps its row and its file; the rule `own` and the command
`foo` lose their rows and files; `base` is no longer installed. -/
theorem uninstall_shared_retention_witness :
    installedState.manifest.UniqueKeys ∧ installedState.manifest.Collections.Nodup ∧
      (Uninstall sampleNames marshalCompact baseCollection "base" sampleMap
        installedState).2.manifest.Entries =
        [⟨"rules", "common", true, ["rules/common/style.mdc"]⟩] ∧
      (Uninstall sampleNames marshalCompact baseCollection "base" sampleMap
        installedState).2.fs.fileAt (recordedPath "rules/common/style.mdc") = some "style" ∧
      (Uninstall sampleNames marshalCompact baseCollection "base" sampleMap
        installedState).2.fs.fileAt (recordedPath "rules/own/a.mdc") = none ∧
      (Uninstall sampleNames marshalCompact baseCollection "base" sampleMap
        installedState).2.manifest.HasCollection "base" = false :=
  have hu : installedState.manifest.UniqueKeys := by
    show ([("rules", "common"), ("rules", "own"), ("commands", "foo")] :
      List (String × String)).Nodup
    decide
  have hd : installedState.manifest.Collections.Nodup := by
    show (["base", "extra"] : List String).Nodup
    decide
  have h := uninstall_shared_retention sampleNames marshalCompact baseCollection "base"
    sampleMap installedState hu hd
  ⟨hu, hd, by decide, by decide,
    (h.2.2.1 "rules" "own" ⟨"rules", "own", true, ["rules/own/a.mdc"]⟩ (by decide) (by decide)
      (by decide)).2 "rules/own/a.mdc" (by decide) (by decide),
    h.2.2.2.1⟩

/-- C13 as stated fails in three ways. When the rows of `commands/foo`, which `extra` lists
too, and of `commands/foo.md`, which only `base` lists, record the same file, uninstalling
`base` keeps the row of `commands/foo` and deletes its file with the other row. When the
installed list names `base` twice, `base` is still in it after the uninstall. When the row
that is dropped records the ledger file, that file is there after the uninstall, written by
Save. -/
theorem uninstall_deletes_shared_file :
    (isShared overlapState.manifest overlapMap "base" "commands" "foo" = true ∧
      isShared overlapState.manifest overlapMap "base" "commands" "foo.md" = false ∧
      overlapState.manifest.GetEntry "commands" "foo" =
        some ⟨"commands", "foo", false, ["commands/foo.md"]⟩ ∧
      overlapState.fs.fileAt (recordedPath "commands/foo.md") = some "theirs" ∧
      (Uninstall sampleNames marshalCompact overlapCollection "base" overlapMap
        overlapState).1 = none ∧
      (Uninstall sampleNames marshalCompact overlapCollection "base" overlapMap
        overlapState).2.manifest.GetEntry "commands" "foo" =
        some ⟨"commands", "foo", false, ["commands/foo.md"]⟩ ∧
      (Uninstall sampleNames marshalCompact overlapCollection "base" overlapMap
        overlapState).2.fs.fileAt (recordedPath "commands/foo.md") = none) ∧
    ((Uninstall sampleNames marshalCompact baseCollection "base" sampleMap
        twiceInstalledState).1 = none ∧
      (Uninstall sampleNames marshalCompact baseCollection "base" sampleMap
        twiceInstalledState).2.manifest.HasCollection "base" = true) ∧
    (isShared ledgerRowState.manifest ledgerMap "base" "." ".curset.json" = false ∧
      ledgerRowState.manifest.GetEntry "." ".curset.json" =
        some ⟨".", ".curset.json", false, [".curset.json"]⟩ ∧
      (Uninstall sampleNames marshalCompact ledgerCollection "base" ledgerMap
        ledgerRowState).1 = none ∧
      (Uninstall sampleNames marshalCompact ledgerCollection "base" ledgerMap
        ledgerRowState).2.manifest.IsManaged "." ".curset.json" = false ∧
      (Uninstall sampleNames marshalCompact ledgerCollection "base" ledgerMap
        ledgerRowState).2.fs.fileAt (recordedPath ".curset.json") =
        some (marshalCompact ⟨[], [], ""⟩)) := by
  refine ⟨⟨by decide, by decide, by decide, by decide, by decide, by decide, by decide⟩,
    ⟨by decide, by decide⟩, ⟨by decide, by decide, by decide, by decide, by decide⟩⟩

end Curset
